import Mathlib

/-!
Verification model of CompactTree (`src/CompactTree/compact_tree.h`).

Node ids (`CT_NODE_T`, by default `std::uint32_t`) are modelled as `Nat`, with the
sentinel `NULL_NODE = std::numeric_limits<std::uint32_t>::max() = 2^32 - 1`; all
trees considered have far fewer than `2^32 - 1` nodes, so the unsigned arithmetic
never wraps.  Edge lengths (`CT_LENGTH_T`) are modelled as exact rationals `Rat`;
`std::atof` is modelled by `atofQ` on plain decimal/exponent tokens and the
`operator<<` rendering of a length by the exact decimal rendering `lenChars`
(the claims treated here do not hinge on binary-float rounding, which the spec
itself waives as "within floating-point tolerance").

The C++ vectors are modelled as `List`s.  Accesses that the source performs with
unchecked `operator[]` are modelled with guarded lookups returning an `oob`
outcome where a claim is about memory safety, and with `getD` defaults where the
surrounding invariants keep them in bounds.  `std::unordered_map` /
`std::unordered_set` are modelled as association lists / duplicate-free lists;
their unspecified iteration order is fixed to insertion order, a legitimate
refinement of the C++ semantics.
-/

abbrev Node := Nat

def NULL_NODE : Nat := 2 ^ 32 - 1

def ROOT_NODE : Nat := 0

/-- The four parallel per-node containers of `compact_tree`
(`parent`, `children`, `label`, `length`).  The `num_leaves` cache is not
modelled: `get_num_leaves` is modelled by the scan `calc_num_leaves` performs,
which is the value the cache always holds once populated. -/
structure compact_tree where
  parent   : List Nat
  children : List (List Nat)
  label    : List String
  length   : List Rat
deriving Repr, DecidableEq

def empty_tree : compact_tree := ⟨[], [], [], []⟩

/-- `compact_tree::get_num_nodes`. -/
def get_num_nodes (t : compact_tree) : Nat := t.parent.length

/-- `compact_tree::is_leaf`: `children[node].size() == 0`. -/
def is_leaf (t : compact_tree) (node : Node) : Bool := (t.children.getD node []).length == 0

/-- `compact_tree::get_parent`: `parent[node]`. -/
def get_parent (t : compact_tree) (node : Node) : Node := t.parent.getD node NULL_NODE

/-- `compact_tree::get_children`. -/
def get_children (t : compact_tree) (node : Node) : List Node := t.children.getD node []

/-- `compact_tree::has_edge_lengths`: `length.size() != 0`. -/
def has_edge_lengths (t : compact_tree) : Bool := t.length.length != 0

/-- `compact_tree::get_edge_length`: `has_edge_lengths() ? length[node] : 0`. -/
def get_edge_length (t : compact_tree) (node : Node) : Rat :=
  if has_edge_lengths t then t.length.getD node 0 else 0

/-- `compact_tree::get_edge_lengths`. -/
def get_edge_lengths (t : compact_tree) : List Rat := t.length

/-- `compact_tree::has_labels`: `label.size() != 0`. -/
def has_labels (t : compact_tree) : Bool := t.label.length != 0

/-- `compact_tree::get_label`. -/
def get_label (t : compact_tree) (node : Node) : String :=
  if has_labels t then t.label.getD node "" else ""

/-- `compact_tree::get_labels`. -/
def get_labels (t : compact_tree) : List String := t.label

/-- `compact_tree::get_num_leaves` (the cached value equals this scan). -/
def get_num_leaves (t : compact_tree) : Nat :=
  ((List.range (get_num_nodes t)).filter (fun n => is_leaf t n)).length

/-- `compact_tree::get_num_internal`. -/
def get_num_internal (t : compact_tree) : Nat := get_num_nodes t - get_num_leaves t

/-- `compact_tree::set_label`: backfills `label` with `num_nodes` empty strings
when label storage was disabled, then writes `label[node]`. -/
def set_label (t : compact_tree) (node : Node) (new_label : String) : compact_tree :=
  let t := if has_labels t then t else { t with label := List.replicate (get_num_nodes t) "" }
  { t with label := t.label.set node new_label }

/-- `compact_tree::set_edge_length`: backfills `length` with `num_nodes` zeros
when length storage was disabled, then writes `length[node]`. -/
def set_edge_length (t : compact_tree) (node : Node) (new_length : Rat) : compact_tree :=
  let t := if has_edge_lengths t then t else { t with length := List.replicate (get_num_nodes t) 0 }
  { t with length := t.length.set node new_length }

/-- The copy constructor `compact_tree(const compact_tree&)`: copies the four
containers verbatim. -/
def copy_tree (o : compact_tree) : compact_tree := ⟨o.parent, o.children, o.label, o.length⟩

/-- `compact_tree::create_child`: appends a new node (fresh id = current size),
registers it under its parent when the parent is not `NULL_NODE`, and appends a
default slot to `length` / `label` when the corresponding storage is enabled. -/
def create_child (t : compact_tree) (parent_node : Node) (store_labels store_lengths : Bool) :
    compact_tree × Nat :=
  let tmp_node := t.parent.length
  let t := { t with parent := t.parent ++ [parent_node], children := t.children ++ [[]] }
  let t := if parent_node != NULL_NODE then
      { t with children := t.children.set parent_node ((t.children.getD parent_node []) ++ [tmp_node]) }
    else t
  let t := if store_lengths then { t with length := t.length ++ [0] } else t
  let t := if store_labels then { t with label := t.label ++ [""] } else t
  (t, tmp_node)

/-! ### Decimal parsing and rendering of edge lengths -/

def isDigitC (c : Char) : Bool := 48 ≤ c.toNat && c.toNat ≤ 57

def digitsToNat (ds : List Char) : Nat := ds.foldl (fun acc c => acc * 10 + (c.toNat - 48)) 0

def digitChar (n : Nat) : Char := Char.ofNat (48 + n)

/-- Decimal digits of a natural number, most significant first. -/
def natDigits (n : Nat) : List Char :=
  if _h : n < 10 then [digitChar n]
  else natDigits (n / 10) ++ [digitChar (n % 10)]
decreasing_by exact Nat.div_lt_self (by omega) (by omega)

/-- Exactly `k` digits with leading zeros (for a fractional part `n < 10^k`). -/
def padDigits (k : Nat) (n : Nat) : List Char :=
  List.replicate (k - (natDigits n).length) (digitChar 0) ++ natDigits n

def squote : Char := Char.ofNat 39
def dquote : Char := Char.ofNat 34

/-- Model of `std::atof` on the token buffer: optional leading whitespace, an
optional sign, decimal digits with an optional fractional part, and an optional
decimal exponent; any trailing junk is ignored and a token with no digits at
all yields `0` (hex / infinity / NaN forms are out of scope for Newick data). -/
def atofQ (s : List Char) : Rat :=
  let s := s.dropWhile (fun c => c == ' ' || c == '\t' || c == '\n' || c == '\r')
  let sgn : Rat := if s.head? = some '-' then -1 else 1
  let s := if s.head? = some '-' || s.head? = some '+' then s.tail else s
  let ip := s.takeWhile isDigitC
  let s1 := s.dropWhile isDigitC
  let fp := if s1.head? = some '.' then s1.tail.takeWhile isDigitC else []
  let s2 := if s1.head? = some '.' then s1.tail.dropWhile isDigitC else s1
  let ex : Int :=
    if s2.head? = some 'e' || s2.head? = some 'E' then
      let s3 := s2.tail
      let esgn : Int := if s3.head? = some '-' then -1 else 1
      let s4 := if s3.head? = some '-' || s3.head? = some '+' then s3.tail else s3
      let eds := s4.takeWhile isDigitC
      if eds = [] then 0 else esgn * (digitsToNat eds : Int)
    else 0
  if ip = [] ∧ fp = [] then 0
  else sgn * ((digitsToNat ip * 10 ^ fp.length + digitsToNat fp : Nat) : Rat)
        / ((10 : Rat) ^ fp.length) * (10 : Rat) ^ ex

/-- Smallest `k ≤ fuel + start` with `den ∣ 10^k`, searching upward from `k`. -/
def decExpAux : Nat → Nat → Nat → Option Nat
  | 0, _, _ => none
  | fuel + 1, den, k => if 10 ^ k % den = 0 then some k else decExpAux fuel den (k + 1)

def decExp (den : Nat) : Option Nat := decExpAux (den + 1) den 0

/-- A rational is exactly renderable in decimal iff its reduced denominator
divides a power of ten; `den ∣ 10^den` is an equivalent bounded form. -/
def IsDecRat (q : Rat) : Prop := q.den ∣ 10 ^ q.den

instance (q : Rat) : Decidable (IsDecRat q) := by unfold IsDecRat; infer_instance

/-- Model of `operator<<` on an edge length, under the exact-rational semantics:
the (unique) terminating decimal expansion of the value.  Only decimal-renderable
rationals reach this in the developments below; the `none` branch is dead. -/
def lenChars (q : Rat) : List Char :=
  match decExp q.den with
  | none => [digitChar 0]
  | some k =>
    let m : Int := q.num * ((10 ^ k / q.den : Nat) : Int)
    let a := m.natAbs
    (if m < 0 then ['-'] else []) ++ natDigits (a / 10 ^ k) ++
      (if k = 0 then [] else '.' :: padDigits k (a % 10 ^ k))

/-! ### The Newick parser (`compact_tree::compact_tree(const char*, ...)`)

The byte-at-a-time loop over the refill buffer is modelled as a recursion over
the input character list: the buffer chunking is semantically transparent (the
`--i` re-read trick never crosses a refill and the code re-enters the loop with
identical state at every refill), and running out of input before the
terminating `';'` (`bytes_read == 0`) throws the malformed-input error.  The
`--i; break` re-reads are modelled by performing the re-processed character's
`NORMAL`-state action (`normalStep`) directly after finalizing the pending
token, which is exactly what the next loop iteration does in the source. -/

inductive PErr where
  | malformed  -- std::invalid_argument("Invalid Newick ...")
  | oob        -- an out-of-bounds container access (undefined behavior in C++)
deriving Repr, DecidableEq

/-- Parser state: the tree built so far, `curr_node`, the shared `str_buf`, and
the five lexer flags of the source. -/
structure PState where
  t : compact_tree
  curr : Node
  buf : List Char
  plen : Bool      -- parse_length
  plab : Bool      -- parse_label
  psingle : Bool   -- parse_label_single
  pdouble : Bool   -- parse_label_double
  pcomment : Bool  -- parse_comment
deriving Repr

inductive StepR where
  | cont (st : PState)
  | done (t : compact_tree)
  | fail (e : PErr)

/-- Guarded `vector::operator[]=` : `none` when the index is out of bounds. -/
def setG {α : Type} (l : List α) (i : Nat) (x : α) : Option (List α) :=
  if i < l.length then some (l.set i x) else none

/-- The `NORMAL`-state `switch` of the parser ("all other symbols").  The
`default` case (start of an unquoted label) folds in the `--i` re-read: the same
character is immediately accumulated as the first label character. -/
def normalStep (a b : Bool) (st : PState) (c : Char) : StepR :=
  if c = ' ' then .cont st
  else if c = ';' then
    if st.curr ≠ ROOT_NODE then .fail .malformed else .done st.t
  else if c = '(' then
    if st.curr = NULL_NODE then .fail .malformed
    else
      let p := create_child st.t st.curr a b
      .cont { st with t := p.1, curr := p.2 }
  else if c = ')' then
    match st.t.parent.get? st.curr with
    | none => .fail .oob
    | some p => .cont { st with curr := p }
  else if c = ',' then
    if st.curr = NULL_NODE then .fail .malformed
    else
      match st.t.parent.get? st.curr with
      | none => .fail .oob
      | some p =>
        if p = NULL_NODE then .fail .malformed
        else
          let q := create_child st.t p a b
          .cont { st with t := q.1, curr := q.2 }
  else if c = '[' then .cont { st with pcomment := true }
  else if c = ':' then .cont { st with buf := if b then [] else st.buf, plen := true }
  else if c = squote then
    .cont { st with buf := if a then [] else st.buf, plab := true, psingle := true }
  else if c = dquote then
    .cont { st with buf := if a then [] else st.buf, plab := true, pdouble := true }
  else .cont { st with buf := if a then [c] else st.buf, plab := true }

/-- Processing of one input character (one iteration of the byte loop):
dispatch on `parse_comment` / `parse_length` / `parse_label` and fall through
to the `NORMAL`-state `switch`.  The `--i; break` re-reads after finalizing a
pending length/label token are folded in by applying `normalStep` to the same
character directly, which is what the next loop iteration does in the source. -/
def parseStep (a b : Bool) (st : PState) (c : Char) : StepR :=
  if st.pcomment then
    .cont (if c = ']' then { st with pcomment := false } else st)
  else if st.plen then
    if c = ',' ∨ c = ')' ∨ c = ';' then
      -- finished parsing the edge length; store it and re-read `c` in NORMAL
      if b then
        match setG st.t.length st.curr (atofQ st.buf) with
        | none => .fail .oob
        | some L => normalStep a b { st with t := { st.t with length := L }, plen := false } c
      else normalStep a b { st with plen := false } c
    else if c = '[' then .cont { st with pcomment := true }
    else .cont { st with buf := if b then st.buf ++ [c] else st.buf }
  else if st.plab then
    if st.psingle ∨ st.pdouble then
      -- quoted label: blindly accumulate, stop on the matching quote
      let st' := { st with buf := if a then st.buf ++ [c] else st.buf }
      if (c = squote ∧ st.psingle) ∨ (c = dquote ∧ st.pdouble) then
        if a then
          match setG st'.t.label st'.curr (String.mk st'.buf) with
          | none => .fail .oob
          | some L =>
            .cont { st' with t := { st'.t with label := L }, plab := false,
                             psingle := false, pdouble := false }
        else .cont { st' with plab := false, psingle := false, pdouble := false }
      else .cont st'
    else
      -- unquoted label
      if c = ':' ∨ c = ',' ∨ c = ')' ∨ c = ';' then
        -- finished the label; store it and re-read `c` in NORMAL
        if a then
          match setG st.t.label st.curr (String.mk st.buf) with
          | none => .fail .oob
          | some L => normalStep a b { st with t := { st.t with label := L }, plab := false } c
        else normalStep a b { st with plab := false } c
      else .cont { st with buf := if a then st.buf ++ [c] else st.buf }
  else normalStep a b st c

/-- The main byte loop.  `a` = `store_labels`, `b` = `store_lengths`. -/
def parseChars (a b : Bool) (st : PState) : List Char → Except PErr compact_tree
  | [] => .error .malformed
  | c :: cs =>
    match parseStep a b st c with
    | .cont st' => parseChars a b st' cs
    | .done t => .ok t
    | .fail e => .error e

/-- The constructor entry point with `is_fn = false`: seed the empty root via
`create_child(NULL_NODE, ...)` and run the lexer loop on the string. -/
def parseNewick (store_labels store_lengths : Bool) (input : List Char) :
    Except PErr compact_tree :=
  let p := create_child empty_tree NULL_NODE store_labels store_lengths
  parseChars store_labels store_lengths
    ⟨p.1, ROOT_NODE, [], false, false, false, false, false⟩ input

/-! ### Newick re-serialization (`compact_tree::print_newick`) -/

/-- The recursive `print_newick` body: children comma-separated inside
parentheses (first child preceded by `'('`), a `')'` for internal nodes, then
the label whenever label storage is enabled, then `':'` and the length whenever
length storage is enabled, then the optional semicolon.  The recursion is run
with fuel; any fuel exceeding the tree height (e.g. `num_nodes + 1`) is enough. -/
def print_newick_go (t : compact_tree) : Nat → Node → Bool → List Char
  | 0, _, _ => []
  | fuel + 1, node, include_semicolon =>
    (match t.children.getD node [] with
     | [] => []
     | c :: cs =>
       '(' :: print_newick_go t fuel c false ++
         (cs.map (fun c2 => ',' :: print_newick_go t fuel c2 false)).flatten) ++
    (if is_leaf t node then [] else [')']) ++
    (if t.label.length ≠ 0 then (t.label.getD node "").toList else []) ++
    (if t.length.length ≠ 0 then ':' :: lenChars (t.length.getD node 0) else []) ++
    (if include_semicolon then [';'] else [])

/-- `compact_tree::get_newick` (via `print_newick` into a string stream). -/
def get_newick (t : compact_tree) (node : Node := ROOT_NODE)
    (include_semicolon : Bool := true) : String :=
  String.mk (print_newick_go t (get_num_nodes t + 1) node include_semicolon)

/-! ### `calc_dist`

`std::unordered_map<CT_NODE_T, double>` is modelled as an association list;
`operator[]` on the right-hand side default-inserts `0` for an absent key
(`getIns`), and on the left-hand side inserts-or-assigns (`updM`). -/

def updM (m : List (Node × Rat)) (k : Node) (v : Rat) : List (Node × Rat) :=
  if (m.lookup k).isSome then m.map (fun p => if p.1 = k then (k, v) else p) else m ++ [(k, v)]

def getIns (m : List (Node × Rat)) (k : Node) : Rat × List (Node × Rat) :=
  match m.lookup k with
  | some v => (v, m)
  | none => (0, m ++ [(k, 0)])

/-- The first `while` loop of `calc_dist`: walk from `c` (with `p = parent[c]`)
to the root, writing `u_dists[p] = u_dists[c] + get_edge_length(c)` at each
step.  Fuel `num_nodes + 1` exceeds any root-ward walk. -/
def distWalkUp (t : compact_tree) : Nat → Node → Node → List (Node × Rat) → List (Node × Rat)
  | 0, _, _, m => m
  | fuel + 1, c, p, m =>
    if p = NULL_NODE then m
    else
      let vc := getIns m c
      let m := updM vc.2 p (vc.1 + get_edge_length t c)
      distWalkUp t fuel p (t.parent.getD p NULL_NODE) m

/-- The second `while` loop of `calc_dist`: walk from `v` to the root, and after
each write test whether `p` is in `u_dists`; if so return
`u_dists[p] + v_dists[p]`.  Returns `none` when the walk exhausts (the
`return -1` line of the source). -/
def distWalkCheck (t : compact_tree) (udists : List (Node × Rat)) :
    Nat → Node → Node → List (Node × Rat) → Option Rat
  | 0, _, _, _ => none
  | fuel + 1, c, p, m =>
    if p = NULL_NODE then none
    else
      let vc := getIns m c
      let m := updM vc.2 p (vc.1 + get_edge_length t c)
      match udists.lookup p with
      | some d => some (d + ((m.lookup p).getD 0))
      | none => distWalkCheck t udists fuel p (t.parent.getD p NULL_NODE) m

/-- `compact_tree::calc_dist`. -/
def calc_dist (t : compact_tree) (u v : Node) : Rat :=
  if u = v then 0
  else if u = t.parent.getD v NULL_NODE then get_edge_length t v
  else if v = t.parent.getD u NULL_NODE then get_edge_length t u
  else
    let fuel := get_num_nodes t + 1
    let udists := distWalkUp t fuel u (t.parent.getD u NULL_NODE) []
    match distWalkCheck t udists fuel v (t.parent.getD v NULL_NODE) [] with
    | some d => d
    | none => -1

/-! ### `find_mrca`

The `std::unordered_set` argument is modelled as a duplicate-free list (in an
arbitrary order, matching the unspecified iteration order used to seed the
queue), the FIFO `std::queue` as a list popped at the head and pushed at the
tail, and the `count` map as an association list.  The `while (!to_visit.empty())`
loop is run with fuel; `find_mrca` supplies fuel exceeding the total number of
queue pops any run can perform, so the fuel-exhausted branch is never taken on
well-formed trees. -/

def updC (m : List (Nat × Nat)) (k : Nat) (v : Nat) : List (Nat × Nat) :=
  if (m.lookup k).isSome then m.map (fun p => if p.1 = k then (k, v) else p) else m ++ [(k, v)]

def find_mrca_go (t : compact_tree) (total : Nat) :
    Nat → List Nat → List (Nat × Nat) → Nat
  | 0, _, _ => NULL_NODE
  | fuel + 1, q, count =>
    match q with
    | [] => NULL_NODE
    | curr :: q' =>
      let curr_parent := t.parent.getD curr NULL_NODE
      let cx := ((count.lookup curr).getD 0) + 1
      let count := updC count curr cx
      if cx = total then curr
      else if curr_parent ≠ NULL_NODE then find_mrca_go t total fuel (q' ++ [curr_parent]) count
      else find_mrca_go t total fuel q' count

/-- `compact_tree::find_mrca`. -/
def find_mrca (t : compact_tree) (nodes : List Node) : Node :=
  find_mrca_go t nodes.length
    (get_num_nodes t * nodes.length + nodes.length + 1) nodes []

/-! ### `calc_distance_matrix`

Each `std::unordered_map<CT_NODE_T, double>*` is an association list (iteration
in insertion order); `leaf_dists` maps node ids to their maps.  The raw
`length[child]` access in the merge step is modelled guarded (`oob` on an
out-of-bounds index), as is the `leaf_dists[child]` pointer dereference; the
`delete` of merged child maps only releases memory (the dangling keys are never
looked up again) and is not modelled. -/

abbrev LMap := List (Nat × Rat)

/-- `unordered_map::emplace`: inserts only when the key is absent. -/
def emplaceL (m : LMap) (k : Nat) (v : Rat) : LMap :=
  if (m.lookup k).isSome then m else m ++ [(k, v)]

/-- The innermost double loop: one output entry per (leaf of `child`, leaf of
`child_2`) with distance `d1 + d2 + get_edge_length(child) + get_edge_length(child_2)`. -/
def dmPairs (t : compact_tree) (child : Node) (m1 : LMap) (child2 : Node) (m2 : LMap) :
    List ((Node × Node) × Rat) :=
  (m1.map (fun e1 =>
    m2.map (fun e2 =>
      ((e1.1, e2.1), e1.2 + e2.2 + get_edge_length t child + get_edge_length t child2)))).flatten

/-- Pairs of `child` against each later sibling. -/
def dmPairsWith (t : compact_tree) (lds : List (Nat × LMap)) (child : Node) (m1 : LMap) :
    List Node → Except PErr (List ((Node × Node) × Rat))
  | [] => .ok []
  | c2 :: rest =>
    match lds.lookup c2 with
    | none => .error .oob
    | some m2 => do
      let more ← dmPairsWith t lds child m1 rest
      return dmPairs t child m1 c2 m2 ++ more

/-- The outer pair loop over `ch_it` with `std::next(ch_it) != ch_it_end`:
every unordered pair of distinct children in order. -/
def dmPairLoop (t : compact_tree) (lds : List (Nat × LMap)) :
    List Node → Except PErr (List ((Node × Node) × Rat))
  | [] => .ok []
  | [_] => .ok []
  | c :: rest =>
    match lds.lookup c with
    | none => .error .oob
    | some m1 => do
      let first ← dmPairsWith t lds c m1 rest
      let more ← dmPairLoop t lds rest
      return first ++ more

/-- Merging one child map into the current node's map: for each entry, emplace
`(leaf, d + length[child])`, where `length[child]` is the unguarded raw access
of the source (line 580), modelled as failing with `oob` when out of bounds. -/
def dmMergeChild (t : compact_tree) (child : Node) (childM : LMap) (currM : LMap) :
    Except PErr LMap :=
  childM.foldlM (fun acc e =>
    match t.length.get? child with
    | none => .error .oob
    | some lc => .ok (emplaceL acc e.1 (e.2 + lc))) currM

/-- The merge loop over all children. -/
def dmMergeLoop (t : compact_tree) (lds : List (Nat × LMap)) :
    List Node → LMap → Except PErr LMap
  | [], currM => .ok currM
  | c :: rest, currM =>
    match lds.lookup c with
    | none => .error .oob
    | some cm => do
      let currM ← dmMergeChild t c cm currM
      dmMergeLoop t lds rest currM

structure DMState where
  dm : List ((Node × Node) × Rat)
  leafDists : List (Nat × LMap)

/-- The body of the `for (curr = NUM_NODES-1; ...)` loop for a single node. -/
def dmNode (t : compact_tree) (st : DMState) (curr : Node) : Except PErr DMState :=
  if is_leaf t curr then
    .ok { st with leafDists := st.leafDists ++ [(curr, [(curr, 0)])] }
  else do
    let ch := t.children.getD curr []
    let pairs ← dmPairLoop t st.leafDists ch
    let merged ← dmMergeLoop t st.leafDists ch []
    return { dm := st.dm ++ pairs, leafDists := st.leafDists ++ [(curr, merged)] }

def dmLoop (t : compact_tree) : List Node → DMState → Except PErr DMState
  | [], st => .ok st
  | n :: ns, st => do
    let st ← dmNode t st n
    dmLoop t ns st

/-- `compact_tree::calc_distance_matrix`: the node loop runs over ids
`NUM_NODES-1` down to `0`. -/
def calc_distance_matrix (t : compact_tree) : Except PErr (List ((Node × Node) × Rat)) := do
  let st ← dmLoop t (List.range (get_num_nodes t)).reverse ⟨[], []⟩
  return st.dm

/-! ### `extract_subtree` -/

/-- The stack loop of `extract_subtree`: pop `(old, new)`, copy label/length,
and for each child of `old` (in order) create a new node and push the pair.
One iteration per copied node; fuel `num_nodes + 1` of the source is enough. -/
def extract_go (src : compact_tree) (has_lab has_len : Bool) :
    Nat → List (Node × Node) → compact_tree → compact_tree
  | 0, _, nt => nt
  | _ + 1, [], nt => nt
  | fuel + 1, (o, n) :: stk, nt =>
    let nt := if has_len then { nt with length := nt.length.set n (src.length.getD o 0) } else nt
    let nt := if has_lab then { nt with label := nt.label.set n (src.label.getD o "") } else nt
    let step := (src.children.getD o []).foldl
      (fun (acc : compact_tree × List (Node × Node)) c =>
        let p := create_child acc.1 n has_lab has_len
        (p.1, (c, p.2) :: acc.2))
      (nt, [])
    extract_go src has_lab has_len fuel (step.2 ++ stk) step.1

/-- `compact_tree::extract_subtree`: seeds the new tree with
`create_child(NULL_NODE, ...)` *and additionally* appends one more default
length/label slot (lines 602-603 of the source) before running the copy loop. -/
def extract_subtree (src : compact_tree) (node : Node) : compact_tree :=
  let has_len := src.length.length ≠ 0
  let has_lab := src.label.length ≠ 0
  let nt := (create_child empty_tree NULL_NODE has_lab has_len).1
  let nt := if has_len then { nt with length := nt.length ++ [0] } else nt
  let nt := if has_lab then { nt with label := nt.label ++ [""] } else nt
  extract_go src has_lab has_len (get_num_nodes src + 1) [(node, ROOT_NODE)] nt

/-! ## Concrete evaluation facts

Named inputs and their parse results, used by the claim theorems below.
Quote characters are spelled via `squote`/`dquote`. -/

def c1input : List Char := "((A:2):1);".toList

def c1tree : compact_tree := ⟨[NULL_NODE, 0, 1], [[1], [2], []], ["", "", "A"], [0, 1, 2]⟩

def c1chainInput : List Char := "(((A:3):2):1);".toList

def c1chain : compact_tree :=
  ⟨[NULL_NODE, 0, 1, 2], [[1], [2], [3], []], ["", "", "", "A"], [0, 1, 2, 3]⟩

def c2input : List Char := squote :: 'A' :: ',' :: 'B' :: squote :: [';']

def c2tree : compact_tree := ⟨[NULL_NODE], [[]], [String.mk ['A', ',', 'B', squote]], [0]⟩

def c5tree : compact_tree :=
  ⟨[NULL_NODE, 0, 1, 1], [[1], [2, 3], [], []], ["", "", "A", "B"], [0, 0, 0, 0]⟩

def c7tree : compact_tree := ⟨[NULL_NODE], [[]], ["A"], [0]⟩

def c8tree : compact_tree := ⟨[NULL_NODE, 0, 0], [[1, 2], [], []], ["C", "A", "B"], [0, 1, 2]⟩

/-- C1: `calc_dist` does *not* compute the path-length sum whenever one
endpoint is the root and the other is at depth ≥ 2: on the tree `((A:2):1);`
(root `0` → internal `1` → leaf `A = 2`, path length `1 + 2 = 3`), the walk maps
never meet (the root's own walk map is empty) and the function falls through to
its `return -1.; // error, shouldn't reach here` line.  Moreover when `v` is a
proper ancestor of `u` at depth difference ≥ 2 the meeting test skips `v`
itself, overshooting: on `(((A:3):2):1);`, `calc_dist(3, 1)` returns `7`
although the path length is `3 + 2 = 5`. -/
theorem C1_calc_dist_root_walk_bug :
    parseNewick true true c1input = .ok c1tree ∧
    get_parent c1tree 1 = ROOT_NODE ∧ get_parent c1tree 2 = 1 ∧
    get_edge_length c1tree 1 + get_edge_length c1tree 2 = 3 ∧
    calc_dist c1tree ROOT_NODE 2 = -1 ∧
    parseNewick true true c1chainInput = .ok c1chain ∧
    get_edge_length c1chain 3 + get_edge_length c1chain 2 = 5 ∧
    calc_dist c1chain 3 1 = 7 := by
  refine ⟨?_, ?_, ?_, ?_, ?_, ?_, ?_, ?_⟩ <;>
    simp [c1input, c1tree, c1chainInput, c1chain, parseNewick, parseChars, parseStep, normalStep,
      create_child, setG, empty_tree, atofQ, digitsToNat, isDigitC, squote, dquote,
      NULL_NODE, ROOT_NODE, calc_dist, distWalkUp, distWalkCheck, getIns, updM,
      get_edge_length, has_edge_lengths, get_num_nodes, get_parent, List.lookup] <;>
    norm_num

/-- C3: of the three malformed inputs, `"(A,B"` and `"A,B);"` are indeed
rejected with the malformed-input error, but `")A;"` first performs an
out-of-bounds write `label[NULL_NODE] = "A"` (undefined behavior in the C++
source) when the unquoted label is finalized with `curr_node == NULL_NODE`,
before the `';'` check that would raise the error is ever reached. -/
theorem C3_malformed_inputs_eval :
    parseNewick true true "(A,B".toList = .error .malformed ∧
    parseNewick true true "A,B);".toList = .error .malformed ∧
    parseNewick true true ")A;".toList = .error .oob := by
  refine ⟨?_, ?_, ?_⟩ <;>
    simp [parseNewick, parseChars, parseStep, normalStep, create_child, setG, empty_tree,
      atofQ, digitsToNat, isDigitC, squote, dquote, NULL_NODE, ROOT_NODE]

/-- C2 (counterexample): the valid Newick string `'A,B';` parses to a single
node labelled `A,B'` (closing quote appended, opening quote dropped), but its
re-serialization `A,B':0;` fails to parse at the now-unquoted `','`, so the
round trip does not yield an identical tree — it yields no tree at all. -/
theorem C2_quoted_roundtrip_counterexample :
    parseNewick true true c2input = .ok c2tree ∧
    (get_newick c2tree).toList = 'A' :: ',' :: 'B' :: squote :: ':' :: '0' :: [';'] ∧
    parseNewick true true (get_newick c2tree).toList = .error .malformed := by
  refine ⟨?_, ?_, ?_⟩ <;>
    simp [c2input, c2tree, parseNewick, parseChars, parseStep, normalStep, create_child, setG,
      empty_tree, atofQ, digitsToNat, isDigitC, squote, dquote, NULL_NODE, ROOT_NODE,
      get_newick, print_newick_go, get_num_nodes, is_leaf, lenChars, decExp, decExpAux,
      natDigits, padDigits, digitChar]

/-- C5 (counterexample): on `((A,B));` — a root whose single child is the
cherry `(A,B)` — the leaves are exactly `{2, 3}`, yet `find_mrca({2, 3})`
returns node `1` (the true MRCA) rather than the root `0`: the child's visit
counter reaches the set size before the root's does, whatever order the
`unordered_set` seeds the queue in. -/
theorem C5_mrca_all_leaves_counterexample :
    parseNewick true true "((A,B));".toList = .ok c5tree ∧
    (List.range (get_num_nodes c5tree)).filter (fun n => is_leaf c5tree n) = [2, 3] ∧
    find_mrca c5tree [2, 3] = 1 ∧ find_mrca c5tree [3, 2] = 1 ∧ (1 : Node) ≠ ROOT_NODE := by
  refine ⟨?_, ?_, ?_, ?_, ?_⟩ <;>
    simp [c5tree, parseNewick, parseChars, parseStep, normalStep, create_child, setG, empty_tree,
      atofQ, digitsToNat, isDigitC, squote, dquote, NULL_NODE, ROOT_NODE,
      find_mrca, find_mrca_go, updC, get_num_nodes, is_leaf, List.range_succ, List.lookup]

/-- C6 (counterexample): `"A;B;"` is accepted, not rejected — the constructor
returns at the first `';'` seen with `curr_node == root` and the trailing
`"B;"` is never examined. -/
theorem C6_trailing_content_counterexample :
    parseNewick true true "A;B;".toList = .ok ⟨[NULL_NODE], [[]], ["A"], [0]⟩ := by
  simp [parseNewick, parseChars, parseStep, normalStep, create_child, setG, empty_tree,
    atofQ, digitsToNat, isDigitC, squote, dquote, NULL_NODE, ROOT_NODE]

/-- C7 (counterexample): on the tree parsed from `"A;"` with edge-length
storage enabled, the root's stored length is the default `0`, yet
`print_newick` emits the `':'`-length suffix anyway: the output is `A:0;`. -/
theorem C7_zero_length_suffix_counterexample :
    parseNewick true true "A;".toList = .ok c7tree ∧
    has_edge_lengths c7tree = true ∧ get_edge_length c7tree ROOT_NODE = 0 ∧
    (get_newick c7tree).toList = 'A' :: ':' :: '0' :: [';'] := by
  refine ⟨?_, ?_, ?_, ?_⟩ <;>
    simp [c7tree, parseNewick, parseChars, parseStep, normalStep, create_child, setG, empty_tree,
      atofQ, digitsToNat, isDigitC, squote, dquote, NULL_NODE, ROOT_NODE,
      has_edge_lengths, get_edge_length, get_newick, print_newick_go, get_num_nodes,
      is_leaf, lenChars, decExp, decExpAux, natDigits, padDigits, digitChar]

/-- C8 (counterexample): `extract_subtree` seeds its result with
`create_child(NULL_NODE, ...)` — which already appends one label slot and one
length slot — and then appends one *more* default slot to each container
(lines 602-603), so the extracted tree of `(A:1,B:2)C:0;` has 3 nodes but 4
label slots and 4 length slots: `get_labels().size() == get_num_nodes() + 1`. -/
theorem C8_extract_subtree_counterexample :
    parseNewick true true "(A:1,B:2)C:0;".toList = .ok c8tree ∧
    get_num_nodes (extract_subtree c8tree ROOT_NODE) = 3 ∧
    (get_labels (extract_subtree c8tree ROOT_NODE)).length = 4 ∧
    (get_edge_lengths (extract_subtree c8tree ROOT_NODE)).length = 4 := by
  refine ⟨?_, ?_, ?_, ?_⟩ <;>
    simp [c8tree, parseNewick, parseChars, parseStep, normalStep, create_child, setG, empty_tree,
      atofQ, digitsToNat, isDigitC, squote, dquote, NULL_NODE, ROOT_NODE,
      extract_subtree, extract_go, get_num_nodes, get_labels, get_edge_lengths]

/-! ## Basic lemmas about the parser loop -/

theorem parseChars_nil (a b : Bool) (st : PState) :
    parseChars a b st [] = .error .malformed := rfl

theorem parseChars_cons (a b : Bool) (st : PState) (c : Char) (cs : List Char) :
    parseChars a b st (c :: cs) =
      match parseStep a b st c with
      | .cont st' => parseChars a b st' cs
      | .done t => .ok t
      | .fail e => .error e := rfl

/-- A successful parse is decided by a prefix of the input: the only `.ok`
outcome is the `return` at a terminating `';'`, so appending further input
cannot change it. -/
theorem parseChars_append_of_ok {a b : Bool} {st : PState} {cs : List Char} {t : compact_tree}
    (h : parseChars a b st cs = .ok t) (r : List Char) :
    parseChars a b st (cs ++ r) = .ok t := by
  induction cs generalizing st with
  | nil => simp [parseChars_nil] at h
  | cons c cs ih =>
    rw [parseChars_cons] at h
    rw [List.cons_append, parseChars_cons]
    cases hs : parseStep a b st c with
    | cont st' => rw [hs] at h; exact ih h
    | done t' => rw [hs] at h; exact h
    | fail e => rw [hs] at h; exact absurd h (by simp)

/-- C6 (amended): content after the terminating `';'` is *silently ignored*,
not rejected: the constructor `return`s at the first `';'` read while
`curr_node` is the root, so whenever an input parses successfully, the same
input followed by arbitrary trailing content parses to the same tree.  (The
malformed error is raised at a `';'` only when the current node is not the
root.) -/
theorem C6_trailing_content_ignored (a b : Bool) (s r : List Char) (t : compact_tree)
    (h : parseNewick a b s = .ok t) : parseNewick a b (s ++ r) = .ok t := by
  unfold parseNewick at h ⊢
  exact parseChars_append_of_ok h r

/-- Witness for `C6_trailing_content_ignored` at `s = "A;"`, `r = "B;"`. -/
theorem C6_trailing_content_ignored_witness :
    parseNewick true true ("A;".toList ++ "B;".toList) = .ok ⟨[NULL_NODE], [[]], ["A"], [0]⟩ :=
  C6_trailing_content_ignored true true "A;".toList "B;".toList _
    (by simp [parseNewick, parseChars, parseStep, normalStep, create_child, setG, empty_tree,
          atofQ, digitsToNat, isDigitC, squote, dquote, NULL_NODE, ROOT_NODE])

/-! ## C9: quoted labels -/

theorem quoted_single_accum (b : Bool) (inner : List Char) (hin : squote ∉ inner) :
    ∀ (st : PState) (rest : List Char), st.pcomment = false → st.plen = false →
    st.plab = true → st.psingle = true → st.pdouble = false →
    parseChars true b st (inner ++ squote :: rest) =
      match setG st.t.label st.curr (String.mk (st.buf ++ (inner ++ [squote]))) with
      | none => .error .oob
      | some L => parseChars true b
          { st with t := { st.t with label := L }, buf := st.buf ++ (inner ++ [squote]),
                    plab := false, psingle := false, pdouble := false } rest := by
  induction inner with
  | nil =>
    intro st rest h1 h2 h3 h4 h5
    rw [List.nil_append, parseChars_cons]
    simp only [parseStep, h1, h2, h3, h4, h5, Bool.false_eq_true, if_false, if_true,
      ite_true, ite_false, true_and, and_false, or_false, true_or, or_true, if_pos rfl,
      List.nil_append]
    cases hsg : setG st.t.label st.curr (String.mk (st.buf ++ [squote])) with
    | none => rfl
    | some L => rfl
  | cons c cs ih =>
    intro st rest h1 h2 h3 h4 h5
    rw [List.cons_append, parseChars_cons]
    have hc : c ≠ squote := fun h => hin (h ▸ List.mem_cons_self c cs)
    simp only [parseStep, h1, h2, h3, h4, h5, Bool.false_eq_true, if_false, ite_true,
      ite_false, true_and, and_false, or_false, hc, false_and, false_or, and_true]
    have hih := ih (fun h => hin (List.mem_cons_of_mem c h))
      ⟨st.t, st.curr, st.buf ++ [c], false, true, true, false, false⟩ rest rfl rfl rfl rfl rfl
    rw [hih]
    simp [List.append_assoc]

theorem quoted_double_accum (b : Bool) (inner : List Char) (hin : dquote ∉ inner) :
    ∀ (st : PState) (rest : List Char), st.pcomment = false → st.plen = false →
    st.plab = true → st.psingle = false → st.pdouble = true →
    parseChars true b st (inner ++ dquote :: rest) =
      match setG st.t.label st.curr (String.mk (st.buf ++ (inner ++ [dquote]))) with
      | none => .error .oob
      | some L => parseChars true b
          { st with t := { st.t with label := L }, buf := st.buf ++ (inner ++ [dquote]),
                    plab := false, psingle := false, pdouble := false } rest := by
  induction inner with
  | nil =>
    intro st rest h1 h2 h3 h4 h5
    rw [List.nil_append, parseChars_cons]
    simp only [parseStep, h1, h2, h3, h4, h5, Bool.false_eq_true, if_false, if_true,
      ite_true, ite_false, true_and, and_false, or_false, true_or, or_true, if_pos rfl,
      List.nil_append, false_or, and_true, false_and]
    cases hsg : setG st.t.label st.curr (String.mk (st.buf ++ [dquote])) with
    | none => rfl
    | some L => rfl
  | cons c cs ih =>
    intro st rest h1 h2 h3 h4 h5
    rw [List.cons_append, parseChars_cons]
    have hc : c ≠ dquote := fun h => hin (h ▸ List.mem_cons_self c cs)
    simp only [parseStep, h1, h2, h3, h4, h5, Bool.false_eq_true, if_false, ite_true,
      ite_false, true_and, and_false, or_false, hc, false_and, false_or, and_true]
    have hih := ih (fun h => hin (List.mem_cons_of_mem c h))
      ⟨st.t, st.curr, st.buf ++ [c], false, true, false, true, false⟩ rest rfl rfl rfl rfl rfl
    rw [hih]
    simp [List.append_assoc]

/-- C9: a quoted label (single or double quotes) stores exactly the characters
between the quotes followed by the matching closing quote; the opening quote is
not stored, and no inner character — the other quote kind, structural
characters, or `'['` included — terminates the label early.  Stated for
arbitrary inner texts avoiding only the matching quote character. -/
theorem C9_quoted_label_text (inner1 inner2 : List Char)
    (h1 : squote ∉ inner1) (h2 : dquote ∉ inner2) :
    parseNewick true true (squote :: (inner1 ++ squote :: [';'])) =
      .ok ⟨[NULL_NODE], [[]], [String.mk (inner1 ++ [squote])], [0]⟩ ∧
    parseNewick true true (dquote :: (inner2 ++ dquote :: [';'])) =
      .ok ⟨[NULL_NODE], [[]], [String.mk (inner2 ++ [dquote])], [0]⟩ := by
  constructor
  · show parseChars true true _ _ = _
    have hred : parseChars true true
        ⟨(create_child empty_tree NULL_NODE true true).1, ROOT_NODE, [], false, false, false,
          false, false⟩ (squote :: (inner1 ++ squote :: [';'])) =
        parseChars true true
        ⟨(create_child empty_tree NULL_NODE true true).1, ROOT_NODE, [], false, true,
          true, false, false⟩ (inner1 ++ squote :: [';']) := by
      rw [parseChars_cons]
      have hstep : parseStep true true
          ⟨(create_child empty_tree NULL_NODE true true).1, ROOT_NODE, [], false, false, false,
            false, false⟩ squote =
          .cont ⟨(create_child empty_tree NULL_NODE true true).1, ROOT_NODE, [], false, true,
            true, false, false⟩ := by
        simp [parseStep, normalStep, squote, dquote, NULL_NODE, ROOT_NODE]
      rw [hstep]
    rw [hred]
    rw [quoted_single_accum true inner1 h1
      ⟨(create_child empty_tree NULL_NODE true true).1, ROOT_NODE, [], false, true,
        true, false, false⟩ [';'] rfl rfl rfl rfl rfl]
    simp [setG, create_child, empty_tree, parseChars, parseStep, normalStep, squote, dquote,
      NULL_NODE, ROOT_NODE]
  · show parseChars true true _ _ = _
    have hred : parseChars true true
        ⟨(create_child empty_tree NULL_NODE true true).1, ROOT_NODE, [], false, false, false,
          false, false⟩ (dquote :: (inner2 ++ dquote :: [';'])) =
        parseChars true true
        ⟨(create_child empty_tree NULL_NODE true true).1, ROOT_NODE, [], false, true,
          false, true, false⟩ (inner2 ++ dquote :: [';']) := by
      rw [parseChars_cons]
      have hstep : parseStep true true
          ⟨(create_child empty_tree NULL_NODE true true).1, ROOT_NODE, [], false, false, false,
            false, false⟩ dquote =
          .cont ⟨(create_child empty_tree NULL_NODE true true).1, ROOT_NODE, [], false, true,
            false, true, false⟩ := by
        simp [parseStep, normalStep, squote, dquote, NULL_NODE, ROOT_NODE]
      rw [hstep]
    rw [hred]
    rw [quoted_double_accum true inner2 h2
      ⟨(create_child empty_tree NULL_NODE true true).1, ROOT_NODE, [], false, true,
        false, true, false⟩ [';'] rfl rfl rfl rfl rfl]
    simp [setG, create_child, empty_tree, parseChars, parseStep, normalStep, squote, dquote,
      NULL_NODE, ROOT_NODE]

/-- Witness for `C9_quoted_label_text` with inner texts `A,B` (single-quoted,
containing a structural comma) and `A'[` (double-quoted, containing the other
quote kind and a comment opener). -/
theorem C9_quoted_label_text_witness :
    squote ∉ ['A', ',', 'B'] ∧ dquote ∉ ['A', squote, '['] ∧
    (parseNewick true true (squote :: (['A', ',', 'B'] ++ squote :: [';'])) =
      .ok ⟨[NULL_NODE], [[]], [String.mk (['A', ',', 'B'] ++ [squote])], [0]⟩ ∧
     parseNewick true true (dquote :: (['A', squote, '['] ++ dquote :: [';'])) =
      .ok ⟨[NULL_NODE], [[]], [String.mk (['A', squote, '['] ++ [dquote])], [0]⟩) :=
  ⟨by decide, by decide, C9_quoted_label_text ['A', ',', 'B'] ['A', squote, '['] (by decide) (by decide)⟩

/-! ## Container-size invariants (C8)

`Aligned a b t` is the invariant the constructor maintains: `parent` and
`children` parallel, and `label`/`length` one slot per node when the
corresponding storage flag is set, else empty. -/

set_option maxHeartbeats 1600000

def Aligned (a b : Bool) (t : compact_tree) : Prop :=
  t.children.length = t.parent.length ∧
  t.label.length = (if a then t.parent.length else 0) ∧
  t.length.length = (if b then t.parent.length else 0)

theorem create_child_aligned {a b : Bool} {t : compact_tree} (h : Aligned a b t) (p : Node) :
    Aligned a b (create_child t p a b).1 := by
  obtain ⟨h1, h2, h3⟩ := h
  simp only [create_child, Aligned]
  cases a <;> cases b <;>
    simp_all [apply_ite List.length] <;> split <;> simp_all

theorem setG_length {α : Type} {l l' : List α} {i : Nat} {x : α} (h : setG l i x = some l') :
    l'.length = l.length := by
  unfold setG at h
  split at h
  · cases h; simp
  · cases h

theorem aligned_label {a b : Bool} {t : compact_tree} (h : Aligned a b t) {L : List String}
    (hL : L.length = t.label.length) : Aligned a b { t with label := L } :=
  ⟨h.1, hL.trans h.2.1, h.2.2⟩

theorem aligned_length {a b : Bool} {t : compact_tree} (h : Aligned a b t) {L : List Rat}
    (hL : L.length = t.length.length) : Aligned a b { t with length := L } :=
  ⟨h.1, h.2.1, hL.trans h.2.2⟩

theorem normalStep_aligned {a b : Bool} {st : PState} (h : Aligned a b st.t) (c : Char) :
    (∀ st', normalStep a b st c = .cont st' → Aligned a b st'.t) ∧
    (∀ t', normalStep a b st c = .done t' → Aligned a b t') := by
  constructor <;> intro x hs <;> (unfold normalStep at hs; repeat' split at hs) <;>
    (try cases hs) <;>
    first
      | exact h
      | exact create_child_aligned h _

theorem parseStep_aligned {a b : Bool} {st : PState} (h : Aligned a b st.t) (c : Char) :
    (∀ st', parseStep a b st c = .cont st' → Aligned a b st'.t) ∧
    (∀ t', parseStep a b st c = .done t' → Aligned a b t') := by
  constructor <;> intro x hs <;> (unfold parseStep at hs; (try simp only [] at hs); repeat' split at hs) <;>
    (try cases hs) <;>
    first
      | exact h
      | exact aligned_label h (setG_length (by assumption))
      | exact aligned_length h (setG_length (by assumption))
      | (refine (normalStep_aligned ?_ c).1 x hs
         first
           | exact h
           | exact aligned_length h (setG_length (by assumption))
           | exact aligned_label h (setG_length (by assumption)))
      | (refine (normalStep_aligned ?_ c).2 x hs
         first
           | exact h
           | exact aligned_length h (setG_length (by assumption))
           | exact aligned_label h (setG_length (by assumption)))

theorem parseChars_ok_aligned {a b : Bool} {st : PState} {cs : List Char} {t : compact_tree}
    (h : Aligned a b st.t) (hp : parseChars a b st cs = .ok t) : Aligned a b t := by
  induction cs generalizing st with
  | nil => simp [parseChars_nil] at hp
  | cons c cs ih =>
    rw [parseChars_cons] at hp
    cases hs : parseStep a b st c with
    | cont st' => rw [hs] at hp; exact ih ((parseStep_aligned h c).1 st' hs) hp
    | done t' => rw [hs] at hp; cases hp; exact (parseStep_aligned h c).2 _ hs
    | fail e => rw [hs] at hp; exact absurd hp (by simp)

theorem parseNewick_aligned {a b : Bool} {s : List Char} {t : compact_tree}
    (hp : parseNewick a b s = .ok t) : Aligned a b t := by
  refine parseChars_ok_aligned ?_ hp
  show Aligned a b (create_child empty_tree NULL_NODE a b).1
  exact create_child_aligned (by simp [Aligned, empty_tree]) _

def ExtOff (hl hn : Bool) (nt : compact_tree) : Prop :=
  (hl = true → nt.label.length = nt.parent.length + 1) ∧
  (hn = true → nt.length.length = nt.parent.length + 1)

theorem create_child_extoff {hl hn : Bool} {t : compact_tree} (h : ExtOff hl hn t) (p : Node) :
    ExtOff hl hn (create_child t p hl hn).1 := by
  obtain ⟨h1, h2⟩ := h
  constructor <;> intro hf <;>
    (cases hl <;> cases hn <;> simp_all [create_child, apply_ite List.length] <;>
      split <;> simp_all)

theorem fold_create_extoff (hl hn : Bool) (n : Node) (cl : List Node) :
    ∀ (acc : compact_tree × List (Node × Node)), ExtOff hl hn acc.1 →
    ExtOff hl hn ((cl.foldl
      (fun (acc : compact_tree × List (Node × Node)) c =>
        let p := create_child acc.1 n hl hn
        (p.1, (c, p.2) :: acc.2)) acc).1) := by
  induction cl with
  | nil => intro acc h; exact h
  | cons c cl ih =>
    intro acc h
    exact ih _ (create_child_extoff h n)

theorem extract_go_extoff (src : compact_tree) (hl hn : Bool) :
    ∀ (fuel : Nat) (stk : List (Node × Node)) (nt : compact_tree), ExtOff hl hn nt →
    ExtOff hl hn (extract_go src hl hn fuel stk nt) := by
  intro fuel
  induction fuel with
  | zero => intro stk nt h; exact h
  | succ fuel ih =>
    intro stk nt h
    cases stk with
    | nil => exact h
    | cons p stk =>
      obtain ⟨o, n⟩ := p
      apply ih
      apply fold_create_extoff
      obtain ⟨h1, h2⟩ := h
      constructor <;> intro hf <;> (cases hl <;> cases hn <;> simp_all)

theorem extract_subtree_sizes (src : compact_tree) (node : Node) :
    (has_labels src = true → (extract_subtree src node).label.length =
      get_num_nodes (extract_subtree src node) + 1) ∧
    (has_edge_lengths src = true → (extract_subtree src node).length.length =
      get_num_nodes (extract_subtree src node) + 1) := by
  have hmain : ExtOff (decide (src.label.length ≠ 0)) (decide (src.length.length ≠ 0))
      (extract_subtree src node) := by
    unfold extract_subtree
    apply extract_go_extoff
    by_cases ha : src.label.length = 0 <;> by_cases hb : src.length.length = 0 <;>
      simp [ExtOff, ha, hb, create_child, empty_tree, NULL_NODE]
  obtain ⟨h1, h2⟩ := hmain
  constructor <;> intro hf
  · exact h1 (by simp_all [has_labels])
  · exact h2 (by simp_all [has_edge_lengths])

/-- C8 (amended): stores produced by construction, by `set_label` /
`set_edge_length` backfill, and by the copy constructor hold exactly one
label/length slot per node when the corresponding storage is enabled; the store
produced by `extract_subtree`, however, holds `get_num_nodes() + 1` slots — one
unused trailing slot, from the duplicated root-slot append at lines 602-603. -/
theorem C8_container_sizes (a b : Bool) (s : List Char) (t u : compact_tree) (n m : Node)
    (lbl : String) (q : Rat) (hp : parseNewick a b s = .ok t) :
    ((get_labels t).length = if a then get_num_nodes t else 0) ∧
    ((get_edge_lengths t).length = if b then get_num_nodes t else 0) ∧
    ((get_labels (set_label u m lbl)).length =
      if has_labels u then (get_labels u).length else get_num_nodes u) ∧
    ((get_edge_lengths (set_edge_length u m q)).length =
      if has_edge_lengths u then (get_edge_lengths u).length else get_num_nodes u) ∧
    copy_tree u = u ∧
    (has_labels u = true → (get_labels (extract_subtree u n)).length =
      get_num_nodes (extract_subtree u n) + 1) ∧
    (has_edge_lengths u = true → (get_edge_lengths (extract_subtree u n)).length =
      get_num_nodes (extract_subtree u n) + 1) := by
  have hal := parseNewick_aligned hp
  refine ⟨hal.2.1, hal.2.2, ?_, ?_, ?_,
    (extract_subtree_sizes u n).1, (extract_subtree_sizes u n).2⟩
  · simp only [set_label, get_labels, get_num_nodes, List.length_set]
    split <;> simp
  · simp only [set_edge_length, get_edge_lengths, get_num_nodes, List.length_set]
    split <;> simp
  · cases u; rfl

/-- Witness for `C8_container_sizes` on concrete trees. -/
theorem C8_container_sizes_witness :
    ((get_labels c7tree).length = if true then get_num_nodes c7tree else 0) ∧
    ((get_edge_lengths c7tree).length = if true then get_num_nodes c7tree else 0) ∧
    ((get_labels (set_label c8tree 0 "L")).length =
      if has_labels c8tree then (get_labels c8tree).length else get_num_nodes c8tree) ∧
    ((get_edge_lengths (set_edge_length c8tree 0 1)).length =
      if has_edge_lengths c8tree then (get_edge_lengths c8tree).length
      else get_num_nodes c8tree) ∧
    copy_tree c8tree = c8tree ∧
    (has_labels c8tree = true → (get_labels (extract_subtree c8tree ROOT_NODE)).length =
      get_num_nodes (extract_subtree c8tree ROOT_NODE) + 1) ∧
    (has_edge_lengths c8tree = true →
      (get_edge_lengths (extract_subtree c8tree ROOT_NODE)).length =
      get_num_nodes (extract_subtree c8tree ROOT_NODE) + 1) :=
  C8_container_sizes true true "A;".toList c7tree c8tree ROOT_NODE 0 "L" 1
    (by simp [c7tree, parseNewick, parseChars, parseStep, normalStep, create_child, setG,
          empty_tree, atofQ, digitsToNat, isDigitC, squote, dquote, NULL_NODE, ROOT_NODE])

/-! ## Decimal rendering and parsing round trip

`lenChars` (the model of `operator<<` on an edge length) followed by `atofQ`
(the model of `std::atof`) is the identity on decimal-renderable rationals. -/


theorem digit_facts : ∀ d, d < 10 → (digitChar d).toNat = 48 + d ∧ isDigitC (digitChar d) = true := by
  decide

theorem natDigits_digits {n : Nat} : ∀ c ∈ natDigits n, isDigitC c = true := by
  induction n using Nat.strong_induction_on with
  | _ n ih =>
    unfold natDigits
    split
    · intro c hc
      simp at hc
      subst hc
      exact (digit_facts n (by omega)).2
    · intro c hc
      rw [List.mem_append] at hc
      rcases hc with hc | hc
      · exact ih (n / 10) (Nat.div_lt_self (by omega) (by omega)) c hc
      · simp at hc
        subst hc
        exact (digit_facts (n % 10) (Nat.mod_lt _ (by omega))).2

theorem digitsToNat_append (xs ys : List Char) :
    digitsToNat (xs ++ ys) = digitsToNat xs * 10 ^ ys.length + digitsToNat ys := by
  induction ys using List.reverseRecOn with
  | nil => simp [digitsToNat]
  | append_singleton ys y ih =>
    rw [← List.append_assoc]
    simp only [digitsToNat, List.foldl_append, List.foldl_cons, List.foldl_nil] at *
    rw [ih]
    simp [List.length_append, pow_succ]
    ring

theorem digitsToNat_natDigits (n : Nat) : digitsToNat (natDigits n) = n := by
  induction n using Nat.strong_induction_on with
  | _ n ih =>
    unfold natDigits
    split
    · simp [digitsToNat, (digit_facts n (by omega)).1]
    · rw [digitsToNat_append, ih (n / 10) (Nat.div_lt_self (by omega) (by omega))]
      simp [digitsToNat, (digit_facts (n % 10) (Nat.mod_lt _ (by omega))).1]
      omega

theorem natDigits_ne_nil (n : Nat) : natDigits n ≠ [] := by
  unfold natDigits
  split <;> simp

theorem natDigits_length_le {n k : Nat} (h : n < 10 ^ k) (hk : 1 ≤ k) :
    (natDigits n).length ≤ k := by
  induction k generalizing n with
  | zero => omega
  | succ k ih =>
    unfold natDigits
    split
    · simp
    · rename_i hn
      have hk1 : 1 ≤ k := by
        by_contra hh
        have : k = 0 := by omega
        subst this
        simp at h
        omega
      have : n / 10 < 10 ^ k := by
        rw [pow_succ] at h
        exact Nat.div_lt_of_lt_mul (by omega)
      simpa using Nat.add_le_add_right (ih this hk1) 1

theorem digitsToNat_zeros (m : Nat) : digitsToNat (List.replicate m (digitChar 0)) = 0 := by
  induction m with
  | zero => rfl
  | succ m ih =>
    rw [List.replicate_succ', digitsToNat_append]
    simpa [digitsToNat, digitChar] using ih

theorem padDigits_digits {k n : Nat} : ∀ c ∈ padDigits k n, isDigitC c = true := by
  intro c hc
  rw [padDigits, List.mem_append] at hc
  rcases hc with hc | hc
  · rw [List.eq_of_mem_replicate hc]
    exact (digit_facts 0 (by omega)).2
  · exact natDigits_digits c hc

theorem digitsToNat_padDigits (k n : Nat) : digitsToNat (padDigits k n) = n := by
  rw [padDigits, digitsToNat_append, digitsToNat_zeros, digitsToNat_natDigits]
  simp

theorem padDigits_length {k n : Nat} (h : n < 10 ^ k) (hk : 1 ≤ k) :
    (padDigits k n).length = k := by
  rw [padDigits]
  have := natDigits_length_le h hk
  simp
  omega

theorem decExpAux_some : ∀ (fuel start den : Nat),
    (∃ j, j < fuel ∧ 10 ^ (start + j) % den = 0) →
    ∃ k, decExpAux fuel den start = some k ∧ 10 ^ k % den = 0 := by
  intro fuel
  induction fuel with
  | zero => intro start den ⟨j, hj, _⟩; omega
  | succ fuel ih =>
    intro start den ⟨j, hj, hmod⟩
    rw [decExpAux]
    by_cases h0 : 10 ^ start % den = 0
    · exact ⟨start, by rw [if_pos h0], h0⟩
    · have hj0 : j ≠ 0 := by rintro rfl; simp at hmod; exact h0 hmod
      obtain ⟨k, hk, hm⟩ := ih (start + 1) den
        ⟨j - 1, by omega, by rw [show start + 1 + (j - 1) = start + j by omega]; exact hmod⟩
      exact ⟨k, by rw [if_neg h0]; exact hk, hm⟩

theorem decExp_some {q : Rat} (h : IsDecRat q) :
    ∃ k, decExp q.den = some k ∧ q.den ∣ 10 ^ k := by
  obtain ⟨k, hk, hm⟩ := decExpAux_some (q.den + 1) 0 q.den
    ⟨q.den, by omega, by simpa using Nat.dvd_iff_mod_eq_zero.mp h⟩
  exact ⟨k, hk, Nat.dvd_iff_mod_eq_zero.mpr hm⟩

theorem takeWhile_append_stop {p : Char → Bool} {xs : List Char} {y : Char} (ys : List Char)
    (hxs : ∀ c ∈ xs, p c = true) (hy : p y = false) :
    (xs ++ y :: ys).takeWhile p = xs ∧ (xs ++ y :: ys).dropWhile p = y :: ys := by
  induction xs with
  | nil => simp [List.takeWhile_cons, List.dropWhile_cons, hy]
  | cons x xs ih =>
    have hx := hxs x (by simp)
    have := ih (fun c hc => hxs c (by simp [hc]))
    simp [List.takeWhile_cons, List.dropWhile_cons, hx, this.1, this.2]

theorem takeWhile_all {p : Char → Bool} {xs : List Char} (hxs : ∀ c ∈ xs, p c = true) :
    xs.takeWhile p = xs ∧ xs.dropWhile p = [] := by
  induction xs with
  | nil => simp
  | cons x xs ih =>
    have hx := hxs x (by simp)
    have := ih (fun c hc => hxs c (by simp [hc]))
    simp [List.takeWhile_cons, List.dropWhile_cons, hx, this.1, this.2]

theorem digit_not_special {c : Char} (h : isDigitC c = true) :
    (c == ' ' || c == '\t' || c == '\n' || c == '\r') = false ∧
    c ≠ '-' ∧ c ≠ '+' ∧ c ≠ '.' := by
  have h48 : 48 ≤ c.toNat ∧ c.toNat ≤ 57 := by
    simpa [isDigitC] using h
  refine ⟨?_, ?_, ?_, ?_⟩ <;>
    first
      | (simp only [Bool.or_eq_false_iff, beq_eq_false_iff_ne]
         refine ⟨⟨⟨?_, ?_⟩, ?_⟩, ?_⟩ <;> rintro rfl <;> simp_all)
      | (rintro rfl; simp_all)

theorem atofQ_eval_core (neg : Bool) (ip fp : List Char)
    (hip : ∀ c ∈ ip, isDigitC c = true) (hfp : ∀ c ∈ fp, isDigitC c = true)
    (hipne : ip ≠ []) :
    atofQ ((if neg then ['-'] else []) ++ ip ++ (if fp = [] then [] else '.' :: fp)) =
      (if neg then (-1 : Rat) else 1) *
        ((digitsToNat ip * 10 ^ fp.length + digitsToNat fp : Nat) : Rat) / 10 ^ fp.length := by
  obtain ⟨c0, ip', rfl⟩ : ∃ c0 ip', ip = c0 :: ip' := by
    cases ip with
    | nil => exact absurd rfl hipne
    | cons x xs => exact ⟨x, xs, rfl⟩
  have hc0 := digit_not_special (hip c0 (by simp))
  have hd0 : isDigitC c0 = true := hip c0 (by simp)
  by_cases hfpe : fp = []
  · subst hfpe
    obtain ⟨htw, hdw⟩ := takeWhile_all hip
    have htw' : List.takeWhile isDigitC ip' = ip' := by
      simpa [List.takeWhile_cons, hd0] using htw
    have hdw' : List.dropWhile isDigitC ip' = [] := by
      simpa [List.dropWhile_cons, hd0] using hdw
    cases neg <;>
      (rw [show ∀ z : List Char, atofQ z = atofQ z from fun _ => rfl]
       simp only [atofQ, List.nil_append, List.cons_append, List.append_nil,
         List.dropWhile_cons, hc0.1, Bool.false_eq_true, if_false, ite_false,
         List.head?_cons, Option.some.injEq]
       simp [List.takeWhile_cons, List.dropWhile_cons, hd0, htw', hdw', hc0.2.1, hc0.2.2.1,
         digitsToNat])
  · obtain ⟨c1, fp', rfl⟩ : ∃ c1 fp', fp = c1 :: fp' := by
      cases fp with
      | nil => exact absurd rfl hfpe
      | cons x xs => exact ⟨x, xs, rfl⟩
    obtain ⟨htw, hdw⟩ :=
      @takeWhile_append_stop isDigitC (c0 :: ip') '.' (c1 :: fp') hip (by decide)
    have htw' : List.takeWhile isDigitC (ip' ++ '.' :: c1 :: fp') = ip' := by
      simpa [List.takeWhile_cons, hd0, List.cons_append] using htw
    have hdw' : List.dropWhile isDigitC (ip' ++ '.' :: c1 :: fp') = '.' :: c1 :: fp' := by
      simpa [List.dropWhile_cons, hd0, List.cons_append] using hdw
    obtain ⟨htw2, hdw2⟩ := takeWhile_all hfp
    cases neg <;>
      (simp only [atofQ, List.nil_append, List.cons_append, List.dropWhile_cons, hc0.1,
         Bool.false_eq_true, if_false, ite_false, List.head?_cons, Option.some.injEq]
       simp [List.takeWhile_cons, List.dropWhile_cons, hd0, htw', hdw', htw2, hdw2,
         hc0.2.1, hc0.2.2.1])


theorem atofQ_lenChars {q : Rat} (h : IsDecRat q) : atofQ (lenChars q) = q := by
  obtain ⟨k, hk, hdvd⟩ := decExp_some h
  have hden : 0 < q.den := q.pos
  have hpow : (0 : Nat) < 10 ^ k := Nat.pos_pow_of_pos k (by omega)
  set m : Int := q.num * ((10 ^ k / q.den : Nat) : Int) with hm
  have hmden : ((10 ^ k / q.den : Nat) : Int) * (q.den : Int) = ((10 ^ k : Nat) : Int) := by
    exact_mod_cast congrArg Nat.cast (Nat.div_mul_cancel hdvd)
  have hmq : m * (q.den : Int) = q.num * ((10 ^ k : Nat) : Int) := by
    rw [hm, mul_assoc, hmden]
  have hq : (m : Rat) / ((10 ^ k : Nat) : Rat) = q := by
    have h1 : ((m : Int) : Rat) * ((q.den : Int) : Rat) =
        ((q.num : Int) : Rat) * (((10 ^ k : Nat) : Int) : Rat) := by
      exact_mod_cast congrArg (fun z : Int => (z : Rat)) hmq
    rw [div_eq_iff (show ((10 ^ k : Nat) : Rat) ≠ 0 by positivity)]
    rw [show q = (q.num : Rat) / (q.den : Rat) from (Rat.num_div_den q).symm]
    rw [div_mul_eq_mul_div, eq_div_iff (show ((q.den : Nat) : Rat) ≠ 0 by positivity)]
    push_cast at h1 ⊢
    linarith [h1]
  have habs : (if m < 0 then (-1 : Rat) else 1) * ((m.natAbs : Nat) : Rat) = (m : Rat) := by
    by_cases hneg : m < 0
    · simp only [hneg, if_true]
      rw [Int.cast_natAbs]
      simp [abs_of_neg (show (m : Rat) < 0 by exact_mod_cast hneg)]
    · simp only [hneg, if_false]
      rw [Int.cast_natAbs]
      simp [abs_of_nonneg (show (0 : Rat) ≤ m by exact_mod_cast not_lt.mp hneg)]
  have hcore := atofQ_eval_core (decide (m < 0)) (natDigits (m.natAbs / 10 ^ k))
    (if k = 0 then [] else padDigits k (m.natAbs % 10 ^ k))
    natDigits_digits
    (by split
        · simp
        · exact padDigits_digits)
    (natDigits_ne_nil _)
  simp only [decide_eq_true_eq] at hcore
  have hpadne : k ≠ 0 → padDigits k (m.natAbs % 10 ^ k) ≠ [] := by
    intro hk0 hnil
    have hlen := padDigits_length (Nat.mod_lt m.natAbs hpow) (by omega)
    rw [hnil] at hlen
    simp at hlen
    omega
  have hfp_eq : (if k = 0 then ([] : List Char) else '.' :: padDigits k (m.natAbs % 10 ^ k)) =
      (if (if k = 0 then ([] : List Char) else padDigits k (m.natAbs % 10 ^ k)) = [] then []
       else '.' :: (if k = 0 then ([] : List Char) else padDigits k (m.natAbs % 10 ^ k))) := by
    by_cases hk0 : k = 0
    · simp [hk0]
    · simp [hk0, hpadne hk0]
  have hlenfp : (if k = 0 then ([] : List Char) else padDigits k (m.natAbs % 10 ^ k)).length
      = k := by
    by_cases hk0 : k = 0
    · simp [hk0]
    · rw [if_neg hk0]
      exact padDigits_length (Nat.mod_lt m.natAbs hpow) (by omega)
  have hvalfp : digitsToNat (if k = 0 then ([] : List Char)
      else padDigits k (m.natAbs % 10 ^ k)) = m.natAbs % 10 ^ k := by
    by_cases hk0 : k = 0
    · simp [hk0, digitsToNat]
      omega
    · rw [if_neg hk0, digitsToNat_padDigits]
  rw [lenChars, hk]
  simp only []
  rw [hfp_eq, hcore, hlenfp, hvalfp, digitsToNat_natDigits, Nat.div_add_mod']
  rw [habs, ← hq]
  push_cast
  ring

/-! ## Buffer irrelevance

The shared `str_buf` is only ever read by a finalization that is guarded by the
same storage flag as the reset that preceded it, so from any state where every
enabled read will be preceded by a reset, the parse result is independent of
the current buffer contents. -/

/-- Relation between two step results that differ at most in the (dead) token
buffer of a continuing state. -/
inductive StepRel (a b : Bool) : StepR → StepR → Prop where
  | done (t : compact_tree) : StepRel a b (.done t) (.done t)
  | fail (e : PErr) : StepRel a b (.fail e) (.fail e)
  | contEq (st : PState) : StepRel a b (.cont st) (.cont st)
  | contBuf (st : PState) (buf2 : List Char) :
      (st.plen = true → b = false) → (st.plab = true → a = false) →
      StepRel a b (.cont st) (.cont { st with buf := buf2 })

theorem normalStep_rel (a b : Bool) (st : PState) (buf2 : List Char) (c : Char)
    (hlen : st.plen = true → b = false) (hlab : st.plab = true → a = false) :
    StepRel a b (normalStep a b st c) (normalStep a b { st with buf := buf2 } c) := by
  obtain ⟨t, curr, buf, plen, plab, psingle, pdouble, pcomment⟩ := st
  simp only at hlen hlab
  unfold normalStep
  simp only
  by_cases h1 : c = ' '
  · simp only [if_pos h1]
    exact .contBuf _ buf2 hlen hlab
  simp only [if_neg h1]
  by_cases h2 : c = ';'
  · simp only [if_pos h2]
    by_cases hr : curr ≠ ROOT_NODE
    · simp only [if_pos hr]
      exact .fail _
    · simp only [if_neg hr]
      exact .done _
  simp only [if_neg h2]
  by_cases h3 : c = '('
  · simp only [if_pos h3]
    by_cases hn : curr = NULL_NODE
    · simp only [if_pos hn]
      exact .fail _
    · simp only [if_neg hn]
      exact .contBuf _ buf2 hlen hlab
  simp only [if_neg h3]
  by_cases h4 : c = ')'
  · simp only [if_pos h4]
    cases hp : t.parent.get? curr with
    | none => exact .fail _
    | some p => exact .contBuf _ buf2 hlen hlab
  simp only [if_neg h4]
  by_cases h5 : c = ','
  · simp only [if_pos h5]
    by_cases hn : curr = NULL_NODE
    · simp only [if_pos hn]
      exact .fail _
    · simp only [if_neg hn]
      cases hp : t.parent.get? curr with
      | none => exact .fail _
      | some p =>
        by_cases hp0 : p = NULL_NODE
        · simp only [if_pos hp0]
          exact .fail _
        · simp only [if_neg hp0]
          exact .contBuf _ buf2 hlen hlab
  simp only [if_neg h5]
  by_cases h6 : c = '['
  · simp only [if_pos h6]
    exact .contBuf _ buf2 hlen hlab
  simp only [if_neg h6]
  by_cases h7 : c = ':'
  · simp only [if_pos h7]
    cases b with
    | true => exact .contEq _
    | false => exact .contBuf _ buf2 (fun _ => rfl) hlab
  simp only [if_neg h7]
  by_cases h8 : c = squote
  · simp only [if_pos h8]
    cases a with
    | true => exact .contEq _
    | false => exact .contBuf _ buf2 hlen (fun _ => rfl)
  simp only [if_neg h8]
  by_cases h9 : c = dquote
  · simp only [if_pos h9]
    cases a with
    | true => exact .contEq _
    | false => exact .contBuf _ buf2 hlen (fun _ => rfl)
  simp only [if_neg h9]
  cases a with
  | true => exact .contEq _
  | false => exact .contBuf _ buf2 hlen (fun _ => rfl)

theorem parseStep_rel (a b : Bool) (st : PState) (buf2 : List Char) (c : Char)
    (hlen : st.plen = true → b = false) (hlab : st.plab = true → a = false) :
    StepRel a b (parseStep a b st c) (parseStep a b { st with buf := buf2 } c) := by
  obtain ⟨t, curr, buf, plen, plab, psingle, pdouble, pcomment⟩ := st
  simp only at hlen hlab
  unfold parseStep
  simp only
  by_cases hpc : pcomment = true
  · simp only [if_pos hpc]
    by_cases hcc : c = ']'
    · simp only [if_pos hcc]
      exact .contBuf _ buf2 hlen hlab
    · simp only [if_neg hcc]
      exact .contBuf _ buf2 hlen hlab
  simp only [if_neg hpc]
  by_cases hpl : plen = true
  · simp only [if_pos hpl]
    have hb : b = false := hlen hpl
    subst hb
    by_cases hterm : c = ',' ∨ c = ')' ∨ c = ';'
    · simp only [if_pos hterm, Bool.false_eq_true, if_false]
      exact normalStep_rel _ _ ⟨t, curr, buf, false, plab, psingle, pdouble, pcomment⟩ buf2 c
        (fun h => by simp at h) hlab
    · simp only [if_neg hterm]
      by_cases hbr : c = '['
      · simp only [if_pos hbr]
        exact .contBuf _ buf2 hlen hlab
      · simp only [if_neg hbr, Bool.false_eq_true, if_false]
        exact .contBuf _ buf2 hlen hlab
  simp only [if_neg hpl]
  by_cases hpb : plab = true
  · simp only [if_pos hpb]
    have ha : a = false := hlab hpb
    subst ha
    by_cases hq : psingle = true ∨ pdouble = true
    · simp only [if_pos hq, Bool.false_eq_true, if_false]
      by_cases hm : (c = squote ∧ psingle = true) ∨ (c = dquote ∧ pdouble = true)
      · simp only [if_pos hm]
        exact .contBuf _ buf2 hlen (fun h => by simp at h)
      · simp only [if_neg hm]
        exact .contBuf _ buf2 hlen hlab
    · simp only [if_neg hq]
      by_cases hterm : c = ':' ∨ c = ',' ∨ c = ')' ∨ c = ';'
      · simp only [if_pos hterm, Bool.false_eq_true, if_false]
        exact normalStep_rel _ _ ⟨t, curr, buf, plen, false, psingle, pdouble, pcomment⟩ buf2 c
          hlen (fun h => by simp at h)
      · simp only [if_neg hterm, Bool.false_eq_true, if_false]
        exact .contBuf _ buf2 hlen hlab
  simp only [if_neg hpb]
  exact normalStep_rel _ _ ⟨t, curr, buf, plen, plab, psingle, pdouble, pcomment⟩ buf2 c hlen hlab

/-- From any state whose pending token buffer is dead (no enabled lexer mode
will read it before resetting it), the parse result does not depend on the
buffer contents. -/
theorem parseChars_buf_irrel (a b : Bool) (cs : List Char) :
    ∀ (st : PState) (buf2 : List Char),
    (st.plen = true → b = false) → (st.plab = true → a = false) →
    parseChars a b st cs = parseChars a b { st with buf := buf2 } cs := by
  induction cs with
  | nil => intro st buf2 _ _; rfl
  | cons c cs ih =>
    intro st buf2 hlen hlab
    rw [parseChars_cons, parseChars_cons]
    have hrel := parseStep_rel a b st buf2 c hlen hlab
    cases hps1 : parseStep a b st c with
    | done t =>
      cases hps2 : parseStep a b { st with buf := buf2 } c with
      | done t2 => rw [hps1, hps2] at hrel; cases hrel; rfl
      | cont st2 => rw [hps1, hps2] at hrel; cases hrel
      | fail e2 => rw [hps1, hps2] at hrel; cases hrel
    | fail e =>
      cases hps2 : parseStep a b { st with buf := buf2 } c with
      | done t2 => rw [hps1, hps2] at hrel; cases hrel
      | cont st2 => rw [hps1, hps2] at hrel; cases hrel
      | fail e2 => rw [hps1, hps2] at hrel; cases hrel; rfl
    | cont st1 =>
      cases hps2 : parseStep a b { st with buf := buf2 } c with
      | done t2 => rw [hps1, hps2] at hrel; cases hrel
      | fail e2 => rw [hps1, hps2] at hrel; cases hrel
      | cont st2 =>
        rw [hps1, hps2] at hrel
        cases hrel with
        | contEq _ => rfl
        | contBuf _ _ h1 h2 => exact ih st1 _ h1 h2
set_option maxHeartbeats 1600000

/-- Abstract rose tree: the shape of any tree the constructor can build (one
node per Newick subtree, children in source order). -/
inductive Rose where
  | node (label : String) (len : Rat) (children : List Rose)

mutual
def roseSize : Rose → Nat
  | .node _ _ cs => 1 + roseSizeList cs
def roseSizeList : List Rose → Nat
  | [] => 0
  | c :: cs => roseSize c + roseSizeList cs
end

mutual
def leafCount : Rose → Nat
  | .node _ _ [] => 1
  | .node _ _ (c :: cs) => leafCountList (c :: cs)
def leafCountList : List Rose → Nat
  | [] => 0
  | c :: cs => leafCount c + leafCountList cs
end

mutual
/-- The Newick text of a subtree, without the trailing semicolon, exactly as
`print_newick` emits it for the corresponding arena: parenthesized children
(comma-separated), then the label iff labels are stored, then `':'` and the
length iff lengths are stored. -/
def bodyChars (a b : Bool) : Rose → List Char
  | .node l q cs =>
    (match cs with
     | [] => []
     | c :: cs' => '(' :: (bodyChars a b c ++ bodyCharsSibs a b cs' ++ [')'])) ++
    (if a then l.toList else []) ++
    (if b then ':' :: lenChars q else [])
def bodyCharsSibs (a b : Bool) : List Rose → List Char
  | [] => []
  | c :: cs => ',' :: (bodyChars a b c ++ bodyCharsSibs a b cs)
end

mutual
/-- Build the subtree `r` onto the existing (freshly created) node `n` of `t`,
performing exactly the store mutations the parser performs while reading the
body of that subtree: children created left to right via `create_child`
(each recursively filled), then the label written iff labels are stored and
the label text is nonempty, then the length written iff lengths are stored. -/
def attachRose (a b : Bool) (t : compact_tree) (n : Nat) : Rose → compact_tree
  | .node l q cs =>
    let t1 := attachKids a b t n cs
    let t2 := if a = true ∧ l ≠ "" then { t1 with label := t1.label.set n l } else t1
    if b then { t2 with length := t2.length.set n q } else t2
def attachKids (a b : Bool) (t : compact_tree) (n : Nat) : List Rose → compact_tree
  | [] => t
  | c :: cs =>
    let p := create_child t n a b
    attachKids a b (attachRose a b p.1 p.2 c) n cs
end

/-- The arena a successful parse of the Newick text of `r` produces: an empty
root seeded by `create_child(NULL_NODE, ...)`, then `r` attached at the root. -/
def roseArena (a b : Bool) (r : Rose) : compact_tree :=
  attachRose a b (create_child empty_tree NULL_NODE a b).1 ROOT_NODE r

/-- Labels an unquoted-label parse can produce (and re-read identically): the
empty label, or a first character that is not structural in `NORMAL` state and
remaining characters that do not terminate an unquoted label. -/
def labelOk (l : String) : Prop :=
  match l.toList with
  | [] => True
  | c :: cs =>
    c ∉ [' ', ';', '(', ')', ',', '[', ':', squote, dquote] ∧
    ∀ x ∈ c :: cs, x ∉ ([':', ',', ')', ';'] : List Char)

mutual
def labelsOkR (a : Bool) : Rose → Prop
  | .node l _ cs => (a = true → labelOk l) ∧ labelsOkRList a cs
def labelsOkRList (a : Bool) : List Rose → Prop
  | [] => True
  | c :: cs => labelsOkR a c ∧ labelsOkRList a cs
end

mutual
def lengthsOkR (b : Bool) : Rose → Prop
  | .node _ q cs => (b = true → IsDecRat q) ∧ lengthsOkRList b cs
def lengthsOkRList (b : Bool) : List Rose → Prop
  | [] => True
  | c :: cs => lengthsOkR b c ∧ lengthsOkRList b cs
end


theorem create_child_plen (t : compact_tree) (p : Nat) (a b : Bool) :
    (create_child t p a b).1.parent.length = t.parent.length + 1 := by
  unfold create_child
  simp only
  split <;> split <;> split <;> simp

mutual
theorem attachRose_plen (a b : Bool) (t : compact_tree) (n : Nat) (r : Rose) :
    (attachRose a b t n r).parent.length = t.parent.length + roseSizeList (match r with | .node _ _ cs => cs) := by
  match r with
  | .node l q cs =>
    show (attachRose a b t n (.node l q cs)).parent.length = _
    rw [attachRose]
    have h1 := attachKids_plen a b t n cs
    split <;> (try split) <;> simp_all
theorem attachKids_plen (a b : Bool) (t : compact_tree) (n : Nat) (cs : List Rose) :
    (attachKids a b t n cs).parent.length = t.parent.length + roseSizeList cs := by
  match cs with
  | [] => simp [attachKids, roseSizeList]
  | c :: cs =>
    rw [attachKids]
    have h1 := attachKids_plen a b (attachRose a b (create_child t n a b).1 (create_child t n a b).2 c) n cs
    have h2 := attachRose_plen a b (create_child t n a b).1 (create_child t n a b).2 c
    have h3 := create_child_plen t n a b
    match c with
    | .node l' q' cs' =>
      simp only [roseSizeList, roseSize]
      rw [h1, h2, h3]
      ring
end

theorem get?_of_lt_getD {α : Type} {l : List α} {n : Nat} (h : n < l.length) (d : α) :
    l.get? n = some (l.getD n d) := by
  rw [List.get?_eq_getElem?, List.getElem?_eq_getElem h]
  rw [List.getD_eq_getElem l d h]

theorem create_child_frame {a b : Bool} {t : compact_tree} (p : Nat) {k : Nat}
    (h : Aligned a b t) (hk : k < t.parent.length) :
    (create_child t p a b).1.parent.get? k = t.parent.get? k ∧
    (k ≠ p → (create_child t p a b).1.children.get? k = t.children.get? k) ∧
    (create_child t p a b).1.label.get? k = t.label.get? k ∧
    (create_child t p a b).1.length.get? k = t.length.get? k := by
  obtain ⟨h1, h2, h3⟩ := h
  unfold create_child
  simp only
  refine ⟨?_, fun hkp => ?_, ?_, ?_⟩
  · split <;> split <;> split <;>
      simp_all [List.get?_eq_getElem?, List.getElem?_append_left hk]
  · have hkc : k < t.children.length := by omega
    split <;> split <;> split <;>
      simp_all [List.get?_eq_getElem?, List.getElem?_set_ne (Ne.symm hkp),
        List.getElem?_append_left hkc]
  · cases a with
    | false =>
      simp only [Bool.false_eq_true, if_false] at h2 ⊢
      split <;> split <;> (try split) <;> simp
    | true =>
      simp only [if_true] at h2
      have hkl : k < t.label.length := by omega
      split <;> split <;> (try split) <;>
        simp_all [List.get?_eq_getElem?, List.getElem?_append_left hkl]
  · cases b with
    | false =>
      simp only [Bool.false_eq_true, if_false] at h3 ⊢
      split <;> split <;> (try split) <;> simp
    | true =>
      simp only [if_true] at h3
      have hkn : k < t.length.length := by omega
      split <;> split <;> (try split) <;>
        simp_all [List.get?_eq_getElem?, List.getElem?_append_left hkn]

theorem create_child_parent_at {a b : Bool} (t : compact_tree) (p : Nat) :
    (create_child t p a b).1.parent.get? (create_child t p a b).2 = some p := by
  unfold create_child
  simp only
  split <;> split <;> split <;> simp

theorem create_child_children_fresh {a b : Bool} (t : compact_tree) (p : Nat)
    (h : Aligned a b t) (hp : p ≠ t.parent.length) :
    (create_child t p a b).1.children.get? (create_child t p a b).2 = some [] := by
  obtain ⟨h1, _, _⟩ := h
  unfold create_child
  simp only
  split <;> split <;> split <;>
    simp_all [List.getElem?_set_ne hp, h1, List.get?_eq_getElem?]

theorem create_child_label_fresh {b : Bool} (t : compact_tree) (p : Nat)
    (h : Aligned true b t) :
    (create_child t p true b).1.label.get? (create_child t p true b).2 = some "" := by
  obtain ⟨h1, h2, _⟩ := h
  simp only [if_pos rfl] at h2
  unfold create_child
  simp only
  split <;> split <;> (try split) <;> simp_all [List.get?_eq_getElem?, ← h2]

mutual
theorem attachRose_aligned (a b : Bool) (t : compact_tree) (n : Nat) (r : Rose)
    (h : Aligned a b t) : Aligned a b (attachRose a b t n r) := by
  match r with
  | .node l q cs =>
    rw [attachRose]
    have h1 := attachKids_aligned a b t n cs h
    split <;> (try split) <;>
      first
        | exact h1
        | exact aligned_label h1 (by simp)
        | exact aligned_length h1 (by simp)
        | exact aligned_length (aligned_label h1 (by simp)) (by simp)
theorem attachKids_aligned (a b : Bool) (t : compact_tree) (n : Nat) (cs : List Rose)
    (h : Aligned a b t) : Aligned a b (attachKids a b t n cs) := by
  match cs with
  | [] => exact h
  | c :: cs =>
    rw [attachKids]
    exact attachKids_aligned a b _ n cs
      (attachRose_aligned a b _ _ c (create_child_aligned h n))
end

mutual
theorem attachRose_frame (a b : Bool) (t : compact_tree) (n : Nat) (r : Rose) (k : Nat)
    (h : Aligned a b t) (hn : n < t.parent.length) (hk : k < t.parent.length) :
    (attachRose a b t n r).parent.get? k = t.parent.get? k ∧
    (k ≠ n → (attachRose a b t n r).children.get? k = t.children.get? k ∧
      (attachRose a b t n r).label.get? k = t.label.get? k ∧
      (attachRose a b t n r).length.get? k = t.length.get? k) := by
  match r with
  | .node l q cs =>
    rw [attachRose]
    have hf := attachKids_frame a b t n cs k h hn hk
    refine ⟨?_, fun hkn => ?_⟩
    · split <;> (try split) <;> exact hf.1
    · have hc := (hf.2.1 hkn)
      have hl := hf.2.2.1
      have hlen := hf.2.2.2
      split <;> (try split) <;>
        refine ⟨hc, ?_, ?_⟩ <;>
        simp_all [List.get?_eq_getElem?, List.getElem?_set_ne (Ne.symm hkn)]
theorem attachKids_frame (a b : Bool) (t : compact_tree) (n : Nat) (cs : List Rose) (k : Nat)
    (h : Aligned a b t) (hn : n < t.parent.length) (hk : k < t.parent.length) :
    (attachKids a b t n cs).parent.get? k = t.parent.get? k ∧
    ((k ≠ n → (attachKids a b t n cs).children.get? k = t.children.get? k) ∧
      (attachKids a b t n cs).label.get? k = t.label.get? k ∧
      (attachKids a b t n cs).length.get? k = t.length.get? k) := by
  match cs with
  | [] => exact ⟨rfl, fun _ => rfl, rfl, rfl⟩
  | c :: cs =>
    rw [attachKids]
    have hcc := create_child_frame (t := t) (a := a) (b := b) n h hk
    have hal1 : Aligned a b (create_child t n a b).1 := create_child_aligned h n
    have hlen1 : (create_child t n a b).1.parent.length = t.parent.length + 1 :=
      create_child_plen t n a b
    have hfr := attachRose_frame a b (create_child t n a b).1 (create_child t n a b).2 c k hal1
      (by simp [create_child]; split <;> (try split) <;> (try split) <;> simp) (by omega)
    have hal2 : Aligned a b (attachRose a b (create_child t n a b).1 (create_child t n a b).2 c) :=
      attachRose_aligned a b _ _ c hal1
    have hlen2 := attachRose_plen a b (create_child t n a b).1 (create_child t n a b).2 c
    have hge : (create_child t n a b).1.parent.length ≤
        (attachRose a b (create_child t n a b).1 (create_child t n a b).2 c).parent.length := by
      cases c with
      | node lc qc csc =>
        have hx := attachRose_plen a b (create_child t n a b).1 (create_child t n a b).2
          (.node lc qc csc)
        simp only at hx
        omega
    have hkid := attachKids_frame a b
      (attachRose a b (create_child t n a b).1 (create_child t n a b).2 c) n cs k hal2
      (lt_of_lt_of_le (lt_of_lt_of_eq (Nat.lt_succ_of_lt hn) hlen1.symm) hge)
      (lt_of_lt_of_le (lt_of_lt_of_eq (Nat.lt_succ_of_lt hk) hlen1.symm) hge)
    have hknew : k ≠ (create_child t n a b).2 := Nat.ne_of_lt hk
    refine ⟨?_, fun hkn => ?_, ?_, ?_⟩
    · rw [hkid.1, hfr.1, hcc.1]
    · rw [hkid.2.1 hkn, (hfr.2 hknew).1, hcc.2.1 hkn]
    · rw [hkid.2.2.1, (hfr.2 hknew).2.1, hcc.2.2.1]
    · rw [hkid.2.2.2, (hfr.2 hknew).2.2, hcc.2.2.2]
end

/-- The ids at which the successive children of a node land when its subtree is
attached while the store holds `base` nodes: each child's subtree occupies a
contiguous block of fresh ids. -/
def kidStarts (base : Nat) : List Rose → List Node
  | [] => []
  | c :: cs => base :: kidStarts (base + roseSize c) cs

theorem create_child_snd (t : compact_tree) (p : Nat) (a b : Bool) :
    (create_child t p a b).2 = t.parent.length := rfl

theorem roseSize_pos (c : Rose) : 1 ≤ roseSize c := by
  cases c with
  | node l q cs => rw [roseSize]; omega

theorem attach_one_len (a b : Bool) (t : compact_tree) (n : Nat) (c : Rose) :
    (attachRose a b (create_child t n a b).1 (create_child t n a b).2 c).parent.length =
      t.parent.length + roseSize c := by
  cases c with
  | node l q cs =>
    have h1 : (attachRose a b (create_child t n a b).1 (create_child t n a b).2
        (.node l q cs)).parent.length =
        (create_child t n a b).1.parent.length + roseSizeList cs :=
      attachRose_plen a b (create_child t n a b).1 (create_child t n a b).2 (.node l q cs)
    have h2 := create_child_plen t n a b
    rw [roseSize]
    omega

theorem create_child_children_at {a b : Bool} (t : compact_tree) (p : Nat)
    (hal : Aligned a b t) (hp : p < t.parent.length) (hpn : p ≠ NULL_NODE) :
    (create_child t p a b).1.children.get? p =
      some (t.children.getD p [] ++ [t.parent.length]) := by
  obtain ⟨h1, h2, h3⟩ := hal
  have hpc : p < t.children.length := by omega
  have hne : (p != NULL_NODE) = true := by simp [hpn]
  unfold create_child
  simp only [hne, if_true]
  split <;> split <;>
    simp_all [List.get?_eq_getElem?, List.getD_eq_getElem?_getD,
      List.getElem?_set_eq_of_lt, List.getElem?_append_left,
      List.getElem?_eq_getElem hpc, Nat.lt_of_lt_of_le hpc (List.length_set ..).ge]

theorem getD_of_get? {α : Type} {l : List α} {n : Nat} {v : α} (h : l.get? n = some v) (d : α) :
    l.getD n d = v := by
  simp [List.getD_eq_getElem?_getD, ← List.get?_eq_getElem?, h]

theorem attachKids_children_at (a b : Bool) (t : compact_tree) (n : Nat) (cs : List Rose)
    (hal : Aligned a b t) (hn : n < t.parent.length) (hnn : n ≠ NULL_NODE) :
    (attachKids a b t n cs).children.get? n =
      some (t.children.getD n [] ++ kidStarts t.parent.length cs) := by
  match cs with
  | [] =>
    rw [attachKids, kidStarts, List.append_nil]
    exact get?_of_lt_getD (by have := hal.1; omega) []
  | c :: cs =>
    rw [attachKids]
    have hal0 : Aligned a b (create_child t n a b).1 := create_child_aligned hal n
    have hal1 : Aligned a b
        (attachRose a b (create_child t n a b).1 (create_child t n a b).2 c) :=
      attachRose_aligned a b _ _ c hal0
    have hlen0 := create_child_plen t n a b
    have hl1 := attach_one_len a b t n c
    have hn1 : n < (attachRose a b (create_child t n a b).1
        (create_child t n a b).2 c).parent.length := by omega
    rw [attachKids_children_at a b _ n cs hal1 hn1 hnn]
    have hcc := create_child_children_at t n hal hn hnn
    have hfr := (attachRose_frame a b (create_child t n a b).1 (create_child t n a b).2 c n
      hal0 (by rw [create_child_snd]; omega) (by omega)).2
      (by rw [create_child_snd]; omega)
    have hch : (attachRose a b (create_child t n a b).1
        (create_child t n a b).2 c).children.getD n [] =
        t.children.getD n [] ++ [t.parent.length] :=
      getD_of_get? (hfr.1.trans hcc) []
    rw [hch, hl1, kidStarts]
    simp [List.append_assoc]

theorem attachRose_at (a b : Bool) (t : compact_tree) (n : Nat) (l : String) (q : Rat)
    (cs : List Rose) (hal : Aligned a b t) (hn : n < t.parent.length) (hnn : n ≠ NULL_NODE) :
    (attachRose a b t n (.node l q cs)).parent.get? n = t.parent.get? n ∧
    (attachRose a b t n (.node l q cs)).children.get? n =
      some (t.children.getD n [] ++ kidStarts t.parent.length cs) ∧
    (attachRose a b t n (.node l q cs)).label.get? n =
      (if a = true ∧ l ≠ "" then some l else t.label.get? n) ∧
    (attachRose a b t n (.node l q cs)).length.get? n =
      (if b then some q else t.length.get? n) := by
  rw [attachRose]
  have halk : Aligned a b (attachKids a b t n cs) := attachKids_aligned a b t n cs hal
  have hplen : (attachKids a b t n cs).parent.length = t.parent.length + roseSizeList cs :=
    attachKids_plen a b t n cs
  have hfr := attachKids_frame a b t n cs n hal hn hn
  have hch := attachKids_children_at a b t n cs hal hn hnn
  by_cases ha : a = true ∧ l ≠ "" <;> by_cases hb : b = true
  · have hll : n < (attachKids a b t n cs).label.length := by
      have h2 := halk.2.1; rw [if_pos ha.1] at h2; omega
    have hnn2 : n < (attachKids a b t n cs).length.length := by
      have h3 := halk.2.2; rw [if_pos hb] at h3; omega
    simp only [if_pos ha, if_pos hb]
    refine ⟨hfr.1, hch, ?_, ?_⟩
    · simp [List.get?_eq_getElem?, List.getElem?_set_eq_of_lt, hll]
    · simp [List.get?_eq_getElem?, List.getElem?_set_eq_of_lt, hnn2]
  · have hll : n < (attachKids a b t n cs).label.length := by
      have h2 := halk.2.1; rw [if_pos ha.1] at h2; omega
    simp only [if_pos ha, if_neg hb]
    refine ⟨hfr.1, hch, ?_, hfr.2.2.2⟩
    simp [List.get?_eq_getElem?, List.getElem?_set_eq_of_lt, hll]
  · have hnn2 : n < (attachKids a b t n cs).length.length := by
      have h3 := halk.2.2; rw [if_pos hb] at h3; omega
    simp only [if_neg ha, if_pos hb]
    refine ⟨hfr.1, hch, hfr.2.2.1, ?_⟩
    simp [List.get?_eq_getElem?, List.getElem?_set_eq_of_lt, hnn2]
  · simp only [if_neg ha, if_neg hb]
    exact ⟨hfr.1, hch, hfr.2.2.1, hfr.2.2.2⟩

/-- `getD` respects `get?`-equality. -/
theorem getD_eq_of_get? {α : Type} {l l' : List α} {n : Nat} (h : l'.get? n = l.get? n) (d : α) :
    l'.getD n d = l.getD n d := by
  simp only [List.getD_eq_getElem?_getD, ← List.get?_eq_getElem?, h]

mutual
/-- The arena stores the subtree `r` at id `n`: label and length slots of `n`
hold `r`'s data (where stored), `n`'s child list is the block starts
`n+1, n+1+size c1, ...`, and each child's subtree is stored at its block. -/
def SubAt (a b : Bool) (t : compact_tree) : Nat → Rose → Prop
  | n, .node l q cs =>
    (a = true → t.label.getD n "" = l) ∧
    (b = true → t.length.getD n 0 = q) ∧
    t.children.getD n [] = kidStarts (n + 1) cs ∧
    SubAtList a b t (n + 1) cs
def SubAtList (a b : Bool) (t : compact_tree) : Nat → List Rose → Prop
  | _, [] => True
  | base, c :: cs => SubAt a b t base c ∧ SubAtList a b t (base + roseSize c) cs
end

theorem roseSize_node (l : String) (q : Rat) (cs : List Rose) :
    roseSize (.node l q cs) = 1 + roseSizeList cs := by rw [roseSize]

mutual
theorem SubAt_mono (a b : Bool) (t t' : compact_tree) (n : Nat) (r : Rose)
    (hpres : ∀ k, n ≤ k → k < n + roseSize r →
      t'.children.get? k = t.children.get? k ∧ t'.label.get? k = t.label.get? k ∧
      t'.length.get? k = t.length.get? k)
    (h : SubAt a b t n r) : SubAt a b t' n r := by
  match r with
  | .node l q cs =>
    rw [SubAt] at h ⊢
    have hsz := roseSize_node l q cs
    have hn := hpres n (Nat.le_refl n) (by omega)
    refine ⟨fun ha => ?_, fun hb => ?_, ?_, ?_⟩
    · rw [getD_eq_of_get? hn.2.1]; exact h.1 ha
    · rw [getD_eq_of_get? hn.2.2]; exact h.2.1 hb
    · rw [getD_eq_of_get? hn.1]; exact h.2.2.1
    · exact SubAtList_mono a b t t' (n + 1) cs
        (fun k hk1 hk2 => hpres k (by omega) (by omega)) h.2.2.2
theorem SubAtList_mono (a b : Bool) (t t' : compact_tree) (base : Nat) (cs : List Rose)
    (hpres : ∀ k, base ≤ k → k < base + roseSizeList cs →
      t'.children.get? k = t.children.get? k ∧ t'.label.get? k = t.label.get? k ∧
      t'.length.get? k = t.length.get? k)
    (h : SubAtList a b t base cs) : SubAtList a b t' base cs := by
  match cs with
  | [] => trivial
  | c :: cs =>
    rw [SubAtList] at h ⊢
    have hsz : roseSizeList (c :: cs) = roseSize c + roseSizeList cs := by rw [roseSizeList]
    have hp : 1 ≤ roseSize c := roseSize_pos c
    refine ⟨SubAt_mono a b t t' base c
        (fun k hk1 hk2 => hpres k (by omega) (by omega)) h.1,
      SubAtList_mono a b t t' (base + roseSize c) cs
        (fun k hk1 hk2 => hpres k (by omega) (by omega)) h.2⟩
end

theorem create_child_label_fresh_d {a b : Bool} (t : compact_tree) (p : Nat)
    (h : Aligned a b t) (ha : a = true) :
    (create_child t p a b).1.label.getD (create_child t p a b).2 "" = "" := by
  subst ha
  exact getD_of_get? (create_child_label_fresh t p h) ""

theorem create_child_children_fresh_d {a b : Bool} (t : compact_tree) (p : Nat)
    (h : Aligned a b t) (hp : p ≠ t.parent.length) :
    (create_child t p a b).1.children.getD (create_child t p a b).2 [] = [] :=
  getD_of_get? (create_child_children_fresh t p h hp) []

mutual
theorem attachRose_subat (a b : Bool) (t : compact_tree) (n : Nat) (r : Rose)
    (hal : Aligned a b t) (hlen : t.parent.length = n + 1)
    (hch0 : t.children.getD n [] = [])
    (hlab0 : a = true → t.label.getD n "" = "")
    (hcap : n + roseSize r ≤ NULL_NODE) :
    SubAt a b (attachRose a b t n r) n r := by
  match r with
  | .node l q cs =>
    have hsz := roseSize_node l q cs
    have hnn : n ≠ NULL_NODE := by omega
    have hat := attachRose_at a b t n l q cs hal (by omega) hnn
    rw [SubAt]
    refine ⟨fun ha => ?_, fun hb => ?_, ?_, ?_⟩
    · by_cases hl : l = ""
      · have hpres : (attachRose a b t n (.node l q cs)).label.get? n = t.label.get? n := by
          rw [hat.2.2.1, if_neg (fun hc => hc.2 hl)]
        rw [getD_eq_of_get? hpres, hlab0 ha, hl]
      · exact getD_of_get? (by rw [hat.2.2.1, if_pos ⟨ha, hl⟩]) ""
    · exact getD_of_get? (by rw [hat.2.2.2, if_pos hb]) 0
    · rw [getD_of_get? hat.2.1 [], hch0, hlen]
      simp
    · have hkl : SubAtList a b (attachKids a b t n cs) t.parent.length cs :=
        attachKids_subatList a b t n cs hal (by omega) hnn (by omega)
      rw [hlen] at hkl
      refine SubAtList_mono a b _ _ (n + 1) cs (fun k hk1 hk2 => ?_) hkl
      rw [attachRose]
      have hkn : n ≠ k := by omega
      refine ⟨?_, ?_, ?_⟩ <;>
        by_cases hab : a = true ∧ l ≠ "" <;> by_cases hb2 : b = true <;>
        simp [hab, hb2, List.get?_eq_getElem?, List.getElem?_set_ne hkn]
theorem attachKids_subatList (a b : Bool) (t : compact_tree) (n : Nat) (cs : List Rose)
    (hal : Aligned a b t) (hn : n < t.parent.length) (hnn : n ≠ NULL_NODE)
    (hcap : t.parent.length + roseSizeList cs ≤ NULL_NODE) :
    SubAtList a b (attachKids a b t n cs) t.parent.length cs := by
  match cs with
  | [] => trivial
  | c :: cs =>
    rw [attachKids, SubAtList]
    have hszc : 1 ≤ roseSize c := roseSize_pos c
    have hszl : roseSizeList (c :: cs) = roseSize c + roseSizeList cs := by rw [roseSizeList]
    have hal0 : Aligned a b (create_child t n a b).1 := create_child_aligned hal n
    have hlen0 := create_child_plen t n a b
    have hfresh : (create_child t n a b).2 = t.parent.length := create_child_snd t n a b
    have hsub1 : SubAt a b (attachRose a b (create_child t n a b).1 (create_child t n a b).2 c)
        (create_child t n a b).2 c :=
      attachRose_subat a b (create_child t n a b).1 (create_child t n a b).2 c hal0
        (by rw [hlen0, hfresh])
        (create_child_children_fresh_d t n hal (by omega))
        (fun ha => create_child_label_fresh_d t n hal ha)
        (by omega)
    have hlen1 : (attachRose a b (create_child t n a b).1
        (create_child t n a b).2 c).parent.length = t.parent.length + roseSize c :=
      attach_one_len a b t n c
    have hal1 : Aligned a b (attachRose a b (create_child t n a b).1
        (create_child t n a b).2 c) := attachRose_aligned a b _ _ c hal0
    have hrest : SubAtList a b (attachKids a b
        (attachRose a b (create_child t n a b).1 (create_child t n a b).2 c) n cs)
        (attachRose a b (create_child t n a b).1
          (create_child t n a b).2 c).parent.length cs :=
      attachKids_subatList a b _ n cs hal1 (by omega) hnn (by omega)
    constructor
    · refine SubAt_mono a b (attachRose a b (create_child t n a b).1
        (create_child t n a b).2 c) _ t.parent.length c (fun k hk1 hk2 => ?_) ?_
      · have hkfr := attachKids_frame a b (attachRose a b (create_child t n a b).1
          (create_child t n a b).2 c) n cs k hal1 (by omega) (by omega)
        exact ⟨hkfr.2.1 (by omega), hkfr.2.2.1, hkfr.2.2.2⟩
      · rw [hfresh] at hsub1
        exact hsub1
    · rw [hlen1] at hrest
      exact hrest
end

theorem roseSizeList_cons (c : Rose) (cs : List Rose) :
    roseSizeList (c :: cs) = roseSize c + roseSizeList cs := by rw [roseSizeList]

theorem bodyChars_node (a b : Bool) (l : String) (q : Rat) (cs : List Rose) :
    bodyChars a b (.node l q cs) =
      (match cs with
       | [] => []
       | c :: cs' => '(' :: (bodyChars a b c ++ bodyCharsSibs a b cs' ++ [')'])) ++
      (if a then l.toList else []) ++
      (if b then ':' :: lenChars q else []) := by
  cases cs <;> rfl

theorem bodyCharsSibs_nil (a b : Bool) : bodyCharsSibs a b [] = [] := by rfl

theorem bodyCharsSibs_cons (a b : Bool) (c : Rose) (cs : List Rose) :
    bodyCharsSibs a b (c :: cs) = ',' :: (bodyChars a b c ++ bodyCharsSibs a b cs) := by rfl

mutual
/-- Rendering a node whose subtree is stored per `SubAt` yields exactly the
abstract Newick body of that subtree. -/
theorem print_go_body (a b : Bool) (t : compact_tree) (hal : Aligned a b t)
    (hpos : 0 < t.parent.length) (r : Rose) (fuel n : Nat)
    (h : SubAt a b t n r) (hf : roseSize r ≤ fuel) :
    print_newick_go t fuel n false = bodyChars a b r := by
  match r, fuel with
  | .node l q cs, 0 => exact absurd hf (by rw [roseSize_node]; omega)
  | .node l q cs, fuel + 1 =>
    rw [SubAt] at h
    obtain ⟨hlab, hlen, hch, hsubs⟩ := h
    have hsz := roseSize_node l q cs
    have hla : (if t.label.length ≠ 0 then (t.label.getD n "").toList else []) =
        (if a then l.toList else []) := by
      cases a with
      | true =>
        have h2 := hal.2.1
        rw [if_pos rfl] at h2
        rw [if_pos (by omega), hlab rfl, if_pos rfl]
      | false =>
        have h2 := hal.2.1
        rw [if_neg (by simp)] at h2
        rw [if_neg (by omega), if_neg (by simp)]
    have hle : (if t.length.length ≠ 0 then ':' :: lenChars (t.length.getD n 0) else []) =
        (if b then ':' :: lenChars q else []) := by
      cases b with
      | true =>
        have h3 := hal.2.2
        rw [if_pos rfl] at h3
        rw [if_pos (by omega), hlen rfl, if_pos rfl]
      | false =>
        have h3 := hal.2.2
        rw [if_neg (by simp)] at h3
        rw [if_neg (by omega), if_neg (by simp)]
    rw [print_newick_go, bodyChars_node]
    cases cs with
    | nil =>
      simp only [hch, kidStarts]
      rw [show is_leaf t n = true by rw [is_leaf, hch, kidStarts]; rfl]
      rw [hla, hle]
      simp
    | cons c cs' =>
      rw [SubAtList] at hsubs
      have hszl := roseSizeList_cons c cs'
      have hszc := roseSize_pos c
      simp only [hch, kidStarts]
      rw [show is_leaf t n = false by rw [is_leaf, hch, kidStarts]; rfl]
      rw [print_go_body a b t hal hpos c fuel (n + 1) hsubs.1 (by omega)]
      rw [print_go_sibs a b t hal hpos cs' fuel (n + 1 + roseSize c) hsubs.2 (by omega)]
      rw [hla, hle]
      simp [List.append_assoc]
theorem print_go_sibs (a b : Bool) (t : compact_tree) (hal : Aligned a b t)
    (hpos : 0 < t.parent.length) (cs : List Rose) (fuel base : Nat)
    (h : SubAtList a b t base cs) (hf : roseSizeList cs ≤ fuel) :
    ((kidStarts base cs).map (fun c2 => ',' :: print_newick_go t fuel c2 false)).flatten =
      bodyCharsSibs a b cs := by
  match cs with
  | [] => rw [kidStarts, bodyCharsSibs_nil]; rfl
  | c :: cs =>
    rw [SubAtList] at h
    have hszl := roseSizeList_cons c cs
    have hszc := roseSize_pos c
    rw [kidStarts, bodyCharsSibs_cons]
    simp only [List.map_cons, List.flatten_cons]
    rw [print_go_body a b t hal hpos c fuel base h.1 (by omega)]
    rw [print_go_sibs a b t hal hpos cs fuel (base + roseSize c) h.2 (by omega)]
    simp
end

theorem empty_tree_aligned (a b : Bool) : Aligned a b empty_tree :=
  ⟨rfl, by cases a <;> rfl, by cases b <;> rfl⟩

theorem seed_aligned (a b : Bool) : Aligned a b (create_child empty_tree NULL_NODE a b).1 :=
  create_child_aligned (empty_tree_aligned a b) NULL_NODE

theorem seed_plen (a b : Bool) : (create_child empty_tree NULL_NODE a b).1.parent.length = 1 :=
  create_child_plen empty_tree NULL_NODE a b

theorem seed_children (a b : Bool) :
    (create_child empty_tree NULL_NODE a b).1.children.getD 0 [] = [] := by
  cases a <;> cases b <;> rfl

theorem seed_label (a b : Bool) :
    a = true → (create_child empty_tree NULL_NODE a b).1.label.getD 0 "" = "" := by
  intro ha
  subst ha
  cases b <;> rfl

theorem roseArena_subat (a b : Bool) (r : Rose) (hcap : roseSize r ≤ NULL_NODE) :
    SubAt a b (roseArena a b r) 0 r := by
  unfold roseArena
  exact attachRose_subat a b _ 0 r (seed_aligned a b) (by rw [seed_plen]) (seed_children a b)
    (seed_label a b) (by omega)

theorem roseArena_aligned (a b : Bool) (r : Rose) : Aligned a b (roseArena a b r) :=
  attachRose_aligned a b _ _ r (seed_aligned a b)

theorem roseArena_size (a b : Bool) (r : Rose) :
    (roseArena a b r).parent.length = roseSize r := by
  unfold roseArena
  cases r with
  | node l q cs =>
    have h : (attachRose a b (create_child empty_tree NULL_NODE a b).1 ROOT_NODE
        (.node l q cs)).parent.length =
        (create_child empty_tree NULL_NODE a b).1.parent.length + roseSizeList cs :=
      attachRose_plen a b _ ROOT_NODE (.node l q cs)
    rw [h, seed_plen, roseSize_node]

theorem print_go_semi (t : compact_tree) (fuel n : Nat) :
    print_newick_go t (fuel + 1) n true = print_newick_go t (fuel + 1) n false ++ [';'] := by
  rw [print_newick_go, print_newick_go]
  simp

theorem roseArena_newick (a b : Bool) (r : Rose) (hcap : roseSize r ≤ NULL_NODE) :
    (get_newick (roseArena a b r)).toList = bodyChars a b r ++ [';'] := by
  have hsz := roseArena_size a b r
  have hone := roseSize_pos r
  have hn : get_num_nodes (roseArena a b r) + 1 = roseSize r + 1 := by
    rw [get_num_nodes, hsz]
  rw [get_newick, hn, print_go_semi]
  rw [show (ROOT_NODE : Nat) = 0 from rfl]
  rw [print_go_body a b _ (roseArena_aligned a b r) (by omega) r (roseSize r + 1) 0
    (roseArena_subat a b r hcap) (by omega)]
  rfl

/-! ### Parse-side: single-character step evaluations and token accumulation -/

theorem digit_not_delim {c : Char} (h : isDigitC c = true) :
    c ≠ ':' ∧ c ≠ ',' ∧ c ≠ ')' ∧ c ≠ ';' ∧ c ≠ '[' := by
  have h48 : 48 ≤ c.toNat ∧ c.toNat ≤ 57 := by simpa [isDigitC] using h
  refine ⟨?_, ?_, ?_, ?_, ?_⟩ <;> rintro rfl <;> simp_all

theorem lenChars_chars (q : Rat) :
    ∀ c ∈ lenChars q, isDigitC c = true ∨ c = '-' ∨ c = '.' := by
  unfold lenChars
  intro c hc
  match hde : decExp q.den with
  | none =>
    rw [hde] at hc
    simp only [List.mem_singleton] at hc
    subst hc
    exact Or.inl (digit_facts 0 (by omega)).2
  | some k =>
    rw [hde] at hc
    simp only [List.mem_append, List.mem_cons] at hc
    rcases hc with ((h1 | h2) | h3)
    · rcases (by split at h1 <;> simp_all : c = '-') with rfl
      exact Or.inr (Or.inl rfl)
    · exact Or.inl (natDigits_digits c h2)
    · split at h3
      · simp at h3
      · simp only [List.mem_cons] at h3
        rcases h3 with rfl | h4
        · exact Or.inr (Or.inr rfl)
        · exact Or.inl (padDigits_digits c h4)

/-- The suffix writes performed after a node's children are closed: the label
(iff stored and nonempty) then the edge length (iff stored). -/
def setSuffix (a b : Bool) (T : compact_tree) (n : Nat) (l : String) (q : Rat) : compact_tree :=
  let T1 := if a = true ∧ l ≠ "" then { T with label := T.label.set n l } else T
  if b then { T1 with length := T1.length.set n q } else T1

theorem attachRose_eq_suffix (a b : Bool) (t : compact_tree) (n : Nat) (l : String) (q : Rat)
    (cs : List Rose) :
    attachRose a b t n (.node l q cs) = setSuffix a b (attachKids a b t n cs) n l q := by
  rw [attachRose, setSuffix]

theorem parseChars_of_stepRel (a b : Bool) (st1 st2 : PState) (c : Char) (cs : List Char)
    (h : StepRel a b (parseStep a b st1 c) (parseStep a b st2 c)) :
    parseChars a b st1 (c :: cs) = parseChars a b st2 (c :: cs) := by
  rw [parseChars_cons, parseChars_cons]
  cases hps1 : parseStep a b st1 c with
  | done t =>
    cases hps2 : parseStep a b st2 c with
    | done t2 => rw [hps1, hps2] at h; cases h; rfl
    | cont st' => rw [hps1, hps2] at h; cases h
    | fail e => rw [hps1, hps2] at h; cases h
  | fail e =>
    cases hps2 : parseStep a b st2 c with
    | done t2 => rw [hps1, hps2] at h; cases h
    | cont st' => rw [hps1, hps2] at h; cases h
    | fail e2 => rw [hps1, hps2] at h; cases h; rfl
  | cont st1' =>
    cases hps2 : parseStep a b st2 c with
    | done t2 => rw [hps1, hps2] at h; cases h
    | fail e2 => rw [hps1, hps2] at h; cases h
    | cont st2' =>
      rw [hps1, hps2] at h
      cases h with
      | contEq _ => rfl
      | contBuf _ buf2 hlen hlab => exact parseChars_buf_irrel a b cs st1' buf2 hlen hlab

theorem parseStep_clean (a b : Bool) (t : compact_tree) (n : Nat) (buf : List Char) (c : Char) :
    parseStep a b ⟨t, n, buf, false, false, false, false, false⟩ c =
      normalStep a b ⟨t, n, buf, false, false, false, false, false⟩ c := rfl

theorem normal_paren (a b : Bool) (t : compact_tree) (n : Nat) (buf : List Char)
    (hn : n ≠ NULL_NODE) :
    normalStep a b ⟨t, n, buf, false, false, false, false, false⟩ '(' =
      .cont ⟨(create_child t n a b).1, (create_child t n a b).2, buf,
        false, false, false, false, false⟩ := by
  unfold normalStep
  rw [if_neg (by decide), if_neg (by decide), if_pos rfl, if_neg hn]

theorem normal_close (a b : Bool) (t : compact_tree) (n : Nat) (buf : List Char) (p : Nat)
    (hp : t.parent.get? n = some p) :
    normalStep a b ⟨t, n, buf, false, false, false, false, false⟩ ')' =
      .cont ⟨t, p, buf, false, false, false, false, false⟩ := by
  unfold normalStep
  rw [if_neg (by decide), if_neg (by decide), if_neg (by decide), if_pos rfl]
  simp only [hp]

theorem normal_comma (a b : Bool) (t : compact_tree) (n : Nat) (buf : List Char) (p : Nat)
    (hn : n ≠ NULL_NODE) (hp : t.parent.get? n = some p) (hpn : p ≠ NULL_NODE) :
    normalStep a b ⟨t, n, buf, false, false, false, false, false⟩ ',' =
      .cont ⟨(create_child t p a b).1, (create_child t p a b).2, buf,
        false, false, false, false, false⟩ := by
  unfold normalStep
  rw [if_neg (by decide), if_neg (by decide), if_neg (by decide), if_neg (by decide),
    if_pos rfl, if_neg hn]
  simp only [hp, if_neg hpn]

theorem normal_colon (a b : Bool) (t : compact_tree) (n : Nat) (buf : List Char) :
    normalStep a b ⟨t, n, buf, false, false, false, false, false⟩ ':' =
      .cont ⟨t, n, if b then [] else buf, true, false, false, false, false⟩ := by
  unfold normalStep
  rw [if_neg (by decide), if_neg (by decide), if_neg (by decide), if_neg (by decide),
    if_neg (by decide), if_neg (by decide), if_pos rfl]

theorem normal_semi_root (a b : Bool) (t : compact_tree) (buf : List Char) :
    normalStep a b ⟨t, ROOT_NODE, buf, false, false, false, false, false⟩ ';' = .done t := by
  unfold normalStep
  rw [if_neg (by decide), if_pos rfl, if_neg (by simp)]

theorem normal_label_head (a b : Bool) (t : compact_tree) (n : Nat) (buf : List Char) (c : Char)
    (h1 : c ≠ ' ') (h2 : c ≠ ';') (h3 : c ≠ '(') (h4 : c ≠ ')') (h5 : c ≠ ',') (h6 : c ≠ '[')
    (h7 : c ≠ ':') (h8 : c ≠ squote) (h9 : c ≠ dquote) :
    normalStep a b ⟨t, n, buf, false, false, false, false, false⟩ c =
      .cont ⟨t, n, if a then [c] else buf, false, true, false, false, false⟩ := by
  unfold normalStep
  rw [if_neg h1, if_neg h2, if_neg h3, if_neg h4, if_neg h5, if_neg h6, if_neg h7,
    if_neg h8, if_neg h9]

theorem parseStep_label_fin (a b : Bool) (t : compact_tree) (n : Nat) (buf : List Char)
    (d : Char) (hd : d = ':' ∨ d = ',' ∨ d = ')' ∨ d = ';')
    (hbnd : a = true → n < t.label.length) :
    parseStep a b ⟨t, n, buf, false, true, false, false, false⟩ d =
      normalStep a b ⟨if a then { t with label := t.label.set n (String.mk buf) } else t,
        n, buf, false, false, false, false, false⟩ d := by
  cases a with
  | true =>
    have hbl : n < t.label.length := hbnd rfl
    unfold parseStep setG
    simp [hd, hbl]
  | false =>
    unfold parseStep
    simp [hd]

theorem parseStep_len_fin (a b : Bool) (t : compact_tree) (n : Nat) (buf : List Char)
    (d : Char) (hd : d = ',' ∨ d = ')' ∨ d = ';')
    (hbnd : b = true → n < t.length.length) :
    parseStep a b ⟨t, n, buf, true, false, false, false, false⟩ d =
      normalStep a b ⟨if b then { t with length := t.length.set n (atofQ buf) } else t,
        n, buf, false, false, false, false, false⟩ d := by
  cases b with
  | true =>
    have hbl : n < t.length.length := hbnd rfl
    unfold parseStep setG
    simp [hd, hbl]
  | false =>
    unfold parseStep
    simp [hd]

theorem parseStep_label_accum (a b : Bool) (t : compact_tree) (n : Nat) (buf : List Char)
    (x : Char) (hx : ¬(x = ':' ∨ x = ',' ∨ x = ')' ∨ x = ';')) :
    parseStep a b ⟨t, n, buf, false, true, false, false, false⟩ x =
      .cont ⟨t, n, if a then buf ++ [x] else buf, false, true, false, false, false⟩ := by
  unfold parseStep
  simp only [if_neg (by simp : ¬false = true), if_pos rfl,
    if_neg (by simp : ¬(false = true ∨ false = true)), if_neg hx]
  rfl

theorem parseStep_len_accum (a b : Bool) (t : compact_tree) (n : Nat) (buf : List Char)
    (x : Char) (hx : ¬(x = ',' ∨ x = ')' ∨ x = ';')) (hx2 : x ≠ '[') :
    parseStep a b ⟨t, n, buf, true, false, false, false, false⟩ x =
      .cont ⟨t, n, if b then buf ++ [x] else buf, true, false, false, false, false⟩ := by
  unfold parseStep
  simp only [if_neg (by simp : ¬false = true), if_pos rfl, if_neg hx, if_neg hx2]
  rfl

theorem label_accum (a b : Bool) (xs : List Char)
    (hxs : ∀ x ∈ xs, ¬(x = ':' ∨ x = ',' ∨ x = ')' ∨ x = ';')) :
    ∀ (t : compact_tree) (n : Nat) (buf rest : List Char),
    parseChars a b ⟨t, n, buf, false, true, false, false, false⟩ (xs ++ rest) =
    parseChars a b ⟨t, n, if a then buf ++ xs else buf, false, true, false, false, false⟩
      rest := by
  induction xs with
  | nil =>
    intro t n buf rest
    cases a <;> simp
  | cons x xs ih =>
    intro t n buf rest
    rw [List.cons_append, parseChars_cons]
    simp only [parseStep_label_accum a b t n buf x (hxs x (by simp))]
    rw [ih (fun c hc => hxs c (by simp [hc])) t n _ rest]
    cases a <;> simp

theorem len_accum (a b : Bool) (xs : List Char)
    (hxs : ∀ x ∈ xs, ¬(x = ',' ∨ x = ')' ∨ x = ';') ∧ x ≠ '[') :
    ∀ (t : compact_tree) (n : Nat) (buf rest : List Char),
    parseChars a b ⟨t, n, buf, true, false, false, false, false⟩ (xs ++ rest) =
    parseChars a b ⟨t, n, if b then buf ++ xs else buf, true, false, false, false, false⟩
      rest := by
  induction xs with
  | nil =>
    intro t n buf rest
    cases b <;> simp
  | cons x xs ih =>
    intro t n buf rest
    rw [List.cons_append, parseChars_cons]
    simp only [parseStep_len_accum a b t n buf x (hxs x (by simp)).1 (hxs x (by simp)).2]
    rw [ih (fun c hc => hxs c (by simp [hc])) t n _ rest]
    cases b <;> simp

theorem mk_toList (l : String) : String.mk l.toList = l := by
  cases l
  rfl

theorem toList_ne_nil {l : String} (h : l ≠ "") : l.toList ≠ [] := by
  cases l with
  | mk d =>
    cases d with
    | nil => exact absurd rfl h
    | cons x xs => simp [String.toList]

theorem labelOk_cons {l : String} {c0 : Char} {ltl : List Char} (h : labelOk l)
    (he : l.toList = c0 :: ltl) :
    c0 ∉ [' ', ';', '(', ')', ',', '[', ':', squote, dquote] ∧
    ∀ x ∈ c0 :: ltl, x ∉ ([':', ',', ')', ';'] : List Char) := by
  unfold labelOk at h
  rw [he] at h
  exact h

theorem lenChars_ok (q : Rat) :
    ∀ x ∈ lenChars q, (¬(x = ',' ∨ x = ')' ∨ x = ';') ∧ x ≠ '[') ∧ ¬(x = ':' ∨ x = ',' ∨ x = ')' ∨ x = ';') := by
  intro x hx
  rcases lenChars_chars q x hx with hdig | rfl | rfl
  · have hd := digit_not_delim hdig
    refine ⟨⟨?_, hd.2.2.2.2⟩, ?_⟩ <;> rintro (rfl | rfl | rfl | rfl) <;> simp_all
  · refine ⟨⟨?_, by decide⟩, ?_⟩ <;> rintro (h | h | h | h) <;> simp_all
  · refine ⟨⟨?_, by decide⟩, ?_⟩ <;> rintro (h | h | h | h) <;> simp_all

theorem parse_suffix (a b : Bool) (T : compact_tree) (n : Nat) (l : String) (q : Rat)
    (buf rest : List Char) (d : Char)
    (hal : Aligned a b T) (hn : n < T.parent.length)
    (hlok : a = true → labelOk l) (hq : b = true → IsDecRat q)
    (hd : d = ',' ∨ d = ')' ∨ d = ';') :
    parseChars a b ⟨T, n, buf, false, false, false, false, false⟩
      ((if a then l.toList else []) ++ (if b then ':' :: lenChars q else []) ++ d :: rest) =
    parseChars a b ⟨setSuffix a b T n l q, n, [], false, false, false, false, false⟩
      (d :: rest) := by
  have hbndl : a = true → n < T.label.length := fun ha' => by
    have h2 := hal.2.1
    rw [if_pos ha'] at h2
    omega
  have hbndq : b = true → n < T.length.length := fun hb' => by
    have h3 := hal.2.2
    rw [if_pos hb'] at h3
    omega
  by_cases hla : a = true ∧ l ≠ ""
  · -- the label token is emitted and parsed back
    obtain ⟨c0, ltl, hlt⟩ : ∃ c0 ltl, l.toList = c0 :: ltl := by
      cases hlt : l.toList with
      | nil => exact absurd hlt (toList_ne_nil hla.2)
      | cons c0 ltl => exact ⟨c0, ltl, rfl⟩
    obtain ⟨hhead, hall⟩ := labelOk_cons (hlok hla.1) hlt
    simp only [List.mem_cons, List.mem_singleton, not_or] at hhead
    rw [if_pos hla.1, hlt]
    simp only [List.cons_append, List.append_assoc]
    rw [parseChars_cons]
    simp only [parseStep_clean, normal_label_head a b T n buf c0
      hhead.1 (by tauto) (by tauto) (by tauto) (by tauto) (by tauto) (by tauto)
      (by tauto) (by tauto)]
    rw [if_pos hla.1]
    rw [label_accum a b ltl (fun x hx => by
      have := hall x (by simp [hx])
      simp only [List.mem_cons, List.mem_singleton, not_or] at this
      tauto) T n [c0] _]
    rw [if_pos hla.1]
    simp only [List.singleton_append]
    have hmk : String.mk (c0 :: ltl) = l := by rw [← hlt, mk_toList]
    by_cases hb : b = true
    · rw [if_pos hb]
      rw [List.cons_append, parseChars_cons]
      simp only [parseStep_label_fin a b T n (c0 :: ltl) ':' (Or.inl rfl) hbndl]
      rw [if_pos hla.1, hmk]
      simp only [normal_colon]
      rw [if_pos hb]
      have hnil : ([] : List Char) ++ lenChars q = lenChars q := rfl
      rw [len_accum a b (lenChars q) (fun x hx => (lenChars_ok q x hx).1) _ n [] (d :: rest)]
      rw [if_pos hb, hnil]
      refine parseChars_of_stepRel a b _ _ d rest ?_
      rw [parseStep_len_fin a b _ n (lenChars q) d hd
        (fun hb' => by simpa using hbndq hb'), parseStep_clean]
      rw [if_pos hb, atofQ_lenChars (hq hb)]
      rw [show setSuffix a b T n l q =
        { T with label := T.label.set n l, length := T.length.set n q } from ?_]
      · exact normalStep_rel a b ⟨_, n, lenChars q, false, false, false, false, false⟩ []
          d (by simp) (by simp)
      · rw [setSuffix]
        rw [if_pos hla, if_pos hb]
    · rw [if_neg hb]
      refine parseChars_of_stepRel a b _ _ d rest ?_
      rw [parseStep_label_fin a b T n (c0 :: ltl) d (Or.inr hd) hbndl, parseStep_clean]
      rw [if_pos hla.1, hmk]
      rw [show setSuffix a b T n l q = { T with label := T.label.set n l } from ?_]
      · exact normalStep_rel a b ⟨_, n, c0 :: ltl, false, false, false, false, false⟩ []
          d (by simp) (by simp)
      · rw [setSuffix]
        rw [if_pos hla, if_neg hb]
  · -- no label token
    have hlp : (if a then l.toList else []) = [] := by
      by_cases ha : a = true
      · have hle : l = "" := by
          by_contra hne
          exact hla ⟨ha, hne⟩
        rw [if_pos ha, hle]
        rfl
      · rw [if_neg ha]
    rw [hlp, List.nil_append]
    by_cases hb : b = true
    · rw [if_pos hb]
      rw [List.cons_append, parseChars_cons]
      simp only [parseStep_clean, normal_colon]
      rw [if_pos hb]
      rw [len_accum a b (lenChars q) (fun x hx => (lenChars_ok q x hx).1) T n [] (d :: rest)]
      rw [if_pos hb]
      refine parseChars_of_stepRel a b _ _ d rest ?_
      rw [parseStep_len_fin a b T n ([] ++ lenChars q) d hd hbndq, parseStep_clean]
      rw [if_pos hb, show ([] : List Char) ++ lenChars q = lenChars q from rfl,
        atofQ_lenChars (hq hb)]
      rw [show setSuffix a b T n l q = { T with length := T.length.set n q } from ?_]
      · exact normalStep_rel a b ⟨_, n, lenChars q, false, false, false, false, false⟩ []
          d (by simp) (by simp)
      · rw [setSuffix]
        rw [if_neg hla, if_pos hb]
    · rw [if_neg hb, List.nil_append]
      refine parseChars_of_stepRel a b _ _ d rest ?_
      rw [parseStep_clean, parseStep_clean]
      rw [show setSuffix a b T n l q = T from ?_]
      · exact normalStep_rel a b ⟨T, n, buf, false, false, false, false, false⟩ []
          d (by simp) (by simp)
      · rw [setSuffix]
        rw [if_neg hla, if_neg hb]

mutual
/-- Parsing the Newick body of `r` with current node `n` performs exactly the
store mutations `attachRose` describes, leaves the current node at `n`, and
proceeds with the rest of the input (which starts with a structural
delimiter). -/
theorem parse_body (a b : Bool) (r : Rose) :
    ∀ (t : compact_tree) (n : Nat) (buf rest : List Char),
    labelsOkR a r → lengthsOkR b r → Aligned a b t → n < t.parent.length →
    t.parent.length + roseSize r ≤ NULL_NODE + 1 →
    (∃ d rest2, rest = d :: rest2 ∧ (d = ',' ∨ d = ')' ∨ d = ';')) →
    parseChars a b ⟨t, n, buf, false, false, false, false, false⟩
      (bodyChars a b r ++ rest) =
    parseChars a b ⟨attachRose a b t n r, n, [], false, false, false, false, false⟩ rest := by
  match r with
  | .node l q cs =>
    intro t n buf rest hlok hqok hal hn hcap hrest
    obtain ⟨d, rest2, rfl, hd⟩ := hrest
    have hsz := roseSize_node l q cs
    rw [labelsOkR] at hlok
    rw [lengthsOkR] at hqok
    rw [bodyChars_node, attachRose_eq_suffix]
    cases cs with
    | nil =>
      simp only [List.nil_append, List.append_assoc]
      rw [← List.append_assoc]
      rw [parse_suffix a b t n l q buf rest2 d hal hn hlok.1 hqok.1 hd]
      rw [show attachKids a b t n [] = t from rfl]
    | cons c cs' =>
      have hszc := roseSize_pos c
      have hszl := roseSizeList_cons c cs'
      rw [labelsOkRList] at hlok
      rw [lengthsOkRList] at hqok
      simp only [List.cons_append, List.append_assoc, List.nil_append]
      rw [parseChars_cons]
      simp only [parseStep_clean, normal_paren a b t n buf (by omega)]
      have hal0 : Aligned a b (create_child t n a b).1 := create_child_aligned hal n
      have hlen0 := create_child_plen t n a b
      have hfresh := create_child_snd t n a b
      have hl1 := attach_one_len a b t n c
      rw [parse_body a b c (create_child t n a b).1 (create_child t n a b).2 buf
        (bodyCharsSibs a b cs' ++ ')' :: ((if a then l.toList else []) ++
          ((if b then ':' :: lenChars q else []) ++ d :: rest2)))
        hlok.2.1 hqok.2.1 hal0 (by omega) (by omega)
        (by
          cases cs' with
          | nil => exact ⟨')', _, by rw [bodyCharsSibs_nil, List.nil_append], by tauto⟩
          | cons c2 cs'' => exact ⟨',', _, by rw [bodyCharsSibs_cons, List.cons_append], by tauto⟩)]
      have hal1 : Aligned a b (attachRose a b (create_child t n a b).1
          (create_child t n a b).2 c) := attachRose_aligned a b _ _ c hal0
      have hpar1 : (attachRose a b (create_child t n a b).1
          (create_child t n a b).2 c).parent.get? (create_child t n a b).2 = some n := by
        rw [(attachRose_frame a b (create_child t n a b).1 (create_child t n a b).2 c
          (create_child t n a b).2 hal0 (by omega) (by omega)).1]
        exact create_child_parent_at t n
      have hx1 : n < (attachRose a b (create_child t n a b).1
          (create_child t n a b).2 c).parent.length := by omega
      have hx2 : (create_child t n a b).2 < (attachRose a b (create_child t n a b).1
          (create_child t n a b).2 c).parent.length := by omega
      have hx3 : (attachRose a b (create_child t n a b).1
          (create_child t n a b).2 c).parent.length + roseSizeList cs' ≤ NULL_NODE := by omega
      rw [parse_sibs a b cs' (attachRose a b (create_child t n a b).1
          (create_child t n a b).2 c) n (create_child t n a b).2 [] _
        hlok.2.2 hqok.2.2 hal1 hx1 hx2 hpar1 hx3]
      have halk : Aligned a b (attachKids a b (attachRose a b (create_child t n a b).1
          (create_child t n a b).2 c) n cs') := attachKids_aligned a b _ n cs' hal1
      have hlk : (attachKids a b (attachRose a b (create_child t n a b).1
          (create_child t n a b).2 c) n cs').parent.length =
          (attachRose a b (create_child t n a b).1 (create_child t n a b).2
            c).parent.length + roseSizeList cs' := attachKids_plen a b _ n cs'
      have hx4 : n < (attachKids a b (attachRose a b (create_child t n a b).1
          (create_child t n a b).2 c) n cs').parent.length := by omega
      rw [← List.append_assoc]
      rw [parse_suffix a b _ n l q [] rest2 d halk hx4 hlok.1 hqok.1 hd]
      rw [show attachKids a b t n (c :: cs') = attachKids a b (attachRose a b
        (create_child t n a b).1 (create_child t n a b).2 c) n cs' from by rw [attachKids]]
theorem parse_sibs (a b : Bool) (cs : List Rose) :
    ∀ (t : compact_tree) (n m : Nat) (buf rest : List Char),
    labelsOkRList a cs → lengthsOkRList b cs → Aligned a b t → n < t.parent.length →
    m < t.parent.length → t.parent.get? m = some n →
    t.parent.length + roseSizeList cs ≤ NULL_NODE →
    parseChars a b ⟨t, m, buf, false, false, false, false, false⟩
      (bodyCharsSibs a b cs ++ ')' :: rest) =
    parseChars a b ⟨attachKids a b t n cs, n, [], false, false, false, false, false⟩ rest := by
  match cs with
  | [] =>
    intro t n m buf rest _ _ hal hn hm hpar hcap
    rw [bodyCharsSibs_nil, List.nil_append, parseChars_cons]
    simp only [parseStep_clean, normal_close a b t m buf n hpar]
    rw [show attachKids a b t n [] = t from rfl]
    exact parseChars_buf_irrel a b rest _ [] (by simp) (by simp)
  | c :: cs' =>
    intro t n m buf rest hlok hqok hal hn hm hpar hcap
    have hszc := roseSize_pos c
    have hszl := roseSizeList_cons c cs'
    rw [labelsOkRList] at hlok
    rw [lengthsOkRList] at hqok
    rw [bodyCharsSibs_cons]
    simp only [List.cons_append, List.append_assoc]
    rw [parseChars_cons]
    simp only [parseStep_clean,
      normal_comma a b t m buf n (by omega) hpar (by omega)]
    have hal0 : Aligned a b (create_child t n a b).1 := create_child_aligned hal n
    have hlen0 := create_child_plen t n a b
    have hfresh := create_child_snd t n a b
    have hl1 := attach_one_len a b t n c
    rw [parse_body a b c (create_child t n a b).1 (create_child t n a b).2 buf
      (bodyCharsSibs a b cs' ++ ')' :: rest)
      hlok.1 hqok.1 hal0 (by omega) (by omega)
      (by
        cases cs' with
        | nil => exact ⟨')', _, by rw [bodyCharsSibs_nil, List.nil_append], by tauto⟩
        | cons c2 cs'' => exact ⟨',', _, by rw [bodyCharsSibs_cons, List.cons_append], by tauto⟩)]
    have hal1 : Aligned a b (attachRose a b (create_child t n a b).1
        (create_child t n a b).2 c) := attachRose_aligned a b _ _ c hal0
    have hpar1 : (attachRose a b (create_child t n a b).1
        (create_child t n a b).2 c).parent.get? (create_child t n a b).2 = some n := by
      rw [(attachRose_frame a b (create_child t n a b).1 (create_child t n a b).2 c
        (create_child t n a b).2 hal0 (by omega) (by omega)).1]
      exact create_child_parent_at t n
    have hx1 : n < (attachRose a b (create_child t n a b).1
        (create_child t n a b).2 c).parent.length := by omega
    have hx2 : (create_child t n a b).2 < (attachRose a b (create_child t n a b).1
        (create_child t n a b).2 c).parent.length := by omega
    have hx3 : (attachRose a b (create_child t n a b).1
        (create_child t n a b).2 c).parent.length + roseSizeList cs' ≤ NULL_NODE := by omega
    rw [parse_sibs a b cs' (attachRose a b (create_child t n a b).1
        (create_child t n a b).2 c) n (create_child t n a b).2 [] rest
      hlok.2 hqok.2 hal1 hx1 hx2 hpar1 hx3]
    rw [show attachKids a b t n (c :: cs') = attachKids a b (attachRose a b
      (create_child t n a b).1 (create_child t n a b).2 c) n cs' from by rw [attachKids]]
end

instance decLabelOk (l : String) : Decidable (labelOk l) :=
  match h : l.toList with
  | [] => isTrue (by unfold labelOk; rw [h]; trivial)
  | c :: cs =>
    decidable_of_iff (c ∉ [' ', ';', '(', ')', ',', '[', ':', squote, dquote] ∧
      ∀ x ∈ c :: cs, x ∉ ([':', ',', ')', ';'] : List Char))
      (by unfold labelOk; rw [h])

/-- C2 (amended): print-then-parse is the identity on every constructed store
whose labels are unquoted-safe and whose edge lengths are exact decimals. -/
theorem C2_roundtrip_unquoted (a b : Bool) (r : Rose)
    (h1 : labelsOkR a r) (h2 : lengthsOkR b r) (hcap : roseSize r ≤ NULL_NODE) :
    parseNewick a b (get_newick (roseArena a b r)).toList = .ok (roseArena a b r) := by
  rw [roseArena_newick a b r hcap]
  unfold parseNewick
  rw [show bodyChars a b r ++ [';'] = bodyChars a b r ++ ';' :: [] from rfl]
  rw [parse_body a b r (create_child empty_tree NULL_NODE a b).1 ROOT_NODE [] (';' :: [])
    h1 h2 (seed_aligned a b) (by rw [seed_plen]; exact Nat.zero_lt_one)
    (by rw [seed_plen]; have := roseSize_pos r; omega)
    ⟨';', [], rfl, by tauto⟩]
  rw [parseChars_cons]
  simp only [parseStep_clean, normal_semi_root]
  rw [roseArena]

theorem C2_roundtrip_unquoted_witness :
    labelsOkR true (.node "" 0 [.node "A" 0 [], .node "B" 2 []]) ∧
    lengthsOkR true (.node "" 0 [.node "A" 0 [], .node "B" 2 []]) ∧
    roseSize (.node "" 0 [.node "A" 0 [], .node "B" 2 []]) ≤ NULL_NODE ∧
    parseNewick true true
      (get_newick (roseArena true true (.node "" 0 [.node "A" 0 [], .node "B" 2 []]))).toList =
      .ok (roseArena true true (.node "" 0 [.node "A" 0 [], .node "B" 2 []])) := by
  refine ⟨⟨fun _ => trivial, ⟨fun _ => by decide, trivial⟩, ⟨fun _ => by decide, trivial⟩,
      trivial⟩,
    ⟨fun _ => by decide, ⟨fun _ => by decide, trivial⟩, ⟨fun _ => by decide, trivial⟩, trivial⟩,
    by decide, ?_⟩
  exact C2_roundtrip_unquoted true true (.node "" 0 [.node "A" 0 [], .node "B" 2 []])
    ⟨fun _ => trivial, ⟨fun _ => by decide, trivial⟩, ⟨fun _ => by decide, trivial⟩, trivial⟩
    ⟨fun _ => by decide, ⟨fun _ => by decide, trivial⟩, ⟨fun _ => by decide, trivial⟩, trivial⟩
    (by decide)

theorem lenChars_no_colon (q : Rat) : (lenChars q).count ':' = 0 := by
  rw [List.count_eq_zero]
  intro hc
  rcases lenChars_chars q ':' hc with hd | h | h
  · exact absurd hd (by decide)
  · exact absurd h (by decide)
  · exact absurd h (by decide)

theorem labelOk_no_colon {l : String} (h : labelOk l) : l.toList.count ':' = 0 := by
  rw [List.count_eq_zero]
  intro hc
  unfold labelOk at h
  match hl : l.toList with
  | [] => rw [hl] at hc; simp at hc
  | c :: cs =>
    rw [hl] at h hc
    have := h.2 ':' hc
    simp at this

mutual
theorem bodyChars_colons (a b : Bool) (r : Rose) (h : labelsOkR a r) :
    (bodyChars a b r).count ':' = if b then roseSize r else 0 := by
  match r with
  | .node l q cs =>
    rw [labelsOkR] at h
    rw [bodyChars_node, roseSize_node]
    have hlab : (if a then l.toList else []).count ':' = 0 := by
      cases a with
      | true => simp only [if_pos rfl]; exact labelOk_no_colon (h.1 rfl)
      | false => simp
    have hlen : (if b then ':' :: lenChars q else []).count ':' = if b then 1 else 0 := by
      cases b with
      | true => simp [List.count_cons, lenChars_no_colon q]
      | false => simp
    cases cs with
    | nil =>
      simp only [List.count_append, hlab, hlen]
      rw [roseSizeList]
      cases b <;> simp
    | cons c cs' =>
      have hc := bodyChars_colons a b c h.2.1
      have hcs := bodyCharsSibs_colons a b cs' h.2.2
      have hsz := roseSizeList_cons c cs'
      simp only [List.count_append, List.count_cons, hlab, hlen, hc, hcs]
      cases b <;> simp <;> omega
theorem bodyCharsSibs_colons (a b : Bool) (cs : List Rose) (h : labelsOkRList a cs) :
    (bodyCharsSibs a b cs).count ':' = if b then roseSizeList cs else 0 := by
  match cs with
  | [] =>
    rw [bodyCharsSibs_nil, roseSizeList]
    cases b <;> simp
  | c :: cs' =>
    rw [labelsOkRList] at h
    have hc := bodyChars_colons a b c h.1
    have hcs := bodyCharsSibs_colons a b cs' h.2
    rw [bodyCharsSibs_cons, roseSizeList_cons]
    simp only [List.count_append, List.count_cons, hc, hcs]
    cases b <;> simp
end

/-- C7 (amended): the rendered Newick text contains one `':'`-length suffix per
node exactly when edge-length storage is enabled — including nodes whose stored
length is the default zero — and none otherwise. -/
theorem C7_colon_iff_lengths_stored (a b : Bool) (r : Rose) (h1 : labelsOkR a r)
    (hcap : roseSize r ≤ NULL_NODE) :
    (get_newick (roseArena a b r)).toList.count ':' =
      (if has_edge_lengths (roseArena a b r) = true then get_num_nodes (roseArena a b r)
       else 0) := by
  rw [roseArena_newick a b r hcap, List.count_append]
  rw [bodyChars_colons a b r h1]
  have hsz := roseArena_size a b r
  have hal := roseArena_aligned a b r
  cases b with
  | false =>
    have h3 := hal.2.2
    rw [if_neg (by simp)] at h3
    simp [has_edge_lengths, h3]
  | true =>
    have h3 := hal.2.2
    rw [if_pos rfl] at h3
    have hone := roseSize_pos r
    have hlen : has_edge_lengths (roseArena a true r) = true := by
      rw [has_edge_lengths]
      simp only [h3, hsz, bne_iff_ne, ne_eq]
      omega
    rw [if_pos hlen, get_num_nodes, hsz]
    simp

theorem C7_colon_iff_lengths_stored_witness :
    labelsOkR true (.node "A" 0 []) ∧ roseSize (.node "A" 0 []) ≤ NULL_NODE ∧
    (get_newick (roseArena true true (.node "A" 0 []))).toList.count ':' =
      (if has_edge_lengths (roseArena true true (.node "A" 0 [])) = true
       then get_num_nodes (roseArena true true (.node "A" 0 [])) else 0) :=
  ⟨⟨fun _ => by decide, trivial⟩, by decide,
   C7_colon_iff_lengths_stored true true (.node "A" 0 []) ⟨fun _ => by decide, trivial⟩
     (by decide)⟩

/-! ### The distance-matrix loop over a stored subtree -/

mutual
/-- The number of leaf pairs first joined at each node of the subtree. -/
def pairsR : Rose → Nat
  | .node _ _ cs => pairsRList cs + crossList cs
def pairsRList : List Rose → Nat
  | [] => 0
  | c :: cs => pairsR c + pairsRList cs
def crossList : List Rose → Nat
  | [] => 0
  | c :: cs => leafCount c * leafCountList cs + crossList cs
end

theorem leafCount_leaf (l : String) (q : Rat) : leafCount (.node l q []) = 1 := by
  rw [leafCount]

theorem leafCount_internal (l : String) (q : Rat) (c : Rose) (cs : List Rose) :
    leafCount (.node l q (c :: cs)) = leafCountList (c :: cs) := by
  rw [leafCount]

theorem leafCountList_cons (c : Rose) (cs : List Rose) :
    leafCountList (c :: cs) = leafCount c + leafCountList cs := by rw [leafCountList]

theorem pairsR_node (l : String) (q : Rat) (cs : List Rose) :
    pairsR (.node l q cs) = pairsRList cs + crossList cs := by rw [pairsR]

theorem pairsRList_cons (c : Rose) (cs : List Rose) :
    pairsRList (c :: cs) = pairsR c + pairsRList cs := by rw [pairsRList]

theorem crossList_cons (c : Rose) (cs : List Rose) :
    crossList (c :: cs) = leafCount c * leafCountList cs + crossList cs := by rw [crossList]

mutual
theorem leafCount_pos (r : Rose) : 1 ≤ leafCount r := by
  match r with
  | .node l q [] =>
    rw [leafCount_leaf]
  | .node l q (c :: cs) =>
    rw [leafCount_internal, leafCountList_cons]
    have := leafCount_pos c
    omega
end

mutual
theorem pairsR_sq (r : Rose) : 2 * pairsR r + leafCount r = leafCount r * leafCount r := by
  match r with
  | .node l q [] =>
    rw [pairsR_node, leafCount_leaf, pairsRList, crossList]
  | .node l q (c :: cs) =>
    rw [pairsR_node, leafCount_internal]
    have h1 := pairsR_sqList (c :: cs)
    have h2 := crossList_sq (c :: cs)
    omega
theorem pairsR_sqList (cs : List Rose) :
    2 * pairsRList cs + leafCountList cs =
      cs.foldr (fun c acc => leafCount c * leafCount c + acc) 0 := by
  match cs with
  | [] => rw [pairsRList, leafCountList]; rfl
  | c :: cs =>
    rw [pairsRList_cons, leafCountList_cons, List.foldr_cons]
    have h1 := pairsR_sq c
    have h2 := pairsR_sqList cs
    omega
theorem crossList_sq (cs : List Rose) :
    2 * crossList cs + cs.foldr (fun c acc => leafCount c * leafCount c + acc) 0 =
      leafCountList cs * leafCountList cs := by
  match cs with
  | [] => rw [crossList, leafCountList]; rfl
  | c :: cs =>
    rw [crossList_cons, leafCountList_cons, List.foldr_cons]
    have h2 := crossList_sq cs
    have : (leafCount c + leafCountList cs) * (leafCount c + leafCountList cs) =
        leafCount c * leafCount c + 2 * (leafCount c * leafCountList cs) +
        leafCountList cs * leafCountList cs := by ring
    omega
end

theorem dmLoop_cons (t : compact_tree) (n : Nat) (ns : List Node) (st : DMState) :
    dmLoop t (n :: ns) st =
      match dmNode t st n with
      | .ok st' => dmLoop t ns st'
      | .error e => .error e := by
  rw [dmLoop]
  cases dmNode t st n <;> rfl

theorem dmLoop_append (t : compact_tree) (l1 l2 : List Node) (st : DMState) :
    dmLoop t (l1 ++ l2) st =
      match dmLoop t l1 st with
      | .ok st' => dmLoop t l2 st'
      | .error e => .error e := by
  induction l1 generalizing st with
  | nil =>
    rw [List.nil_append]
    rfl
  | cons n ns ih =>
    rw [List.cons_append, dmLoop_cons, dmLoop_cons]
    cases hdn : dmNode t st n with
    | ok st' => exact ih st'
    | error e => rfl

theorem okBind {ε α β : Type} (a : α) (f : α → Except ε β) :
    (Except.ok a >>= f) = f a := rfl

theorem lookup_append_of_notin {β : Type} (l1 l2 : List (Nat × β)) (k : Nat)
    (h : ∀ e ∈ l1, e.1 ≠ k) : (l1 ++ l2).lookup k = l2.lookup k := by
  induction l1 with
  | nil => rfl
  | cons e l1 ih =>
    have hne : (k == e.1) = false := beq_eq_false_iff_ne.mpr (fun hk => h e (by simp) hk.symm)
    rw [List.cons_append, List.lookup_cons, hne]
    exact ih (fun e' he' => h e' (by simp [he']))

theorem lookup_eq_none_of_notin {β : Type} (l : List (Nat × β)) (k : Nat)
    (h : ∀ e ∈ l, e.1 ≠ k) : l.lookup k = none := by
  induction l with
  | nil => rfl
  | cons e l ih =>
    have hne : (k == e.1) = false := beq_eq_false_iff_ne.mpr (fun hk => h e (by simp) hk.symm)
    rw [List.lookup_cons, hne]
    exact ih (fun e' he' => h e' (by simp [he']))

theorem lookup_last {β : Type} (l : List (Nat × β)) (k : Nat) (v : β)
    (h : ∀ e ∈ l, e.1 ≠ k) : (l ++ [(k, v)]).lookup k = some v := by
  rw [lookup_append_of_notin l _ k h, List.lookup_cons, beq_self_eq_true k]

theorem emplaceL_fresh (m : LMap) (k : Nat) (v : Rat) (h : ∀ e ∈ m, e.1 ≠ k) :
    emplaceL m k v = m ++ [(k, v)] := by
  rw [emplaceL, lookup_eq_none_of_notin m k h]
  rfl

theorem dmNode_leaf (t : compact_tree) (st : DMState) (curr : Nat)
    (h : is_leaf t curr = true) :
    dmNode t st curr = .ok { st with leafDists := st.leafDists ++ [(curr, [(curr, 0)])] } := by
  rw [dmNode, if_pos h]

theorem dmNode_internal (t : compact_tree) (st : DMState) (curr : Nat)
    (h : is_leaf t curr = false) (pr : List ((Node × Node) × Rat)) (mg : LMap)
    (hpair : dmPairLoop t st.leafDists (t.children.getD curr []) = .ok pr)
    (hmerge : dmMergeLoop t st.leafDists (t.children.getD curr []) [] = .ok mg) :
    dmNode t st curr = .ok { dm := st.dm ++ pr, leafDists := st.leafDists ++ [(curr, mg)] } := by
  rw [dmNode, if_neg (by simp [h])]
  simp only [hpair, hmerge, okBind]
  rfl

theorem dmPairLoop_nil (t : compact_tree) (lds : List (Nat × LMap)) :
    dmPairLoop t lds [] = .ok [] := rfl

theorem dmPairLoop_single (t : compact_tree) (lds : List (Nat × LMap)) (c : Nat) :
    dmPairLoop t lds [c] = .ok [] := rfl

theorem dmPairLoop_cons2 (t : compact_tree) (lds : List (Nat × LMap)) (c c2 : Nat)
    (rest : List Node) :
    dmPairLoop t lds (c :: c2 :: rest) =
      match lds.lookup c with
      | none => .error .oob
      | some m1 => do
        let first ← dmPairsWith t lds c m1 (c2 :: rest)
        let more ← dmPairLoop t lds (c2 :: rest)
        return first ++ more := by
  rw [dmPairLoop]
  all_goals (first | rfl | simp)

theorem dmPairs_length (t : compact_tree) (c1 : Node) (m1 : LMap) (c2 : Node) (m2 : LMap) :
    (dmPairs t c1 m1 c2 m2).length = m1.length * m2.length := by
  rw [dmPairs]
  induction m1 with
  | nil => simp
  | cons e m1 ih =>
    simp only [List.map_cons, List.flatten_cons, List.length_append, List.length_map,
      List.length_cons, Nat.succ_mul]
    omega

theorem lookup_append_left_some {β : Type} (l1 l2 : List (Nat × β)) (k : Nat) (v : β)
    (h : l1.lookup k = some v) : (l1 ++ l2).lookup k = some v := by
  induction l1 with
  | nil => simp [List.lookup] at h
  | cons e l1 ih =>
    rw [List.lookup_cons] at h
    rw [List.cons_append, List.lookup_cons]
    cases hke : (k == e.1) with
    | true => rw [hke] at h; exact h
    | false => rw [hke] at h; exact ih h

/-- After the children of a node have been processed, the leaf-distance store
holds, for each child, a map with one entry per leaf of that child's subtree,
with distinct keys drawn from the child's id block. -/
def KidMaps (lds : List (Nat × LMap)) (base : Nat) : List Rose → Prop
  | [] => True
  | c :: cs' =>
    (∃ M, lds.lookup base = some M ∧ M.length = leafCount c ∧
      (M.map Prod.fst).Nodup ∧
      (∀ k ∈ M.map Prod.fst, base ≤ k ∧ k < base + roseSize c)) ∧
    KidMaps lds (base + roseSize c) cs'

theorem KidMaps_append (lds extra : List (Node × LMap)) (base : Nat) (cs : List Rose)
    (h : KidMaps lds base cs) : KidMaps (lds ++ extra) base cs := by
  induction cs generalizing base with
  | nil => trivial
  | cons c cs ih =>
    rw [KidMaps] at h ⊢
    obtain ⟨⟨M, hl, hM⟩, hrest⟩ := h
    exact ⟨⟨M, lookup_append_left_some lds extra base M hl, hM⟩, ih _ hrest⟩

theorem dmPairsWith_spec (t : compact_tree) (lds : List (Nat × LMap)) (c1 : Node) (m1 : LMap) :
    ∀ (cs : List Rose) (base : Nat), KidMaps lds base cs →
    ∃ out, dmPairsWith t lds c1 m1 (kidStarts base cs) = .ok out ∧
      out.length = m1.length * leafCountList cs := by
  intro cs
  induction cs with
  | nil =>
    intro base _
    refine ⟨[], by rw [kidStarts]; rfl, ?_⟩
    rw [leafCountList]
    simp
  | cons c cs ih =>
    intro base h
    rw [KidMaps] at h
    obtain ⟨⟨M, hlook, hMlen, _, _⟩, hrest⟩ := h
    obtain ⟨out2, hout2, hlen2⟩ := ih (base + roseSize c) hrest
    refine ⟨dmPairs t c1 m1 base M ++ out2, ?_, ?_⟩
    · rw [kidStarts, dmPairsWith]
      simp only [hlook, hout2, okBind]
      rfl
    · rw [List.length_append, dmPairs_length, hlen2, leafCountList_cons, hMlen]
      ring

theorem dmPairLoop_spec (t : compact_tree) (lds : List (Nat × LMap)) :
    ∀ (cs : List Rose) (base : Nat), KidMaps lds base cs →
    ∃ out, dmPairLoop t lds (kidStarts base cs) = .ok out ∧ out.length = crossList cs := by
  intro cs
  induction cs with
  | nil =>
    intro base _
    refine ⟨[], by rw [kidStarts]; rfl, ?_⟩
    rw [crossList]
    rfl
  | cons c cs ih =>
    intro base h
    rw [KidMaps] at h
    obtain ⟨⟨M, hlook, hMlen, _, _⟩, hrest⟩ := h
    cases cs with
    | nil =>
      refine ⟨[], by rw [kidStarts, kidStarts]; exact dmPairLoop_single t lds base, ?_⟩
      rw [crossList_cons, crossList, leafCountList]
      simp
    | cons c2 cs'' =>
      obtain ⟨outw, houtw, hlenw⟩ :=
        dmPairsWith_spec t lds base M (c2 :: cs'') (base + roseSize c) hrest
      obtain ⟨out2, hout2, hlen2⟩ := ih (base + roseSize c) hrest
      refine ⟨outw ++ out2, ?_, ?_⟩
      · rw [kidStarts, show kidStarts (base + roseSize c) (c2 :: cs'') =
          (base + roseSize c) :: kidStarts (base + roseSize c + roseSize c2) cs''
          from by rw [kidStarts]]
        rw [dmPairLoop_cons2]
        simp only [hlook]
        rw [show (base + roseSize c) :: kidStarts (base + roseSize c + roseSize c2) cs'' =
          kidStarts (base + roseSize c) (c2 :: cs'') from by rw [kidStarts]]
        simp only [houtw, hout2, okBind]
        rfl
      · rw [List.length_append, hlenw, hlen2, hMlen, crossList_cons c (c2 :: cs''),
          crossList_cons c2 cs'']

theorem dmMergeChild_spec (t : compact_tree) (child : Nat) :
    ∀ (childM currM : LMap), child < t.length.length →
    (∀ k ∈ childM.map Prod.fst, ∀ k' ∈ currM.map Prod.fst, k ≠ k') →
    (childM.map Prod.fst).Nodup →
    ∃ res, dmMergeChild t child childM currM = .ok res ∧
      res.length = currM.length + childM.length ∧
      res.map Prod.fst = currM.map Prod.fst ++ childM.map Prod.fst := by
  intro childM
  induction childM with
  | nil =>
    intro currM _ _ _
    refine ⟨currM, rfl, by simp, by simp⟩
  | cons e m ih =>
    intro currM hbnd hdisj hnd
    have hget : t.length.get? child = some (t.length.getD child 0) :=
      get?_of_lt_getD hbnd 0
    have hfun : (fun (acc : LMap) (e : Node × Rat) =>
        match t.length.get? child with
        | none => (Except.error PErr.oob : Except PErr LMap)
        | some lc => .ok (emplaceL acc e.1 (e.2 + lc))) =
        (fun acc e => .ok (emplaceL acc e.1 (e.2 + t.length.getD child 0))) := by
      funext acc e
      rw [hget]
    have hfresh : ∀ e' ∈ currM, e'.1 ≠ e.1 := fun e' he' hk =>
      hdisj e.1 (by simp) e'.1 (List.mem_map_of_mem Prod.fst he') hk.symm
    rw [List.map_cons] at hnd
    obtain ⟨res, hres, hlen, hkeys⟩ := ih (currM ++ [(e.1, e.2 + t.length.getD child 0)])
      hbnd
      (by
        intro k hk k' hk'
        rw [List.map_append, List.mem_append] at hk'
        rcases hk' with hk' | hk'
        · exact hdisj k (by rw [List.map_cons]; exact List.mem_cons_of_mem _ hk) k' hk'
        · simp only [List.map_cons, List.map_nil, List.mem_singleton] at hk'
          subst hk'
          exact fun he => (List.nodup_cons.mp hnd).1 (he ▸ hk))
      (List.nodup_cons.mp hnd).2
    simp only [dmMergeChild, hget] at hres
    refine ⟨res, ?_, ?_, ?_⟩
    · simp only [dmMergeChild, List.foldlM_cons, hget, okBind]
      rw [emplaceL_fresh currM e.1 _ hfresh]
      exact hres
    · rw [hlen]
      have : (currM ++ [(e.1, e.2 + t.length.getD child 0)]).length = currM.length + 1 := by
        simp
      have h2 : (e :: m).length = m.length + 1 := rfl
      omega
    · rw [hkeys]
      simp
theorem dmMergeLoop_spec (t : compact_tree) (lds : List (Nat × LMap)) :
    ∀ (cs : List Rose) (base : Nat), KidMaps lds base cs →
    base + roseSizeList cs ≤ t.length.length →
    ∀ currM, (∀ k ∈ currM.map Prod.fst, k < base) → (currM.map Prod.fst).Nodup →
    ∃ res, dmMergeLoop t lds (kidStarts base cs) currM = .ok res ∧
      res.length = currM.length + leafCountList cs ∧
      (res.map Prod.fst).Nodup ∧
      (∀ k ∈ res.map Prod.fst,
        k ∈ currM.map Prod.fst ∨ (base ≤ k ∧ k < base + roseSizeList cs)) := by
  intro cs
  induction cs with
  | nil =>
    intro base _ _ currM _ hnd
    refine ⟨currM, by rw [kidStarts]; rfl, ?_, hnd, fun k hk => Or.inl hk⟩
    rw [leafCountList]
    omega
  | cons c cs ih =>
    intro base h hbnd currM hlt hnd
    rw [KidMaps] at h
    obtain ⟨⟨M, hlook, hMlen, hMnd, hMrange⟩, hrest⟩ := h
    have hszl := roseSizeList_cons c cs
    have hszc := roseSize_pos c
    obtain ⟨res1, hres1, hlen1, hkeys1⟩ := dmMergeChild_spec t base M currM
      (by omega)
      (by
        intro k hk k' hk'
        have h1 := (hMrange k hk).1
        have h2 := hlt k' hk'
        omega)
      hMnd
    obtain ⟨res, hres, hlen, hnd2, hrange2⟩ := ih (base + roseSize c) hrest (by omega) res1
      (by
        intro k hk
        rw [hkeys1, List.mem_append] at hk
        rcases hk with hk | hk
        · have := hlt k hk
          omega
        · exact (hMrange k hk).2)
      (by
        rw [hkeys1]
        rw [List.nodup_append]
        refine ⟨hnd, hMnd, ?_⟩
        intro k hk hk2
        have h1 := hlt k hk
        have h2 := (hMrange k hk2).1
        omega)
    refine ⟨res, ?_, ?_, hnd2, ?_⟩
    · rw [kidStarts, dmMergeLoop]
      simp only [hlook, hres1, okBind]
      exact hres
    · rw [hlen, hlen1, hMlen, leafCountList_cons]
      omega
    · intro k hk
      rcases hrange2 k hk with hk2 | hk2
      · rw [hkeys1, List.mem_append] at hk2
        rcases hk2 with hk3 | hk3
        · exact Or.inl hk3
        · have := hMrange k hk3
          omega
      · omega

theorem revseg_node (m K : Nat) :
    (List.range' m (1 + K)).reverse = (List.range' (m + 1) K).reverse ++ [m] := by
  rw [Nat.add_comm 1 K, List.range'_succ m K 1, List.reverse_cons]

theorem revseg_split (base K1 K2 : Nat) :
    (List.range' base (K1 + K2)).reverse =
      (List.range' (base + K1) K2).reverse ++ (List.range' base K1).reverse := by
  rw [Nat.add_comm K1 K2, ← List.range'_append_1 base K1 K2, List.reverse_append]

mutual
/-- Running the distance-matrix loop over the (reversed) id block of a stored
subtree: it succeeds, appends one pair per leaf pair meeting inside the
subtree, and finishes with the subtree root's map holding one entry per leaf. -/
theorem dmSegBody (a : Bool) (t : compact_tree) (r : Rose) :
    ∀ (m : Nat), Aligned a true t → SubAt a true t m r → m + roseSize r ≤ t.parent.length →
    ∀ (st : DMState), (∀ e ∈ st.leafDists, e.1 < m ∨ m + roseSize r ≤ e.1) →
    ∃ P E M, dmLoop t (List.range' m (roseSize r)).reverse st =
        .ok ⟨st.dm ++ P, st.leafDists ++ E ++ [(m, M)]⟩ ∧
      P.length = pairsR r ∧ M.length = leafCount r ∧
      (M.map Prod.fst).Nodup ∧
      (∀ k ∈ M.map Prod.fst, m ≤ k ∧ k < m + roseSize r) ∧
      (∀ k ∈ E.map Prod.fst, m + 1 ≤ k ∧ k < m + roseSize r) := by
  match r with
  | .node l q cs =>
    intro m hal hsub hbound st hdisj
    rw [SubAt] at hsub
    obtain ⟨hlab, hlen, hch, hsubs⟩ := hsub
    have hsz := roseSize_node l q cs
    rw [show roseSize (.node l q cs) = 1 + roseSizeList cs from hsz, revseg_node m _]
    rw [dmLoop_append]
    obtain ⟨P, E, hkrun, hPlen, hkeysE, hKM⟩ := dmSegKids a t cs (m + 1) hal hsubs
      (by omega) st
      (by
        intro e he
        rcases hdisj e he with h | h
        · exact Or.inl (by omega)
        · exact Or.inr (by omega))
    simp only [hkrun]
    cases cs with
    | nil =>
      have hE : E = [] := by
        cases E with
        | nil => rfl
        | cons x xs =>
          have := hkeysE x.1 (by simp)
          rw [roseSizeList] at this
          omega
      subst hE
      rw [kidStarts] at hch
      have hleaf : is_leaf t m = true := by rw [is_leaf, hch]; rfl
      rw [dmLoop_cons]
      simp only [dmNode_leaf t _ m hleaf]
      rw [dmLoop]
      refine ⟨P, [], [(m, 0)], ?_, ?_, ?_, by simp, ?_, by simp⟩
      · simp
      · rw [hPlen, pairsR_node, pairsRList, crossList]
      · rw [leafCount_leaf]
        rfl
      · intro k hk
        simp at hk
        subst hk
        omega
    | cons c cs' =>
      have hleaf : is_leaf t m = false := by rw [is_leaf, hch, kidStarts]; rfl
      have hlenlen : t.length.length = t.parent.length := by
        have h3 := hal.2.2
        rw [if_pos rfl] at h3
        exact h3
      obtain ⟨pr, hpr, hprlen⟩ := dmPairLoop_spec t _ (c :: cs') (m + 1) hKM
      obtain ⟨mg, hmg, hmglen, hmgnd, hmgrange⟩ :=
        dmMergeLoop_spec t _ (c :: cs') (m + 1) hKM (by omega) [] (by simp) (by simp)
      rw [dmLoop_cons]
      simp only [dmNode_internal t ⟨st.dm ++ P, st.leafDists ++ E⟩ m hleaf pr mg
        (by rw [hch]; exact hpr) (by rw [hch]; exact hmg)]
      rw [dmLoop]
      refine ⟨P ++ pr, E, mg, ?_, ?_, ?_, hmgnd, ?_, ?_⟩
      · simp [List.append_assoc]
      · rw [List.length_append, hPlen, hprlen, pairsR_node]
      · rw [hmglen, leafCount_internal]
        simp
      · intro k hk
        rcases hmgrange k hk with hk2 | hk2
        · simp at hk2
        · omega
      · intro k hk
        have := hkeysE k hk
        omega
theorem dmSegKids (a : Bool) (t : compact_tree) (cs : List Rose) :
    ∀ (base : Nat), Aligned a true t → SubAtList a true t base cs →
    base + roseSizeList cs ≤ t.parent.length →
    ∀ st, (∀ e ∈ st.leafDists, e.1 < base ∨ base + roseSizeList cs ≤ e.1) →
    ∃ P E, dmLoop t (List.range' base (roseSizeList cs)).reverse st =
        .ok ⟨st.dm ++ P, st.leafDists ++ E⟩ ∧
      P.length = pairsRList cs ∧
      (∀ k ∈ E.map Prod.fst, base ≤ k ∧ k < base + roseSizeList cs) ∧
      KidMaps (st.leafDists ++ E) base cs := by
  match cs with
  | [] =>
    intro base hal _ _ st _
    refine ⟨[], [], ?_, ?_, by simp, trivial⟩
    · rw [roseSizeList]
      rw [show (List.range' base 0).reverse = [] from rfl, dmLoop]
      simp
    · rw [pairsRList]
      rfl
  | c :: cs' =>
    intro base hal hsubs hbound st hdisj
    rw [SubAtList] at hsubs
    have hszc := roseSize_pos c
    have hszl := roseSizeList_cons c cs'
    rw [show roseSizeList (c :: cs') = roseSize c + roseSizeList cs' from hszl,
      revseg_split base _ _]
    rw [dmLoop_append]
    obtain ⟨P1, E1, hrun1, hP1, hkeys1, hKM1⟩ := dmSegKids a t cs' (base + roseSize c) hal
      hsubs.2 (by omega) st
      (by
        intro e he
        rcases hdisj e he with h | h
        · exact Or.inl (by omega)
        · exact Or.inr (by omega))
    simp only [hrun1]
    obtain ⟨P2, E2, M, hrun2, hP2, hMlen, hMnd, hMrange, hE2keys⟩ := dmSegBody a t c base hal
      hsubs.1 (by omega) ⟨st.dm ++ P1, st.leafDists ++ E1⟩
      (by
        intro e he
        simp only [List.mem_append] at he
        rcases he with he | he
        · rcases hdisj e he with h | h
          · exact Or.inl (by omega)
          · exact Or.inr (by omega)
        · have := hkeys1 e.1 (List.mem_map_of_mem Prod.fst he)
          exact Or.inr (by omega))
    rw [hrun2]
    refine ⟨P1 ++ P2, E1 ++ (E2 ++ [(base, M)]), ?_, ?_, ?_, ?_⟩
    · simp [List.append_assoc]
    · rw [List.length_append, hP1, hP2, pairsRList_cons]
      omega
    · intro k hk
      simp only [List.map_append, List.mem_append, List.map_cons, List.map_nil,
        List.mem_singleton] at hk
      rcases hk with hk | hk | hk
      · have := hkeys1 k hk
        omega
      · have := hE2keys k hk
        omega
      · subst hk
        omega
    · rw [KidMaps]
      constructor
      · refine ⟨M, ?_, hMlen, hMnd, ?_⟩
        · rw [show st.leafDists ++ (E1 ++ (E2 ++ [(base, M)])) =
            (st.leafDists ++ E1 ++ E2) ++ [(base, M)] from by simp [List.append_assoc]]
          refine lookup_last _ base M ?_
          intro e he
          simp only [List.mem_append] at he
          rcases he with (he | he) | he
          · rcases hdisj e he with h | h <;> omega
          · have := hkeys1 e.1 (List.mem_map_of_mem Prod.fst he)
            omega
          · have := hE2keys e.1 (List.mem_map_of_mem Prod.fst he)
            omega
        · intro k hk
          have := hMrange k hk
          omega
      · rw [show st.leafDists ++ (E1 ++ (E2 ++ [(base, M)])) =
          (st.leafDists ++ E1) ++ (E2 ++ [(base, M)]) from by simp [List.append_assoc]]
        exact KidMaps_append _ _ _ cs' hKM1
end

mutual
theorem leafseg_body (a b : Bool) (t : compact_tree) (r : Rose) :
    ∀ (m : Nat), SubAt a b t m r →
    ((List.range' m (roseSize r)).filter (fun n => is_leaf t n)).length = leafCount r := by
  match r with
  | .node l q cs =>
    intro m hsub
    rw [SubAt] at hsub
    obtain ⟨_, _, hch, hsubs⟩ := hsub
    have hsz := roseSize_node l q cs
    rw [show roseSize (.node l q cs) = 1 + roseSizeList cs from hsz, Nat.add_comm 1 _,
      List.range'_succ m _ 1, List.filter_cons]
    cases cs with
    | nil =>
      have hleaf : is_leaf t m = true := by rw [is_leaf, hch, kidStarts]; rfl
      rw [if_pos (show (fun n => is_leaf t n) m = true from hleaf)]
      rw [roseSizeList, show List.range' (m + 1) 0 = [] from rfl, leafCount_leaf]
      rfl
    | cons c cs' =>
      have hleaf : is_leaf t m = false := by rw [is_leaf, hch, kidStarts]; rfl
      rw [if_neg (show ¬(fun n => is_leaf t n) m = true from by simp only [hleaf]; simp)]
      rw [leafCount_internal]
      exact leafseg_kids a b t (c :: cs') (m + 1) hsubs
theorem leafseg_kids (a b : Bool) (t : compact_tree) (cs : List Rose) :
    ∀ (base : Nat), SubAtList a b t base cs →
    ((List.range' base (roseSizeList cs)).filter (fun n => is_leaf t n)).length =
      leafCountList cs := by
  match cs with
  | [] =>
    intro base _
    rw [roseSizeList, leafCountList]
    rfl
  | c :: cs' =>
    intro base hsubs
    rw [SubAtList] at hsubs
    rw [roseSizeList_cons, Nat.add_comm (roseSize c) _,
      ← List.range'_append_1 base (roseSize c) (roseSizeList cs')]
    rw [List.filter_append, List.length_append]
    rw [leafseg_body a b t c base hsubs.1,
      leafseg_kids a b t cs' (base + roseSize c) hsubs.2, leafCountList_cons]
end

theorem errBind {ε α β : Type} (e : ε) (f : α → Except ε β) :
    ((Except.error e : Except ε α) >>= f) = .error e := rfl

theorem dmSegLeaf (t : compact_tree) (m : Nat) (hleaf : is_leaf t m = true) (st : DMState) :
    dmLoop t [m] st = .ok ⟨st.dm, st.leafDists ++ [(m, [(m, 0)])]⟩ := by
  rw [dmLoop_cons]
  simp only [dmNode_leaf t st m hleaf]
  rw [dmLoop]

theorem dmNode_err (t : compact_tree) (st : DMState) (m : Nat) (hlen0 : t.length = [])
    (hleaf : is_leaf t m = false) (base : Nat) (cs : List Rose)
    (hch : t.children.getD m [] = kidStarts base cs)
    (hKM : KidMaps st.leafDists base cs) (hcs : cs ≠ []) :
    dmNode t st m = .error .oob := by
  match cs with
  | [] => exact absurd rfl hcs
  | c :: cs' =>
    obtain ⟨pr, hpr, _⟩ := dmPairLoop_spec t st.leafDists (c :: cs') base hKM
    rw [KidMaps] at hKM
    obtain ⟨⟨M, hlook, hMlen, _, _⟩, _⟩ := hKM
    have hMne : ∃ e M', M = e :: M' := by
      cases M with
      | nil =>
        have := leafCount_pos c
        rw [← hMlen] at this
        simp at this
      | cons e M' => exact ⟨e, M', rfl⟩
    obtain ⟨e, M', rfl⟩ := hMne
    have hget : t.length.get? base = none := by rw [hlen0]; rfl
    have hmc : dmMergeChild t base (e :: M') [] = .error .oob := by
      rw [dmMergeChild, List.foldlM_cons]
      simp only [hget, errBind]
    have hml : dmMergeLoop t st.leafDists (kidStarts base (c :: cs')) [] = .error .oob := by
      rw [kidStarts, dmMergeLoop]
      simp only [hlook, hmc, errBind]
    rw [dmNode, if_neg (by simp [hleaf])]
    simp only [hch]
    simp only [hpr, okBind, hml, errBind]

mutual
theorem dmSegErrBody (a : Bool) (t : compact_tree) (r : Rose) :
    ∀ (m : Nat), SubAt a false t m r → t.length = [] →
    (∀ l2 q2, r ≠ .node l2 q2 []) →
    ∀ (st : DMState), (∀ e ∈ st.leafDists, e.1 < m ∨ m + roseSize r ≤ e.1) →
    dmLoop t (List.range' m (roseSize r)).reverse st = .error .oob := by
  match r with
  | .node l q [] =>
    intro m _ _ hne
    exact absurd rfl (hne l q)
  | .node l q (c1 :: cs') =>
    intro m hsub hlen0 _hne st hdisj
    rw [SubAt] at hsub
    obtain ⟨_, _, hch, hsubs⟩ := hsub
    have hsz := roseSize_node l (q : Rat) (c1 :: cs')
    rw [show roseSize (.node l q (c1 :: cs')) = 1 + roseSizeList (c1 :: cs') from hsz,
      revseg_node m _]
    rw [dmLoop_append]
    rcases dmSegErrKids a t (c1 :: cs') (m + 1) hsubs hlen0 st
      (by
        intro e he
        rcases hdisj e he with h | h
        · exact Or.inl (by omega)
        · exact Or.inr (by omega)) with herr | ⟨E, hrun, hkeys, hKM⟩
    · simp only [herr]
    · simp only [hrun]
      have hleaf : is_leaf t m = false := by rw [is_leaf, hch, kidStarts]; rfl
      rw [dmLoop_cons]
      simp only [dmNode_err t ⟨st.dm, st.leafDists ++ E⟩ m hlen0 hleaf (m + 1) (c1 :: cs')
        hch hKM (by simp)]
theorem dmSegErrKids (a : Bool) (t : compact_tree) (cs : List Rose) :
    ∀ (base : Nat), SubAtList a false t base cs → t.length = [] →
    ∀ st, (∀ e ∈ st.leafDists, e.1 < base ∨ base + roseSizeList cs ≤ e.1) →
    dmLoop t (List.range' base (roseSizeList cs)).reverse st = .error .oob ∨
    (∃ E, dmLoop t (List.range' base (roseSizeList cs)).reverse st =
        .ok ⟨st.dm, st.leafDists ++ E⟩ ∧
      (∀ k ∈ E.map Prod.fst, base ≤ k ∧ k < base + roseSizeList cs) ∧
      KidMaps (st.leafDists ++ E) base cs) := by
  match cs with
  | [] =>
    intro base _ _ st _
    refine Or.inr ⟨[], ?_, by simp, trivial⟩
    rw [roseSizeList, show (List.range' base 0).reverse = [] from rfl, dmLoop]
    simp
  | c :: cs' =>
    intro base hsubs hlen0 st hdisj
    rw [SubAtList] at hsubs
    have hszc := roseSize_pos c
    have hszl := roseSizeList_cons c cs'
    rw [show roseSizeList (c :: cs') = roseSize c + roseSizeList cs' from hszl,
      revseg_split base _ _]
    rw [dmLoop_append]
    rcases dmSegErrKids a t cs' (base + roseSize c) hsubs.2 hlen0 st
      (by
        intro e he
        rcases hdisj e he with h | h
        · exact Or.inl (by omega)
        · exact Or.inr (by omega)) with herr | ⟨E1, hrun1, hkeys1, hKM1⟩
    · left
      simp only [herr]
    · simp only [hrun1]
      match c, hsubs.1 with
      | .node lc qc [], hsubc =>
        rw [SubAt] at hsubc
        obtain ⟨_, _, hchc, _⟩ := hsubc
        have hleafc : is_leaf t base = true := by rw [is_leaf, hchc, kidStarts]; rfl
        right
        refine ⟨E1 ++ [(base, [(base, 0)])], ?_, ?_, ?_⟩
        · rw [show roseSize (.node lc qc []) = 1 from by rw [roseSize_node, roseSizeList],
            show (List.range' base 1).reverse = [base] from rfl,
            dmSegLeaf t base hleafc ⟨st.dm, st.leafDists ++ E1⟩]
          simp [List.append_assoc]
        · intro k hk
          simp only [List.map_append, List.mem_append, List.map_cons, List.map_nil,
            List.mem_singleton] at hk
          rcases hk with hk | hk
          · have := hkeys1 k hk
            omega
          · subst hk
            omega
        · rw [KidMaps]
          constructor
          · refine ⟨[(base, 0)], ?_, ?_, by simp, ?_⟩
            · rw [show st.leafDists ++ (E1 ++ [(base, [(base, 0)])]) =
                (st.leafDists ++ E1) ++ [(base, [(base, 0)])] from by simp [List.append_assoc]]
              refine lookup_last _ base _ ?_
              intro e he
              simp only [List.mem_append] at he
              rcases he with he | he
              · rcases hdisj e he with h | h <;> omega
              · have := hkeys1 e.1 (List.mem_map_of_mem Prod.fst he)
                omega
            · rw [leafCount_leaf]
              rfl
            · intro k hk
              simp only [List.map_cons, List.map_nil, List.mem_singleton] at hk
              subst hk
              have : roseSize (.node lc qc []) = 1 := by rw [roseSize_node, roseSizeList]
              omega
          · rw [show st.leafDists ++ (E1 ++ [(base, [(base, 0)])]) =
              (st.leafDists ++ E1) ++ [(base, [(base, 0)])] from by simp [List.append_assoc]]
            have : roseSize (.node lc qc []) = 1 := by rw [roseSize_node, roseSizeList]
            rw [this]
            exact KidMaps_append _ _ _ cs' hKM1
      | .node lc qc (cc :: ccs), hsubc =>
        left
        rw [dmSegErrBody a t (.node lc qc (cc :: ccs)) base hsubc hlen0
          (by intro l2 q2 h; simp at h)
          ⟨st.dm, st.leafDists ++ E1⟩
          (by
            intro e he
            simp only [List.mem_append] at he
            rcases he with he | he
            · rcases hdisj e he with h | h
              · exact Or.inl (by omega)
              · exact Or.inr (by omega)
            · have := hkeys1 e.1 (List.mem_map_of_mem Prod.fst he)
              exact Or.inr (by omega))]
end

/-- C4: with edge lengths stored, the distance matrix has exactly one entry per
unordered pair of distinct leaves: `L*(L-1)/2` of them. -/
theorem C4_distance_matrix_pair_count (a : Bool) (r : Rose)
    (hcap : roseSize r ≤ NULL_NODE) :
    ∃ out, calc_distance_matrix (roseArena a true r) = .ok out ∧
      out.length = get_num_leaves (roseArena a true r) *
        (get_num_leaves (roseArena a true r) - 1) / 2 := by
  have hal := roseArena_aligned a true r
  have hsub := roseArena_subat a true r hcap
  have hsz := roseArena_size a true r
  obtain ⟨P, E, M, hrun, hPlen, _⟩ := dmSegBody a (roseArena a true r) r 0 hal hsub
    (by omega) ⟨[], []⟩ (by simp)
  have hN : get_num_nodes (roseArena a true r) = roseSize r := by rw [get_num_nodes, hsz]
  refine ⟨P, ?_, ?_⟩
  · rw [calc_distance_matrix, hN, List.range_eq_range']
    simp only [hrun, okBind]
    rfl
  · have hleaves : get_num_leaves (roseArena a true r) = leafCount r := by
      rw [get_num_leaves, hN, List.range_eq_range']
      exact leafseg_body a true _ r 0 hsub
    rw [hleaves, hPlen]
    have hsq := pairsR_sq r
    have hlc := leafCount_pos r
    obtain ⟨L', hL'⟩ : ∃ L', leafCount r = L' + 1 := ⟨leafCount r - 1, by omega⟩
    have he1 : (L' + 1) * (L' + 1) = L' * L' + 2 * L' + 1 := by ring
    have he2 : (L' + 1) * L' = L' * L' + L' := by ring
    rw [hL'] at hsq ⊢
    rw [Nat.add_sub_cancel]
    omega

theorem C4_distance_matrix_pair_count_witness :
    roseSize (.node "" 0 [.node "A" 1 [], .node "B" 1 [], .node "C" 1 []]) ≤ NULL_NODE ∧
    ∃ out, calc_distance_matrix
        (roseArena true true (.node "" 0 [.node "A" 1 [], .node "B" 1 [], .node "C" 1 []])) =
        .ok out ∧
      out.length = get_num_leaves
          (roseArena true true (.node "" 0 [.node "A" 1 [], .node "B" 1 [], .node "C" 1 []])) *
        (get_num_leaves
          (roseArena true true (.node "" 0 [.node "A" 1 [], .node "B" 1 [], .node "C" 1 []])) -
          1) / 2 :=
  ⟨by decide, C4_distance_matrix_pair_count true
    (.node "" 0 [.node "A" 1 [], .node "B" 1 [], .node "C" 1 []]) (by decide)⟩

/-- C10: `calc_distance_matrix` needs edge-length storage: with lengths stored
every container access is in bounds and it succeeds, while on the same shape
built with `store_lengths = false` (and at least one internal node) the raw
`length[child]` read in the merge step is out of bounds. -/
theorem C10_dm_length_precondition (a : Bool) (l : String) (q : Rat) (c : Rose)
    (cs : List Rose) (hcap : roseSize (.node l q (c :: cs)) ≤ NULL_NODE) :
    (∃ out, calc_distance_matrix (roseArena a true (.node l q (c :: cs))) = .ok out) ∧
    calc_distance_matrix (roseArena a false (.node l q (c :: cs))) = .error .oob := by
  constructor
  · have hal := roseArena_aligned a true (.node l q (c :: cs))
    have hsub := roseArena_subat a true (.node l q (c :: cs)) hcap
    have hsz := roseArena_size a true (.node l q (c :: cs))
    obtain ⟨P, E, M, hrun, _⟩ := dmSegBody a (roseArena a true (.node l q (c :: cs)))
      (.node l q (c :: cs)) 0 hal hsub (by omega) ⟨[], []⟩ (by simp)
    refine ⟨P, ?_⟩
    rw [calc_distance_matrix,
      show get_num_nodes (roseArena a true (.node l q (c :: cs))) =
        roseSize (.node l q (c :: cs)) from by rw [get_num_nodes, hsz],
      List.range_eq_range']
    simp only [hrun, okBind]
    rfl
  · have hal := roseArena_aligned a false (.node l q (c :: cs))
    have hsub := roseArena_subat a false (.node l q (c :: cs)) hcap
    have hsz := roseArena_size a false (.node l q (c :: cs))
    have hlen0 : (roseArena a false (.node l q (c :: cs))).length = [] := by
      have h3 := hal.2.2
      rw [if_neg (by simp)] at h3
      exact List.length_eq_zero.mp h3
    have herr := dmSegErrBody a (roseArena a false (.node l q (c :: cs)))
      (.node l q (c :: cs)) 0 hsub hlen0
      (by intro l2 q2 h; simp at h) ⟨[], []⟩ (by simp)
    rw [calc_distance_matrix,
      show get_num_nodes (roseArena a false (.node l q (c :: cs))) =
        roseSize (.node l q (c :: cs)) from by rw [get_num_nodes, hsz],
      List.range_eq_range']
    simp only [herr, errBind]

theorem C10_dm_length_precondition_witness :
    roseSize (.node "" 0 [.node "A" 1 []]) ≤ NULL_NODE ∧
    ((∃ out, calc_distance_matrix
        (roseArena true true (.node "" 0 [.node "A" 1 []])) = .ok out) ∧
      calc_distance_matrix (roseArena true false (.node "" 0 [.node "A" 1 []])) =
        .error .oob) :=
  ⟨by decide, C10_dm_length_precondition true "" 0 (.node "A" 1 []) [] (by decide)⟩

/-! ### `find_mrca` over all leaves -/

/-- The root-ward parent chain from a node (fuelled; `fuel = k` is enough when
parent ids strictly decrease). -/
def chainGo (t : compact_tree) : Nat → Nat → List Nat
  | 0, k => [k]
  | fuel + 1, k =>
    k :: (if t.parent.getD k NULL_NODE = NULL_NODE then []
          else chainGo t fuel (t.parent.getD k NULL_NODE))

def chain (t : compact_tree) (k : Nat) : List Nat := chainGo t k k

theorem chainGo_stable (t : compact_tree)
    (HWF : ∀ k, t.parent.getD k NULL_NODE ≠ NULL_NODE → t.parent.getD k NULL_NODE < k) :
    ∀ (k f : Nat), k ≤ f → chainGo t f k = chain t k := by
  intro k
  induction k using Nat.strong_induction_on with
  | _ k ih =>
    intro f hf
    match f, k with
    | 0, 0 => rfl
    | f + 1, 0 =>
      rw [chainGo, chain, chainGo]
      by_cases h0 : t.parent.getD 0 NULL_NODE = NULL_NODE
      · rw [if_pos h0]
      · exact absurd (HWF 0 h0) (by omega)
    | f + 1, k + 1 =>
      rw [chainGo, chain, chainGo]
      by_cases h0 : t.parent.getD (k + 1) NULL_NODE = NULL_NODE
      · rw [if_pos h0, if_pos h0]
      · rw [if_neg h0, if_neg h0]
        have hlt := HWF (k + 1) h0
        rw [ih _ hlt f (by omega), ih _ hlt k (by omega)]

theorem chain_unfold (t : compact_tree)
    (HWF : ∀ k, t.parent.getD k NULL_NODE ≠ NULL_NODE → t.parent.getD k NULL_NODE < k)
    (k : Nat) (h : t.parent.getD k NULL_NODE ≠ NULL_NODE) :
    chain t k = k :: chain t (t.parent.getD k NULL_NODE) := by
  have hlt := HWF k h
  match k with
  | 0 => omega
  | k + 1 =>
    rw [chain, chainGo, if_neg h, chainGo_stable t HWF _ k (by omega)]

theorem chain_single (t : compact_tree) (k : Nat)
    (h : t.parent.getD k NULL_NODE = NULL_NODE) : chain t k = [k] := by
  match k with
  | 0 => rfl
  | k + 1 => rw [chain, chainGo, if_pos h]

theorem mem_chain_self (t : compact_tree) (k : Nat) : k ∈ chain t k := by
  match k with
  | 0 => exact List.mem_singleton.mpr rfl
  | k + 1 =>
    rw [chain, chainGo]
    simp

theorem chain_le (t : compact_tree)
    (HWF : ∀ k, t.parent.getD k NULL_NODE ≠ NULL_NODE → t.parent.getD k NULL_NODE < k) :
    ∀ (k : Nat), ∀ x ∈ chain t k, x ≤ k := by
  intro k
  induction k using Nat.strong_induction_on with
  | _ k ih =>
    intro x hx
    by_cases h0 : t.parent.getD k NULL_NODE = NULL_NODE
    · rw [chain_single t k h0] at hx
      simp at hx
      omega
    · rw [chain_unfold t HWF k h0] at hx
      rcases List.mem_cons.mp hx with rfl | hx
      · exact Nat.le_refl x
      · have hp := HWF k h0
        have := ih _ hp x hx
        omega

theorem chain_len (t : compact_tree)
    (HWF : ∀ k, t.parent.getD k NULL_NODE ≠ NULL_NODE → t.parent.getD k NULL_NODE < k) :
    ∀ (k : Nat), (chain t k).length ≤ k + 1 := by
  intro k
  induction k using Nat.strong_induction_on with
  | _ k ih =>
    by_cases h0 : t.parent.getD k NULL_NODE = NULL_NODE
    · rw [chain_single t k h0]
      simp
    · rw [chain_unfold t HWF k h0]
      have hp := HWF k h0
      have := ih _ hp
      simp only [List.length_cons]
      omega

def cntOf (count : List (Nat × Nat)) (w : Nat) : Nat := (count.lookup w).getD 0

theorem lookup_append_or {β : Type} (l1 l2 : List (Nat × β)) (k : Nat) :
    (l1 ++ l2).lookup k = (l1.lookup k).or (l2.lookup k) := by
  induction l1 with
  | nil => rfl
  | cons e l1 ih =>
    rw [List.cons_append, List.lookup_cons, List.lookup_cons]
    cases hke : (k == e.1) with
    | true => rfl
    | false => exact ih

theorem updC_lookup_eq (m : List (Nat × Nat)) (k v : Nat) :
    (updC m k v).lookup k = some v := by
  rw [updC]
  by_cases hs : (m.lookup k).isSome
  · rw [if_pos hs]
    induction m with
    | nil => simp [List.lookup] at hs
    | cons e m ih =>
      rw [List.map_cons]
      by_cases hek : e.1 = k
      · rw [if_pos hek, List.lookup_cons, beq_self_eq_true]
      · rw [if_neg hek, List.lookup_cons]
        have hke : (k == e.1) = false := beq_eq_false_iff_ne.mpr (fun h => hek h.symm)
        rw [hke]
        rw [List.lookup_cons, hke] at hs
        exact ih hs
  · rw [if_neg hs]
    rw [lookup_append_or, Option.not_isSome_iff_eq_none.mp hs]
    rw [List.lookup_cons, beq_self_eq_true]
    rfl

theorem map_upd_lookup_ne (m : List (Nat × Nat)) (k v w : Nat) (hw : w ≠ k) :
    (m.map (fun p => if p.1 = k then (k, v) else p)).lookup w = m.lookup w := by
  induction m with
  | nil => rfl
  | cons e m ih =>
    rw [List.map_cons]
    by_cases hek : e.1 = k
    · rw [if_pos hek, List.lookup_cons, List.lookup_cons]
      have h1 : (w == k) = false := beq_eq_false_iff_ne.mpr hw
      have h2 : (w == e.1) = false := by rw [hek]; exact h1
      rw [h1, h2]
      exact ih
    · rw [if_neg hek, List.lookup_cons, List.lookup_cons]
      cases hwe : (w == e.1) with
      | true => rfl
      | false => exact ih

theorem updC_lookup_ne (m : List (Nat × Nat)) (k v w : Nat) (hw : w ≠ k) :
    (updC m k v).lookup w = m.lookup w := by
  rw [updC]
  by_cases hs : (m.lookup k).isSome
  · rw [if_pos hs]
    exact map_upd_lookup_ne m k v w hw
  · rw [if_neg hs]
    rw [lookup_append_or, List.lookup_cons, beq_eq_false_iff_ne.mpr hw]
    exact Option.or_none

theorem updC_cnt (m : List (Nat × Nat)) (k v w : Nat) :
    cntOf (updC m k v) w = if w = k then v else cntOf m w := by
  by_cases hw : w = k
  · subst hw
    rw [if_pos rfl, cntOf, updC_lookup_eq]
    rfl
  · rw [if_neg hw, cntOf, cntOf, updC_lookup_ne m k v w hw]

theorem find_mrca_go_cons (t : compact_tree) (total fuel curr : Nat) (q' : List Nat)
    (count : List (Nat × Nat)) :
    find_mrca_go t total (fuel + 1) (curr :: q') count =
      if ((count.lookup curr).getD 0) + 1 = total then curr
      else if t.parent.getD curr NULL_NODE ≠ NULL_NODE then
        find_mrca_go t total fuel (q' ++ [t.parent.getD curr NULL_NODE])
          (updC count curr (((count.lookup curr).getD 0) + 1))
      else find_mrca_go t total fuel q' (updC count curr (((count.lookup curr).getD 0) + 1)) := by
  rw [find_mrca_go]

theorem chain_len_pos (t : compact_tree) (u : Nat) : 1 ≤ (chain t u).length := by
  have := mem_chain_self t u
  cases hch : chain t u with
  | nil => rw [hch] at this; simp at this
  | cons a l => simp

theorem countP_cons_true {α : Type} (p : α → Bool) (a : α) (l : List α) (h : p a = true) :
    (a :: l).countP p = l.countP p + 1 := by
  rw [List.countP_cons, h]
  simp

theorem countP_cons_false {α : Type} (p : α → Bool) (a : α) (l : List α) (h : p a = false) :
    (a :: l).countP p = l.countP p := by
  rw [List.countP_cons, h]
  simp

/-- The queue loop of `find_mrca`, run on a query set whose root-ward chains
all reach node `0`, with no non-root node on all chains: it returns `0`. -/
theorem find_mrca_go_inv (t : compact_tree)
    (HWF : ∀ k, t.parent.getD k NULL_NODE ≠ NULL_NODE → t.parent.getD k NULL_NODE < k)
    (h0 : t.parent.getD 0 NULL_NODE = NULL_NODE)
    (S : List Nat) (total : Nat) (htot : total = S.length)
    (hSroot : ∀ u ∈ S, 0 ∈ chain t u)
    (hbound : ∀ w, w ≠ 0 → S.countP (fun u => decide (w ∈ chain t u)) < total) :
    ∀ (fuel : Nat) (qu : List Nat) (count : List (Nat × Nat)),
    (∀ w, cntOf count w + qu.countP (fun u => decide (w ∈ chain t u)) =
      S.countP (fun u => decide (w ∈ chain t u))) →
    (∀ u ∈ qu, 0 ∈ chain t u) →
    qu ≠ [] →
    (qu.map (fun u => (chain t u).length)).sum ≤ fuel →
    find_mrca_go t total fuel qu count = 0 := by
  intro fuel
  induction fuel with
  | zero =>
    intro qu count hinv hroot hne hfuel
    cases qu with
    | nil => exact absurd rfl hne
    | cons u q' =>
      exfalso
      have hl := chain_len_pos t u
      simp only [List.map_cons, List.sum_cons] at hfuel
      omega
  | succ fuel ih =>
    intro qu count hinv hroot hne hfuel
    cases qu with
    | nil => exact absurd rfl hne
    | cons curr q' =>
      rw [find_mrca_go_cons]
      simp only [List.map_cons, List.sum_cons] at hfuel
      by_cases hpar : t.parent.getD curr NULL_NODE = NULL_NODE
      · have hc0 : curr = 0 := by
          have h0c := hroot curr (by simp)
          rw [chain_single t curr hpar] at h0c
          simp at h0c
          omega
        subst hc0
        have hch0 : chain t 0 = [0] := rfl
        have hq'cnt : q'.countP (fun u => decide ((0 : Nat) ∈ chain t u)) = q'.length := by
          rw [List.countP_eq_length]
          intro u hu
          simp [hroot u (List.mem_cons_of_mem _ hu)]
        have hScnt : S.countP (fun u => decide ((0 : Nat) ∈ chain t u)) = total := by
          rw [htot, List.countP_eq_length]
          intro u hu
          simp [hSroot u hu]
        have hinv0 := hinv 0
        rw [countP_cons_true _ _ _ (by simp [mem_chain_self]), hq'cnt, hScnt] at hinv0
        have hlen0 : (chain t (0 : Nat)).length = 1 := by rw [hch0]; rfl
        by_cases hq'e : q' = []
        · subst hq'e
          rw [if_pos (by
            show cntOf count 0 + 1 = total
            simp only [List.length_nil] at hinv0
            omega)]
        · rw [if_neg (by
            show ¬((count.lookup 0).getD 0 + 1 = total)
            have hq'l : 1 ≤ q'.length := by
              cases q' with
              | nil => exact absurd rfl hq'e
              | cons a l => simp
            rw [show (count.lookup 0).getD 0 = cntOf count 0 from rfl]
            omega)]
          rw [if_neg (not_not_intro hpar)]
          refine ih q' (updC count 0 ((count.lookup 0).getD 0 + 1)) ?_ ?_ hq'e (by omega)
          · intro w
            rw [show (updC count 0 ((count.lookup 0).getD 0 + 1)) =
              (updC count 0 (cntOf count 0 + 1)) from rfl, updC_cnt]
            by_cases hw0 : w = 0
            · subst hw0
              rw [if_pos rfl, hq'cnt, hScnt]
              omega
            · rw [if_neg hw0]
              have hinvw := hinv w
              rw [countP_cons_false _ _ _ (by
                rw [hch0]
                simp [hw0])] at hinvw
              exact hinvw
          · exact fun u hu => hroot u (List.mem_cons_of_mem _ hu)
      · have hcne : curr ≠ 0 := fun h => hpar (h ▸ h0)
        have hp := HWF curr hpar
        have hsplit := chain_unfold t HWF curr hpar
        have hb := hbound curr hcne
        have hinvc := hinv curr
        rw [countP_cons_true _ _ _ (by simp [mem_chain_self])] at hinvc
        rw [if_neg (by
          show ¬((count.lookup curr).getD 0 + 1 = total)
          rw [show (count.lookup curr).getD 0 = cntOf count curr from rfl]
          omega)]
        rw [if_pos hpar]
        have hlensplit : (chain t curr).length =
            (chain t (t.parent.getD curr NULL_NODE)).length + 1 := by
          rw [hsplit]
          rfl
        refine ih (q' ++ [t.parent.getD curr NULL_NODE])
          (updC count curr ((count.lookup curr).getD 0 + 1)) ?_ ?_ (by simp) ?_
        · intro w
          rw [show (updC count curr ((count.lookup curr).getD 0 + 1)) =
            (updC count curr (cntOf count curr + 1)) from rfl, updC_cnt, List.countP_append]
          have hinvw := hinv w
          by_cases hwc : w = curr
          · subst hwc
            rw [if_pos rfl]
            have hnotp : decide (w ∈ chain t (t.parent.getD w NULL_NODE)) = false := by
              simp only [decide_eq_false_iff_not]
              intro hmem
              have := chain_le t HWF (t.parent.getD w NULL_NODE) w hmem
              omega
            rw [countP_cons_true (fun u => decide (w ∈ chain t u)) w q'
              (by simp [mem_chain_self])] at hinvw
            rw [countP_cons_false (fun u => decide (w ∈ chain t u))
              (t.parent.getD w NULL_NODE) [] hnotp, List.countP_nil]
            omega
          · rw [if_neg hwc]
            have hiff : decide (w ∈ chain t curr) =
                decide (w ∈ chain t (t.parent.getD curr NULL_NODE)) := by
              rw [hsplit]
              simp only [List.mem_cons, decide_eq_decide]
              exact ⟨fun h => h.resolve_left hwc, fun h => Or.inr h⟩
            cases hval : decide (w ∈ chain t (t.parent.getD curr NULL_NODE)) with
            | true =>
              rw [countP_cons_true (fun u => decide (w ∈ chain t u)) curr q'
                (hiff.trans hval)] at hinvw
              rw [countP_cons_true (fun u => decide (w ∈ chain t u))
                (t.parent.getD curr NULL_NODE) [] hval, List.countP_nil]
              omega
            | false =>
              rw [countP_cons_false (fun u => decide (w ∈ chain t u)) curr q'
                (hiff.trans hval)] at hinvw
              rw [countP_cons_false (fun u => decide (w ∈ chain t u))
                (t.parent.getD curr NULL_NODE) [] hval, List.countP_nil]
              omega
        · intro u hu
          rw [List.mem_append] at hu
          rcases hu with hu | hu
          · exact hroot u (List.mem_cons_of_mem _ hu)
          · rw [List.mem_singleton] at hu
            subst hu
            have h0c := hroot curr (by simp)
            rw [hsplit, List.mem_cons] at h0c
            rcases h0c with h | h
            · exact absurd h.symm hcne
            · exact h
        · simp only [List.map_append, List.sum_append, List.map_cons, List.map_nil,
            List.sum_cons, List.sum_nil]
          omega

/-! ### Parent-slot characterization of the arena, and `find_mrca` over all leaves -/

mutual
/-- The parent slots of the block storing `r` at id `n`: node `n`'s own parent
slot holds `par`, and the slots of each child block hold `n`, recursively. -/
def ParAt (t : compact_tree) : Nat → Nat → Rose → Prop
  | par, n, .node _ _ cs =>
    t.parent.getD n NULL_NODE = par ∧ ParAtList t n (n + 1) cs
def ParAtList (t : compact_tree) : Nat → Nat → List Rose → Prop
  | _, _, [] => True
  | par, base, c :: cs => ParAt t par base c ∧ ParAtList t par (base + roseSize c) cs
end

theorem ParAt_self (t : compact_tree) (par n : Nat) (r : Rose) (h : ParAt t par n r) :
    t.parent.getD n NULL_NODE = par := by
  match r with
  | .node l q cs =>
    rw [ParAt] at h
    exact h.1

mutual
theorem ParAt_mono (t t' : compact_tree) (par n : Nat) (r : Rose)
    (hpres : ∀ k, n ≤ k → k < n + roseSize r → t'.parent.get? k = t.parent.get? k)
    (h : ParAt t par n r) : ParAt t' par n r := by
  match r with
  | .node l q cs =>
    rw [ParAt] at h ⊢
    have hsz := roseSize_node l q cs
    refine ⟨?_, ?_⟩
    · rw [getD_eq_of_get? (hpres n (Nat.le_refl n) (by omega))]
      exact h.1
    · exact ParAtList_mono t t' n (n + 1) cs
        (fun k hk1 hk2 => hpres k (by omega) (by omega)) h.2
theorem ParAtList_mono (t t' : compact_tree) (par base : Nat) (cs : List Rose)
    (hpres : ∀ k, base ≤ k → k < base + roseSizeList cs → t'.parent.get? k = t.parent.get? k)
    (h : ParAtList t par base cs) : ParAtList t' par base cs := by
  match cs with
  | [] => trivial
  | c :: cs =>
    rw [ParAtList] at h ⊢
    have hsz := roseSizeList_cons c cs
    have hp : 1 ≤ roseSize c := roseSize_pos c
    refine ⟨ParAt_mono t t' par base c
        (fun k hk1 hk2 => hpres k (by omega) (by omega)) h.1,
      ParAtList_mono t t' par (base + roseSize c) cs
        (fun k hk1 hk2 => hpres k (by omega) (by omega)) h.2⟩
end

theorem create_child_parent_eq (t : compact_tree) (p : Nat) (a b : Bool) :
    (create_child t p a b).1.parent = t.parent ++ [p] := by
  unfold create_child
  simp only
  split <;> split <;> split <;> rfl

theorem attachRose_parent_kids (a b : Bool) (t : compact_tree) (n : Nat)
    (l : String) (q : Rat) (cs : List Rose) :
    (attachRose a b t n (.node l q cs)).parent = (attachKids a b t n cs).parent := by
  rw [attachRose]
  split <;> split <;> rfl

mutual
theorem attachRose_parent_ext (a b : Bool) (t : compact_tree) (n : Nat) (r : Rose) :
    ∃ ext, (attachRose a b t n r).parent = t.parent ++ ext := by
  match r with
  | .node l q cs =>
    obtain ⟨ext, hext⟩ := attachKids_parent_ext a b t n cs
    exact ⟨ext, by rw [attachRose_parent_kids, hext]⟩
theorem attachKids_parent_ext (a b : Bool) (t : compact_tree) (n : Nat) (cs : List Rose) :
    ∃ ext, (attachKids a b t n cs).parent = t.parent ++ ext := by
  match cs with
  | [] => exact ⟨[], by rw [attachKids]; simp⟩
  | c :: cs =>
    rw [attachKids]
    obtain ⟨e1, h1⟩ :=
      attachRose_parent_ext a b (create_child t n a b).1 (create_child t n a b).2 c
    obtain ⟨e2, h2⟩ := attachKids_parent_ext a b
      (attachRose a b (create_child t n a b).1 (create_child t n a b).2 c) n cs
    refine ⟨[n] ++ e1 ++ e2, ?_⟩
    rw [h2, h1, create_child_parent_eq]
    simp
end

theorem attachKids_parent_get? (a b : Bool) (t : compact_tree) (n : Nat) (cs : List Rose)
    (k : Nat) (hk : k < t.parent.length) :
    (attachKids a b t n cs).parent.get? k = t.parent.get? k := by
  obtain ⟨ext, hext⟩ := attachKids_parent_ext a b t n cs
  rw [hext, List.get?_append hk]

mutual
theorem attachRose_parat (a b : Bool) (t : compact_tree) (n par : Nat) (r : Rose)
    (hlen : t.parent.length = n + 1)
    (hpar : t.parent.getD n NULL_NODE = par) :
    ParAt (attachRose a b t n r) par n r := by
  match r with
  | .node l q cs =>
    rw [ParAt]
    have hpk := attachRose_parent_kids a b t n l q cs
    have hkl : ParAtList (attachKids a b t n cs) n t.parent.length cs :=
      attachKids_parat a b t n cs (by omega)
    refine ⟨?_, ?_⟩
    · rw [hpk]
      rw [getD_eq_of_get? (attachKids_parent_get? a b t n cs n (by omega))]
      exact hpar
    · rw [hlen] at hkl
      exact ParAtList_mono _ _ n (n + 1) cs (fun k hk1 hk2 => by rw [hpk]) hkl
theorem attachKids_parat (a b : Bool) (t : compact_tree) (n : Nat) (cs : List Rose)
    (hn : n < t.parent.length) :
    ParAtList (attachKids a b t n cs) n t.parent.length cs := by
  match cs with
  | [] => trivial
  | c :: cs =>
    rw [attachKids, ParAtList]
    have hfresh : (create_child t n a b).2 = t.parent.length := create_child_snd t n a b
    have hlen0 := create_child_plen t n a b
    have hl1 := attach_one_len a b t n c
    have hszc := roseSize_pos c
    have hsub1 : ParAt (attachRose a b (create_child t n a b).1 (create_child t n a b).2 c)
        n (create_child t n a b).2 c :=
      attachRose_parat a b (create_child t n a b).1 (create_child t n a b).2 n c
        (by rw [hlen0, hfresh])
        (by rw [create_child_parent_eq, hfresh]
            exact getD_of_get? (List.get?_concat_length t.parent n) NULL_NODE)
    have hrest : ParAtList (attachKids a b (attachRose a b (create_child t n a b).1
        (create_child t n a b).2 c) n cs) n
        (attachRose a b (create_child t n a b).1 (create_child t n a b).2 c).parent.length cs :=
      attachKids_parat a b _ n cs (by omega)
    constructor
    · rw [hfresh] at hsub1
      refine ParAt_mono _ _ n t.parent.length c (fun k hk1 hk2 => ?_) hsub1
      exact attachKids_parent_get? a b _ n cs k (by omega)
    · rw [hl1] at hrest
      exact hrest
end

theorem seed_parent (a b : Bool) :
    (create_child empty_tree NULL_NODE a b).1.parent = [NULL_NODE] := by
  cases a <;> cases b <;> rfl

theorem roseArena_parat (a b : Bool) (r : Rose) :
    ParAt (roseArena a b r) NULL_NODE 0 r := by
  unfold roseArena
  rw [show (ROOT_NODE : Nat) = 0 from rfl]
  refine attachRose_parat a b _ 0 NULL_NODE r ?_ ?_
  · rw [seed_parent]
    rfl
  · rw [seed_parent]
    rfl

mutual
theorem ParAt_bounds (t : compact_tree) (par n : Nat) (r : Rose) (h : ParAt t par n r) :
    ∀ k, n < k → k < n + roseSize r →
      n ≤ t.parent.getD k NULL_NODE ∧ t.parent.getD k NULL_NODE < k := by
  match r with
  | .node l q cs =>
    rw [ParAt] at h
    intro k hk1 hk2
    have hsz := roseSize_node l q cs
    exact ParAtList_bounds t n (n + 1) cs h.2 (by omega) k (by omega) (by omega)
theorem ParAtList_bounds (t : compact_tree) (par base : Nat) (cs : List Rose)
    (h : ParAtList t par base cs) (hpb : par < base) :
    ∀ k, base ≤ k → k < base + roseSizeList cs →
      par ≤ t.parent.getD k NULL_NODE ∧ t.parent.getD k NULL_NODE < k := by
  match cs with
  | [] =>
    intro k hk1 hk2
    rw [roseSizeList] at hk2
    omega
  | c :: cs =>
    rw [ParAtList] at h
    intro k hk1 hk2
    have hsz := roseSizeList_cons c cs
    have hszc := roseSize_pos c
    by_cases hk : k < base + roseSize c
    · by_cases hkb : k = base
      · have hps := ParAt_self t par base c h.1
        rw [hkb]
        omega
      · have := ParAt_bounds t par base c h.1 k (by omega) hk
        omega
    · have := ParAtList_bounds t par (base + roseSize c) cs h.2 (by omega) k (by omega)
        (by omega)
      omega
end

theorem ParAt_cases (t : compact_tree) (par n : Nat) (r : Rose) (h : ParAt t par n r) :
    ∀ k, n ≤ k → k < n + roseSize r →
      t.parent.getD k NULL_NODE = par ∨
      (n ≤ t.parent.getD k NULL_NODE ∧ t.parent.getD k NULL_NODE < k) := by
  intro k hk1 hk2
  by_cases hkn : k = n
  · exact Or.inl (by rw [hkn]; exact ParAt_self t par n r h)
  · exact Or.inr (ParAt_bounds t par n r h k (by omega) hk2)

theorem ParAtList_cases (t : compact_tree) (par base : Nat) (cs : List Rose)
    (h : ParAtList t par base cs) (hpb : par < base) :
    ∀ k, base ≤ k → k < base + roseSizeList cs →
      t.parent.getD k NULL_NODE = par ∨
      (base ≤ t.parent.getD k NULL_NODE ∧ t.parent.getD k NULL_NODE < k) := by
  match cs with
  | [] =>
    intro k hk1 hk2
    rw [roseSizeList] at hk2
    omega
  | c :: cs =>
    rw [ParAtList] at h
    intro k hk1 hk2
    have hsz := roseSizeList_cons c cs
    have hszc := roseSize_pos c
    by_cases hk : k < base + roseSize c
    · rcases ParAt_cases t par base c h.1 k hk1 hk with h1 | h1
      · exact Or.inl h1
      · exact Or.inr h1
    · rcases ParAtList_cases t par (base + roseSize c) cs h.2 (by omega) k (by omega)
        (by omega) with h1 | h1
      · exact Or.inl h1
      · exact Or.inr ⟨by omega, h1.2⟩

theorem getD_oob {α : Type} (l : List α) (k : Nat) (d : α) (h : l.length ≤ k) :
    l.getD k d = d := by
  rw [List.getD_eq_getElem?_getD, List.getElem?_eq_none h]
  rfl

/-- Chains starting inside a block whose parent slots either point to the root
or stay inside the block never leave the block except to reach the root. -/
theorem chain_confine (t : compact_tree)
    (HWF : ∀ k, t.parent.getD k NULL_NODE ≠ NULL_NODE → t.parent.getD k NULL_NODE < k)
    (h0 : t.parent.getD 0 NULL_NODE = NULL_NODE)
    (base sz : Nat) (hb : 0 < base) (hcap : base + sz ≤ NULL_NODE)
    (hcase : ∀ k, base ≤ k → k < base + sz →
      t.parent.getD k NULL_NODE = 0 ∨
      (base ≤ t.parent.getD k NULL_NODE ∧ t.parent.getD k NULL_NODE < k)) :
    ∀ u, base ≤ u → u < base + sz →
      ∀ v ∈ chain t u, v = 0 ∨ (base ≤ v ∧ v < base + sz) := by
  intro u
  induction u using Nat.strong_induction_on with
  | _ u ih =>
    intro hu1 hu2 v hv
    rcases hcase u hu1 hu2 with hp | hp
    · have hne : t.parent.getD u NULL_NODE ≠ NULL_NODE := by
        rw [hp]
        decide
      rw [chain_unfold t HWF u hne, hp, chain_single t 0 h0] at hv
      rcases List.mem_cons.mp hv with rfl | hv
      · exact Or.inr ⟨hu1, hu2⟩
      · rw [List.mem_singleton] at hv
        exact Or.inl hv
    · have hne : t.parent.getD u NULL_NODE ≠ NULL_NODE := by omega
      rw [chain_unfold t HWF u hne] at hv
      rcases List.mem_cons.mp hv with rfl | hv
      · exact Or.inr ⟨hu1, hu2⟩
      · exact ih _ hp.2 hp.1 (by omega) v hv

theorem SubAt_leaf_ex (a b : Bool) (t : compact_tree) (n : Nat) (r : Rose)
    (h : SubAt a b t n r) :
    ∃ u, n ≤ u ∧ u < n + roseSize r ∧ t.children.getD u [] = [] := by
  match r with
  | .node l q [] =>
    rw [SubAt] at h
    refine ⟨n, Nat.le_refl n, by have := roseSize_pos (Rose.node l q []); omega, ?_⟩
    rw [h.2.2.1]
    rfl
  | .node l q (c :: cs) =>
    rw [SubAt] at h
    have hsl := h.2.2.2
    rw [SubAtList] at hsl
    obtain ⟨u, hu1, hu2, hu3⟩ := SubAt_leaf_ex a b t (n + 1) c hsl.1
    have hsz := roseSize_node l q (c :: cs)
    have hsc := roseSizeList_cons c cs
    exact ⟨u, by omega, by omega, hu3⟩
termination_by roseSize r
decreasing_by
  rw [roseSize_node, roseSizeList_cons]
  have := roseSize_pos c
  omega

theorem countP_le_len {α : Type} (p : α → Bool) (l : List α) : l.countP p ≤ l.length := by
  induction l with
  | nil => simp
  | cons a l ih =>
    rw [List.countP_cons, List.length_cons]
    by_cases h : p a = true
    · rw [h]
      simp
      omega
    · rw [Bool.not_eq_true] at h
      rw [h]
      simp
      omega

theorem countP_lt_of_mem {α : Type} (p : α → Bool) (l : List α) (x : α)
    (hx : x ∈ l) (hpx : p x = false) : l.countP p < l.length := by
  induction l with
  | nil => cases hx
  | cons a l ih =>
    rw [List.countP_cons, List.length_cons]
    rcases List.mem_cons.mp hx with rfl | hx2
    · rw [hpx]
      have := countP_le_len p l
      simp
      omega
    · have := ih hx2
      by_cases h : p a = true
      · rw [h]
        simp
        omega
      · rw [Bool.not_eq_true] at h
        rw [h]
        simp
        omega

theorem sum_map_le {α : Type} (f : α → Nat) (l : List α) (k : Nat)
    (h : ∀ x ∈ l, f x ≤ k) : (l.map f).sum ≤ k * l.length := by
  induction l with
  | nil => simp
  | cons a l ih =>
    rw [List.map_cons, List.sum_cons, List.length_cons, Nat.mul_succ]
    have h1 := h a (by simp)
    have h2 := ih (fun x hx => h x (by simp [hx]))
    omega

/-- Discharges `find_mrca` to `0` from the queue invariant: the count of any
non-root node can never reach the total, while every walk reaches the root. -/
theorem mrca_finish (t : compact_tree)
    (HWF : ∀ k, t.parent.getD k NULL_NODE ≠ NULL_NODE → t.parent.getD k NULL_NODE < k)
    (h0 : t.parent.getD 0 NULL_NODE = NULL_NODE)
    (S : List Nat)
    (hSroot : ∀ u ∈ S, 0 ∈ chain t u)
    (hS : S ≠ [])
    (hbound : ∀ w, w ≠ 0 → S.countP (fun u => decide (w ∈ chain t u)) < S.length)
    (hlen : ∀ u ∈ S, (chain t u).length ≤ get_num_nodes t) :
    find_mrca t S = 0 := by
  rw [find_mrca]
  refine find_mrca_go_inv t HWF h0 S S.length rfl hSroot hbound _ S [] ?_ hSroot hS ?_
  · intro w
    have hc : cntOf [] w = 0 := rfl
    omega
  · have := sum_map_le (fun u => (chain t u).length) S (get_num_nodes t) hlen
    omega

theorem mrca_all_leaves_main (a b : Bool) (t : compact_tree) (lab : String) (q : Rat)
    (cs : List Rose)
    (hns : cs.length ≠ 1)
    (hpat : ParAt t NULL_NODE 0 (.node lab q cs))
    (hsub : SubAt a b t 0 (.node lab q cs))
    (hsz : t.parent.length = roseSize (.node lab q cs))
    (hcap : roseSize (.node lab q cs) ≤ NULL_NODE) :
    find_mrca t ((List.range (get_num_nodes t)).filter (fun k => is_leaf t k)) = 0 := by
  have hszn := roseSize_node lab q cs
  have h0 : t.parent.getD 0 NULL_NODE = NULL_NODE := ParAt_self t NULL_NODE 0 _ hpat
  have hpl : ParAtList t 0 1 cs := by
    have h := hpat
    rw [ParAt] at h
    exact h.2
  have HWF : ∀ k, t.parent.getD k NULL_NODE ≠ NULL_NODE → t.parent.getD k NULL_NODE < k := by
    intro k hk
    by_cases hlt : k < t.parent.length
    · by_cases hk0 : k = 0
      · rw [hk0] at hk
        exact absurd h0 hk
      · exact (ParAt_bounds t NULL_NODE 0 _ hpat k (by omega) (by omega)).2
    · exact absurd (getD_oob t.parent k NULL_NODE (by omega)) hk
  have hchain0 : ∀ u, u < roseSize (.node lab q cs) → 0 ∈ chain t u := by
    intro u
    induction u using Nat.strong_induction_on with
    | _ u ih =>
      intro hu
      by_cases hu0 : u = 0
      · rw [hu0, chain_single t 0 h0]
        simp
      · have hb := ParAt_bounds t NULL_NODE 0 _ hpat u (by omega) (by omega)
        have hne : t.parent.getD u NULL_NODE ≠ NULL_NODE := by omega
        rw [chain_unfold t HWF u hne]
        exact List.mem_cons_of_mem _ (ih _ hb.2 (by omega))
  have hmem : ∀ u : Nat, u ∈ (List.range (get_num_nodes t)).filter (fun k => is_leaf t k) ↔
      (u < roseSize (.node lab q cs) ∧ t.children.getD u [] = []) := by
    intro u
    simp only [List.mem_filter, List.mem_range, get_num_nodes, hsz, is_leaf, beq_iff_eq,
      List.length_eq_zero]
  cases cs with
  | nil =>
    have h00 : t.children.getD 0 [] = [] := by
      have hs := hsub
      rw [SubAt] at hs
      rw [hs.2.2.1]
      rfl
    have h0mem : 0 ∈ (List.range (get_num_nodes t)).filter (fun k => is_leaf t k) :=
      (hmem 0).mpr ⟨by omega, h00⟩
    refine mrca_finish t HWF h0 _ (fun u hu => hchain0 u ((hmem u).mp hu).1)
      (List.ne_nil_of_mem h0mem) ?_ ?_
    · intro w hw
      refine countP_lt_of_mem _ _ 0 h0mem ?_
      simp only [decide_eq_false_iff_not]
      rw [chain_single t 0 h0, List.mem_singleton]
      exact hw
    · intro u hu
      have h1 := ((hmem u).mp hu).1
      have h2 := chain_len t HWF u
      rw [hszn] at h1
      rw [get_num_nodes, hsz]
      omega
  | cons c cs' =>
    cases cs' with
    | nil => exact absurd rfl hns
    | cons c2 cs'' =>
      have hsc := roseSizeList_cons c (c2 :: cs'')
      have hsc2 := roseSizeList_cons c2 cs''
      have hc1 := roseSize_pos c
      have hc2 := roseSize_pos c2
      have hs := hsub
      rw [SubAt] at hs
      have hsl := hs.2.2.2
      rw [SubAtList] at hsl
      have hsl2 := hsl.2
      rw [SubAtList] at hsl2
      obtain ⟨uA, hA1, hA2, hA3⟩ := SubAt_leaf_ex a b t (0 + 1) c hsl.1
      obtain ⟨uB, hB1, hB2, hB3⟩ := SubAt_leaf_ex a b t (0 + 1 + roseSize c) c2 hsl2.1
      have hAmem : uA ∈ (List.range (get_num_nodes t)).filter (fun k => is_leaf t k) :=
        (hmem uA).mpr ⟨by omega, hA3⟩
      have hBmem : uB ∈ (List.range (get_num_nodes t)).filter (fun k => is_leaf t k) :=
        (hmem uB).mpr ⟨by omega, hB3⟩
      have hplc := hpl
      rw [ParAtList] at hplc
      have hconfA := chain_confine t HWF h0 1 (roseSize c) (by omega) (by omega)
        (fun k hk1 hk2 => ParAt_cases t 0 1 c hplc.1 k hk1 hk2)
      have hconfB := chain_confine t HWF h0 (1 + roseSize c) (roseSizeList (c2 :: cs''))
        (by omega) (by omega)
        (fun k hk1 hk2 =>
          ParAtList_cases t 0 (1 + roseSize c) (c2 :: cs'') hplc.2 (by omega) k hk1 hk2)
      refine mrca_finish t HWF h0 _ (fun u hu => hchain0 u ((hmem u).mp hu).1)
        (List.ne_nil_of_mem hAmem) ?_ ?_
      · intro w hw
        by_cases hwA : 1 ≤ w ∧ w < 1 + roseSize c
        · refine countP_lt_of_mem _ _ uB hBmem ?_
          simp only [decide_eq_false_iff_not]
          intro hmem2
          rcases hconfB uB (by omega) (by omega) w hmem2 with h | h
          · exact hw h
          · omega
        · refine countP_lt_of_mem _ _ uA hAmem ?_
          simp only [decide_eq_false_iff_not]
          intro hmem2
          rcases hconfA uA (by omega) (by omega) w hmem2 with h | h
          · exact hw h
          · exact hwA h
      · intro u hu
        have h1 := ((hmem u).mp hu).1
        have h2 := chain_len t HWF u
        rw [get_num_nodes, hsz]
        omega

/-- C5: `find_mrca` over the list of all leaves returns the root for every tree
whose root is itself a leaf or has at least two children; the amended claim
excludes roots with exactly one child, where the code walks past the root's
sole child (see `C5_mrca_all_leaves_counterexample`). -/
theorem C5_mrca_all_leaves_root (a b : Bool) (lab : String) (q : Rat) (cs : List Rose)
    (hns : cs.length ≠ 1)
    (hcap : roseSize (.node lab q cs) ≤ NULL_NODE) :
    find_mrca (roseArena a b (.node lab q cs))
      ((List.range (get_num_nodes (roseArena a b (.node lab q cs)))).filter
        (fun k => is_leaf (roseArena a b (.node lab q cs)) k)) = ROOT_NODE :=
  mrca_all_leaves_main a b (roseArena a b (.node lab q cs)) lab q cs hns
    (roseArena_parat a b (.node lab q cs))
    (roseArena_subat a b (.node lab q cs) hcap)
    (roseArena_size a b (.node lab q cs)) hcap

/-- Witness for C5 on the two-leaf tree `(A:1,B:2);`. -/
theorem C5_mrca_all_leaves_root_witness :
    ([Rose.node "A" 1 [], Rose.node "B" 2 []] : List Rose).length ≠ 1 ∧
    roseSize (.node "" 0 [.node "A" 1 [], .node "B" 2 []]) ≤ NULL_NODE ∧
    find_mrca (roseArena true true (.node "" 0 [.node "A" 1 [], .node "B" 2 []]))
      ((List.range (get_num_nodes
          (roseArena true true (.node "" 0 [.node "A" 1 [], .node "B" 2 []])))).filter
        (fun k => is_leaf (roseArena true true
          (.node "" 0 [.node "A" 1 [], .node "B" 2 []])) k)) = ROOT_NODE :=
  ⟨by decide, by decide,
    C5_mrca_all_leaves_root true true "" 0 [.node "A" 1 [], .node "B" 2 []]
      (by decide) (by decide)⟩
